import Mathlib

/-!
# HexaVM: assembler and execution engine

A shallow embedding of the HexaVM sources (`setup.h`, `cpu.cpp`, `assembler.h`,
`assembler.cpp`) and the properties proved about it.

Conventions of the embedding.

* Machine integers are natural numbers; every assignment to a `uint16_t`
  reduces modulo `65536` and every assignment to a `uint8_t` modulo `256`.
* The global array `memory` is declared `uint8_t memory[MEMORY_MAX]` with
  `MEMORY_MAX = 0xffff`, so its valid indices are `0 .. 0xfffe`.  The embedding
  keeps a flat address space (`cell`, total on the naturals) in which the array
  is the first `MEMORY_MAX` cells and records in the flag `oob` whether an
  index outside the array has ever been used.
* Text is a list of characters; `std::istringstream` is modelled by `IStream`.
* A local variable that is read without having been initialised (an operand
  that is missing in the source line) holds an indeterminate value; the
  functions of the assembler take it as the parameter `u`.  The two passes of
  an assembly read different local variables, and so do two assemblies:
  `assemble` takes one such value for each pass.
* `wait_cycles` is a busy wait on the wall clock and has no effect on the
  state.
-/

namespace HexaVM

/-! ## setup.h -/

/-- Size of the global memory array, `#define MEMORY_MAX 0xffff // in bytes`. -/
def MEMORY_MAX : Nat := 0xffff

/-- The global `uint8_t memory[MEMORY_MAX]`, seen as a flat address space.
`cell i` is the byte at index `i`; `oob` records that some index at or beyond
`MEMORY_MAX` (outside the array) has been accessed. -/
structure Memory where
  cell : Nat → Nat
  oob : Bool

/-- Index `i` lies inside the array `memory`. -/
def Memory.InBounds (i : Nat) : Prop := i < MEMORY_MAX

instance (i : Nat) : Decidable (Memory.InBounds i) := by
  unfold Memory.InBounds; infer_instance

/-- Record an access to index `i`. -/
def Memory.touch (m : Memory) (i : Nat) : Memory :=
  { m with oob := m.oob || decide (MEMORY_MAX ≤ i) }

/-- The assignment `memory[i] = v` (the value is converted to `uint8_t`). -/
def Memory.write (m : Memory) (i v : Nat) : Memory :=
  { cell := fun j => if j = i then v % 256 else m.cell j,
    oob := m.oob || decide (MEMORY_MAX ≤ i) }

/-- The memory after `std::memset(memory, 0, MEMORY_MAX)` (`clearMemory`), with
the cells behind the array taken as zero as well. -/
def Memory.zero : Memory := { cell := fun _ => 0, oob := false }

/-- The enumeration `opcodes` of `setup.h`. -/
inductive Opcode
  | NOP | LDA_IMM | LDB_IMM | ADD | SUB | MUL | DIV | MOD
  | PRINT_A | PRINT_CHAR | IN_A
  | JMP | JZ | JNZ | HLT | JN | JP
  | LOAD_A_MEM | STORE_A_MEM | LOAD8_A_MEM | STORE8_A_MEM
  | MOV8_MEM_IMM | MOV_REG_IMM | MOV_REG_REG | MOV_REG_MEM | MOV_REG_MEM2
  | MOV_MEM_REG | MOV_MEM_IMM | LOAD | STORE
  | CMP | JEQ | JGT | JLT | INC | LDC_IMM | PRINT_R
  | CALL | RET | PUSH_A | POP_A | PUSH_B | POP_B
  | AND | OR | XOR | NOT | SHL | SHR
  | WAIT
  | SYSCALL | INT | RESET | HALT
  deriving DecidableEq, Repr

/-- The numeric value of each enumerator. -/
def Opcode.toByte : Opcode → Nat
  | .NOP => 0x00 | .LDA_IMM => 0x01 | .LDB_IMM => 0x02 | .ADD => 0x03
  | .SUB => 0x04 | .MUL => 0x05 | .DIV => 0x06 | .MOD => 0x07
  | .PRINT_A => 0x08 | .PRINT_CHAR => 0x09 | .IN_A => 0x0A
  | .JMP => 0x10 | .JZ => 0x11 | .JNZ => 0x12 | .HLT => 0x13
  | .JN => 0x14 | .JP => 0x15
  | .LOAD_A_MEM => 0x20 | .STORE_A_MEM => 0x21 | .LOAD8_A_MEM => 0x22
  | .STORE8_A_MEM => 0x23
  | .MOV8_MEM_IMM => 0x31 | .MOV_REG_IMM => 0x32 | .MOV_REG_REG => 0x33
  | .MOV_REG_MEM => 0x34 | .MOV_REG_MEM2 => 0x35 | .MOV_MEM_REG => 0x36
  | .MOV_MEM_IMM => 0x37 | .LOAD => 0x38 | .STORE => 0x39
  | .CMP => 0x40 | .JEQ => 0x41 | .JGT => 0x42 | .JLT => 0x43
  | .INC => 0x44 | .LDC_IMM => 0x45 | .PRINT_R => 0x46
  | .CALL => 0x50 | .RET => 0x51 | .PUSH_A => 0x52 | .POP_A => 0x53
  | .PUSH_B => 0x54 | .POP_B => 0x55
  | .AND => 0x60 | .OR => 0x61 | .XOR => 0x62 | .NOT => 0x63
  | .SHL => 0x64 | .SHR => 0x65
  | .WAIT => 0x70
  | .SYSCALL => 0xF0 | .INT => 0xF1 | .RESET => 0xFE | .HALT => 0xFF

/-- All enumerators, in declaration order. -/
def Opcode.all : List Opcode :=
  [.NOP, .LDA_IMM, .LDB_IMM, .ADD, .SUB, .MUL, .DIV, .MOD,
   .PRINT_A, .PRINT_CHAR, .IN_A,
   .JMP, .JZ, .JNZ, .HLT, .JN, .JP,
   .LOAD_A_MEM, .STORE_A_MEM, .LOAD8_A_MEM, .STORE8_A_MEM,
   .MOV8_MEM_IMM, .MOV_REG_IMM, .MOV_REG_REG, .MOV_REG_MEM, .MOV_REG_MEM2,
   .MOV_MEM_REG, .MOV_MEM_IMM, .LOAD, .STORE,
   .CMP, .JEQ, .JGT, .JLT, .INC, .LDC_IMM, .PRINT_R,
   .CALL, .RET, .PUSH_A, .POP_A, .PUSH_B, .POP_B,
   .AND, .OR, .XOR, .NOT, .SHL, .SHR,
   .WAIT,
   .SYSCALL, .INT, .RESET, .HALT]

/-- The `case` label, if any, that a fetched byte selects in the `switch` of
`start`; `none` is the `default:` branch. -/
def decode (byte : Nat) : Option Opcode :=
  Opcode.all.find? (fun o => o.toByte == byte)

/-- The record `struct CPU`. -/
structure CPU where
  pc : Nat
  a : Nat
  b : Nat
  c : Nat
  mem_base : Nat
  flag : Nat
  zero_flag : Nat
  negative_flag : Nat
  stack : List Nat

/-- The member function `CPU::reset`; `instruction_base` is the global of that
name (declared `extern` in `setup.h`). -/
def CPU.reset (instruction_base : Nat) (cpu : CPU) : CPU :=
  { cpu with
    pc := instruction_base % 65536, a := 0, b := 0,
    flag := 0, zero_flag := 0, negative_flag := 0, stack := [] }

/-! ## cpu.cpp -/

/-- Diagnostics written to `std::cerr` by `start`. -/
inductive Diag
  | unknownRegister (reg : Nat)
  | unknownSyscall (num : Nat)
  | unhandledInt (num : Nat)
  | unknownOpcode (opcode : Nat) (at_pc : Int)
  deriving DecidableEq, Repr

/-- Everything `start` reads and writes: the globals `cpu`, `memory` and
`cpu_running`, the characters written to `std::cout`, the diagnostics written
to `std::cerr` and the characters still to be read from `std::cin`.  The field
`fetched` is a ghost counter, absent from the program: it counts the
evaluations of `memory[cpu.pc++]`, that is the bytes consumed through the
program counter. -/
structure Machine where
  cpu : CPU
  memory : Memory
  cpu_running : Bool
  cout : List Char
  cerr : List Diag
  cin : List Nat
  fetched : Nat

/-- The expression `memory[cpu.pc++]`: the byte at the program counter and the
machine with the counter advanced (as `uint16_t`). -/
def Machine.fetch (s : Machine) : Nat × Machine :=
  (s.memory.cell s.cpu.pc,
   { s with memory := s.memory.touch s.cpu.pc,
            cpu := { s.cpu with pc := (s.cpu.pc + 1) % 65536 },
            fetched := s.fetched + 1 })

/-- The value `(arg1 << 8) | arg2` stored into the `uint16_t addr`. -/
def word (arg1 arg2 : Nat) : Nat := ((arg1 <<< 8) ||| arg2) % 65536

/-- The recurring three statements
`arg1 = memory[cpu.pc++]; arg2 = memory[cpu.pc++]; addr = (arg1 << 8) | arg2;`. -/
def Machine.fetchAddr (s : Machine) : Nat × Machine :=
  let r1 := s.fetch
  let r2 := r1.2.fetch
  (word r1.1 r2.1, r2.2)

/-- The rvalue `memory[i]`. -/
def Machine.load (s : Machine) (i : Nat) : Nat × Machine :=
  (s.memory.cell i, { s with memory := s.memory.touch i })

/-- The statement `memory[i] = v`. -/
def Machine.store (s : Machine) (i v : Nat) : Machine :=
  { s with memory := s.memory.write i v }

/-- Assignment to `cpu.pc`. -/
def Machine.setPc (s : Machine) (v : Nat) : Machine :=
  { s with cpu := { s.cpu with pc := v % 65536 } }

/-- Assignment to `cpu.a`. -/
def Machine.setA (s : Machine) (v : Nat) : Machine :=
  { s with cpu := { s.cpu with a := v % 65536 } }

/-- Assignment to `cpu.b`. -/
def Machine.setB (s : Machine) (v : Nat) : Machine :=
  { s with cpu := { s.cpu with b := v % 65536 } }

/-- Assignment to `cpu.c`. -/
def Machine.setC (s : Machine) (v : Nat) : Machine :=
  { s with cpu := { s.cpu with c := v % 65536 } }

/-- The statement `cpu.stack.push(v)`. -/
def Machine.push (s : Machine) (v : Nat) : Machine :=
  { s with cpu := { s.cpu with stack := (v % 65536) :: s.cpu.stack } }

/-- The statement `cpu_running = false`. -/
def Machine.stop (s : Machine) : Machine := { s with cpu_running := false }

/-- Insertion of an unsigned number into `std::cout` (decimal). -/
def Machine.printNum (s : Machine) (v : Nat) : Machine :=
  { s with cout := s.cout ++ Nat.toDigits 10 v }

/-- Insertion of `static_cast<char>(v & 0xFF)` into `std::cout`. -/
def Machine.printChar (s : Machine) (v : Nat) : Machine :=
  { s with cout := s.cout ++ [Char.ofNat (v &&& 0xFF)] }

/-- Insertion of `std::endl` into `std::cout`. -/
def Machine.printEndl (s : Machine) : Machine :=
  { s with cout := s.cout ++ ['\n'] }

/-- Insertion of a diagnostic line into `std::cerr`. -/
def Machine.report (s : Machine) (d : Diag) : Machine :=
  { s with cerr := s.cerr ++ [d] }

/-- The function `wait_cycles`: a busy wait on the wall clock, without effect
on the machine. -/
def Machine.wait_cycles (s : Machine) (_cycles : Nat) : Machine := s

/-- The common body of the conditional jumps: fetch the address, then assign
it to the program counter when the condition holds. -/
def Machine.jumpIf (s : Machine) (cond : CPU → Bool) : Machine :=
  let r := s.fetchAddr
  if cond r.2.cpu then r.2.setPc r.1 else r.2

/-- The body of the `case` selected by `op`, run after the opcode byte has
been fetched. -/
def exec (instruction_base : Nat) (op : Opcode) (s : Machine) : Machine :=
  match op with
  | .NOP => s
  | .INC =>
    let r := s.fetch
    let reg := r.1
    let s := r.2
    if reg = 97 then s.setA (s.cpu.a + 1)
    else if reg = 98 then s.setB (s.cpu.b + 1)
    else if reg = 99 then s.setC (s.cpu.c + 1)
    else s
  | .LDA_IMM => let r := s.fetchAddr; r.2.setA r.1
  | .LDB_IMM => let r := s.fetchAddr; r.2.setB r.1
  | .LDC_IMM => let r := s.fetchAddr; r.2.setC r.1
  | .ADD => s.setA (s.cpu.a + s.cpu.b)
  | .SUB => s.setA (s.cpu.a + 65536 - s.cpu.b % 65536)
  | .MUL => s.setA (s.cpu.a * s.cpu.b)
  | .DIV => if s.cpu.b ≠ 0 then s.setA (s.cpu.a / s.cpu.b) else s
  | .MOD => if s.cpu.b ≠ 0 then s.setA (s.cpu.a % s.cpu.b) else s
  | .PRINT_A => s.printNum s.cpu.a
  | .PRINT_R =>
    let r := s.fetch
    let reg := r.1
    let s := r.2
    if reg = 97 then s.printNum s.cpu.a
    else if reg = 98 then s.printNum s.cpu.b
    else if reg = 99 then s.printNum s.cpu.c
    else (s.report (.unknownRegister reg)).stop
  | .PRINT_CHAR => s.printChar s.cpu.a
  | .IN_A =>
    match s.cin with
    | [] => s.setA 65535
    | ch :: rest => { s with cin := rest }.setA (ch % 256)
  | .JMP => s.jumpIf (fun _ => true)
  | .JZ => s.jumpIf (fun cpu => cpu.zero_flag != 0)
  | .JNZ => s.jumpIf (fun cpu => cpu.zero_flag == 0)
  | .HLT => s.stop
  | .JN => s.jumpIf (fun cpu => cpu.negative_flag != 0)
  | .JP => s.jumpIf (fun cpu => cpu.negative_flag == 0 && cpu.zero_flag == 0)
  | .LOAD_A_MEM =>
    let r := s.fetchAddr
    let addr := r.1
    let s := r.2
    if addr < MEMORY_MAX then
      let h := s.load addr
      let l := h.2.load (addr + 1)
      l.2.setA ((h.1 <<< 8) ||| l.1)
    else s
  | .STORE_A_MEM =>
    let r := s.fetchAddr
    let addr := r.1
    let s := r.2
    if addr < MEMORY_MAX then
      let arg1 := s.cpu.a &&& 0xFF
      let arg2 := (s.cpu.a >>> 8) &&& 0xFF
      (s.store addr arg1).store (addr + 1) arg2
    else s
  | .LOAD8_A_MEM =>
    let r := s.fetchAddr
    let addr := r.1
    let s := r.2
    if addr < MEMORY_MAX then
      let v := s.load addr
      v.2.setA v.1
    else s
  | .STORE8_A_MEM =>
    let r := s.fetchAddr
    let addr := r.1
    let s := r.2
    if addr < MEMORY_MAX then s.store addr (s.cpu.a &&& 0xFF) else s
  | .MOV_MEM_IMM =>
    let r := s.fetchAddr
    let addr := r.1
    let r1 := r.2.fetch
    let r2 := r1.2.fetch
    (r2.2.store addr r1.1).store (addr + 1) r2.1
  | .MOV_REG_IMM =>
    let r := s.fetch
    let reg := r.1
    let ra := r.2.fetchAddr
    let r1 := ra.2.fetch
    let r2 := r1.2.fetch
    let s := r2.2
    if reg = 97 then s.setA ((r1.1 <<< 8) ||| r2.1)
    else if reg = 98 then s.setB ((r1.1 <<< 8) ||| r2.1)
    else s
  | .MOV_REG_REG =>
    let r := s.fetch
    let reg := r.1
    let r1 := r.2.fetch
    let s := r1.2
    if reg = 97 then s.setA s.cpu.b else s.setB s.cpu.a
  | .MOV_MEM_REG =>
    let r := s.fetchAddr
    let addr := r.1
    let rr := r.2.fetch
    let reg := rr.1
    let s := rr.2
    if reg = 97 then
      (s.store addr (s.cpu.a &&& 0xFF)).store (addr + 1) ((s.cpu.a >>> 8) &&& 0xFF)
    else if reg = 98 then
      (s.store addr (s.cpu.b &&& 0xFF)).store (addr + 1) ((s.cpu.b >>> 8) &&& 0xFF)
    else s
  | .MOV_REG_MEM2 =>
    let r := s.fetch
    let reg := r.1
    let ra := r.2.fetchAddr
    let addr := ra.1
    let s := ra.2
    if reg = 97 then
      let l := s.load addr
      let h := l.2.load (addr + 1)
      h.2.setA ((l.1 &&& 0xFF) ||| ((h.1 &&& 0xFF) <<< 8))
    else if reg = 98 then
      let l := s.load addr
      let h := l.2.load (addr + 1)
      h.2.setB ((l.1 &&& 0xFF) ||| ((h.1 &&& 0xFF) <<< 8))
    else s
  | .MOV_REG_MEM =>
    let r := s.fetch
    let reg := r.1
    let ra := r.2.fetchAddr
    let addr := ra.1
    let s := ra.2
    if reg = 97 then
      let v := s.load addr
      v.2.setA (v.1 &&& 0xFF)
    else if reg = 98 then
      let v := s.load addr
      v.2.setB (v.1 &&& 0xFF)
    else s
  | .LOAD =>
    let r := s.fetch
    let reg := r.1
    let ra := r.2.fetchAddr
    let addr := ra.1
    let s := ra.2
    if reg = 97 then
      let v := s.load addr
      v.2.setA v.1
    else if reg = 98 then
      let v := s.load addr
      v.2.setB v.1
    else s
  | .STORE =>
    let r := s.fetchAddr
    let addr := r.1
    let rr := r.2.fetch
    let reg := rr.1
    let s := rr.2
    if reg = 97 then
      (s.store addr (s.cpu.a &&& 0xFF)).store (addr + 1) ((s.cpu.a >>> 8) &&& 0xFF)
    else if reg = 98 then
      (s.store addr (s.cpu.b &&& 0xFF)).store (addr + 1) ((s.cpu.b >>> 8) &&& 0xFF)
    else s
  | .MOV8_MEM_IMM =>
    let r := s.fetchAddr
    let addr := r.1
    let r1 := r.2.fetch
    r1.2.store addr r1.1
  | .CMP =>
    { s with cpu := { s.cpu with
        zero_flag := if s.cpu.c = s.cpu.b then 1 else 0,
        negative_flag := if s.cpu.b < s.cpu.c then 1 else 0 } }
  | .JEQ => s.jumpIf (fun cpu => cpu.b == cpu.c)
  | .JGT => s.jumpIf (fun cpu => decide (cpu.b > cpu.c))
  | .JLT => s.jumpIf (fun cpu => decide (cpu.b < cpu.c))
  | .CALL =>
    let r := s.fetchAddr
    (r.2.push r.2.cpu.pc).setPc r.1
  | .RET =>
    match s.cpu.stack with
    | [] => s
    | top :: rest => { s with cpu := { s.cpu with pc := top % 65536, stack := rest } }
  | .PUSH_A => s.push s.cpu.a
  | .POP_A =>
    match s.cpu.stack with
    | [] => s
    | top :: rest => { s with cpu := { s.cpu with a := top % 65536, stack := rest } }
  | .PUSH_B => s.push s.cpu.b
  | .POP_B =>
    match s.cpu.stack with
    | [] => s
    | top :: rest => { s with cpu := { s.cpu with b := top % 65536, stack := rest } }
  | .AND => s.setA (s.cpu.a &&& s.cpu.b)
  | .OR => s.setA (s.cpu.a ||| s.cpu.b)
  | .XOR => s.setA (s.cpu.a ^^^ s.cpu.b)
  | .NOT => s.setA (65535 - s.cpu.a % 65536)
  | .SHL => s.setA (s.cpu.a <<< 1)
  | .SHR => s.setA (s.cpu.a >>> 1)
  | .WAIT =>
    let r := s.fetch
    r.2.wait_cycles r.1
  | .SYSCALL =>
    let syscall_num := s.cpu.a
    if syscall_num = 0x00 then s
    else if syscall_num = 0x01 then s.wait_cycles (s.cpu.b % 256)
    else if syscall_num = 0x02 then (s.printNum s.cpu.b).printEndl
    else if syscall_num = 0x03 then s.printChar s.cpu.b
    else if syscall_num = 0xFF then s.stop
    else (s.report (.unknownSyscall syscall_num)).stop
  | .INT =>
    let r := s.fetch
    let int_num := r.1
    let s := r.2
    if int_num = 0x10 then s.printChar s.cpu.b
    else if int_num = 0x11 then (s.printNum s.cpu.b).printEndl
    else if int_num = 0x12 then s.wait_cycles (s.cpu.b % 256)
    else if int_num = 0x13 then { s with cpu := s.cpu.reset instruction_base }
    else (s.report (.unhandledInt int_num)).stop
  | .RESET => { s with cpu := s.cpu.reset instruction_base }
  | .HALT => s.stop

/-- One iteration of the loop of `start`: fetch the opcode byte, then run the
selected `case`, or the `default:` branch for a byte that is no opcode. -/
def step (instruction_base : Nat) (s : Machine) : Machine :=
  let r := s.fetch
  match decode r.1 with
  | some op => exec instruction_base op r.2
  | none =>
    (r.2.report (.unknownOpcode r.1 ((r.2.cpu.pc : Int) - 1))).stop

/-- The function `start`, `while (cpu_running) { ... }`, cut off after at most
`fuel` iterations. -/
def start (instruction_base : Nat) : Nat → Machine → Machine
  | 0, s => s
  | fuel + 1, s =>
    if s.cpu_running then start instruction_base fuel (step instruction_base s) else s

/-! ## Text and input streams -/

/-- Source text: a sequence of characters. -/
abbrev Str := List Char

/-- The C function `isspace` in the default locale: space and the controls
`\t \n \v \f \r`. -/
def isspace (ch : Char) : Bool :=
  ch.toNat == 32 || (9 ≤ ch.toNat && ch.toNat ≤ 13)

/-- Value of a decimal digit character. -/
def decDigit (ch : Char) : Option Nat :=
  if 48 ≤ ch.toNat ∧ ch.toNat ≤ 57 then some (ch.toNat - 48) else none

/-- Value of a hexadecimal digit character (either case). -/
def hexDigit (ch : Char) : Option Nat :=
  if 48 ≤ ch.toNat ∧ ch.toNat ≤ 57 then some (ch.toNat - 48)
  else if 97 ≤ ch.toNat ∧ ch.toNat ≤ 102 then some (ch.toNat - 87)
  else if 65 ≤ ch.toNat ∧ ch.toNat ≤ 70 then some (ch.toNat - 55)
  else none

/-- Digit value of a character in the base selected by the stream. -/
def digitOf (hex : Bool) (ch : Char) : Option Nat :=
  if hex then hexDigit ch else decDigit ch

/-- Numeric base selected by the stream. -/
def baseOf (hex : Bool) : Nat := if hex then 16 else 10

/-- The digit loop of `num_get`: consume the longest run of digits, returning
the accumulated value, the number of digits read and the unread rest. -/
def readDigits (hex : Bool) : Str → Nat → Nat → Nat × Nat × Str
  | [], acc, n => (acc, n, [])
  | ch :: cs, acc, n =>
    match digitOf hex ch with
    | some d => readDigits hex cs (acc * baseOf hex + d) (n + 1)
    | none => (acc, n, ch :: cs)

/-- A `std::istringstream`: the unread characters, the state bits `eofbit` and
`failbit`, and whether `std::hex` has been applied (the base flag is sticky). -/
structure IStream where
  buf : Str
  eofbit : Bool
  failbit : Bool
  hex : Bool
  deriving DecidableEq

/-- Construction `std::istringstream iss(text)`. -/
def IStream.ofStr (text : Str) : IStream :=
  { buf := text, eofbit := false, failbit := false, hex := false }

/-- The manipulator `std::hex`. -/
def IStream.setHex (is : IStream) : IStream := { is with hex := true }

/-- The sentry of a formatted extraction: it fails (setting `failbit`) when the
stream is not good; otherwise it skips white space, and fails with `eofbit` and
`failbit` when nothing is left. -/
def IStream.sentry (is : IStream) : Bool × IStream :=
  if is.eofbit || is.failbit then (false, { is with failbit := true })
  else
    let rest := is.buf.dropWhile isspace
    if rest.isEmpty then
      (false, { is with buf := [], eofbit := true, failbit := true })
    else (true, { is with buf := rest })

/-- Extraction `iss >> str` into a freshly declared (empty) `std::string`: the
next white-space delimited token; the string stays empty when the sentry
fails. -/
def IStream.getString (is : IStream) : Str × IStream :=
  let r := is.sentry
  if r.1 then
    let rest := r.2.buf.dropWhile (fun ch => !isspace ch)
    (r.2.buf.takeWhile (fun ch => !isspace ch),
     { r.2 with buf := rest, eofbit := rest.isEmpty })
  else ([], r.2)

/-- Extraction `iss >> ch` into a `char` or `uint8_t` (both read one
character, never a number).  `old` is the value the variable held before
(converted to the variable's type); it is kept when the extraction fails. -/
def IStream.getChar (is : IStream) (old : Nat) : Nat × IStream :=
  let r := is.sentry
  if r.1 then
    match r.2.buf with
    | ch :: rest => (ch.toNat % 256, { r.2 with buf := rest })
    | [] => (old % 256, r.2)
  else (old % 256, r.2)

/-- Extraction `iss >> value` into a `uint16_t`, as `num_get` performs it: an
optional sign, in base 16 an optional `0x` or `0X`, in base 10 any leading
zeros, then the longest run of digits.  Without any digit the result is `0`
with `failbit`; a value above `65535` gives `65535` with `failbit`; a leading
minus negates modulo `65536`.  `old` is kept when the sentry fails. -/
def IStream.getU16 (is : IStream) (old : Nat) : Nat × IStream :=
  let r := is.sentry
  if r.1 then
    let signed : Bool × Str :=
      match r.2.buf with
      | ch :: cs => if ch = '-' then (true, cs) else if ch = '+' then (false, cs)
                    else (false, ch :: cs)
      | [] => (false, [])
    let lead : Bool × Str :=
      if is.hex then
        match signed.2 with
        | z :: x :: cs =>
          if z = '0' then (if x = 'x' ∨ x = 'X' then (false, cs) else (true, x :: cs))
          else (false, z :: x :: cs)
        | [z] => if z = '0' then (true, []) else (false, [z])
        | [] => (false, [])
      else
        (decide ((signed.2.takeWhile (fun ch => ch == '0')).length ≠ 0),
         signed.2.dropWhile (fun ch => ch == '0'))
    let d := readDigits is.hex lead.2 0 0
    let value := d.1
    let count := d.2.1
    let rest := d.2.2
    if count = 0 ∧ lead.1 = false then
      (0, { r.2 with buf := rest, eofbit := rest.isEmpty, failbit := true })
    else if value > 65535 then
      (65535, { r.2 with buf := rest, eofbit := rest.isEmpty, failbit := true })
    else
      ((if signed.1 then (65536 - value) % 65536 else value),
       { r.2 with buf := rest, eofbit := rest.isEmpty })
  else (old % 65536, r.2)

/-! ## assembler.h -/

/-- The member `instructionSize`: encoded length in bytes per mnemonic. -/
def instructionSize : List (Str × Nat) :=
  [("nop".toList, 1), ("add".toList, 1), ("sub".toList, 1), ("mul".toList, 1),
   ("div".toList, 1), ("mod".toList, 1), ("and".toList, 1), ("or".toList, 1),
   ("xor".toList, 1), ("not".toList, 1), ("shl".toList, 1), ("shr".toList, 1),
   ("printa".toList, 1), ("printc".toList, 1), ("ina".toList, 1),
   ("ret".toList, 1), ("halt".toList, 1), ("reset".toList, 1),
   ("push_a".toList, 1), ("pop_a".toList, 1), ("push_b".toList, 1),
   ("pop_b".toList, 1), ("cmp".toList, 1),
   ("lda".toList, 3), ("ldb".toList, 3), ("ldc".toList, 3),
   ("inc".toList, 2),
   ("jmp".toList, 3), ("jz".toList, 3), ("jnz".toList, 3), ("jn".toList, 3),
   ("jp".toList, 3), ("jeq".toList, 3), ("jgt".toList, 3), ("jlt".toList, 3),
   ("call".toList, 3),
   ("load_a".toList, 3), ("store_a".toList, 3), ("load8_a".toList, 3),
   ("store8_a".toList, 3),
   ("mov8_mem_imm".toList, 4), ("mov_reg_imm".toList, 4),
   ("mov_reg_reg".toList, 3), ("mov_reg_mem".toList, 4),
   ("mov_reg_mem2".toList, 4), ("mov_mem_reg".toList, 4),
   ("mov_mem_imm".toList, 5), ("load".toList, 4), ("store".toList, 4),
   ("wait".toList, 2),
   ("syscall".toList, 1),
   ("int".toList, 2)]

/-- The member `opcodeMap`: opcode per mnemonic. -/
def opcodeMap : List (Str × Opcode) :=
  [("nop".toList, .NOP), ("lda".toList, .LDA_IMM), ("ldb".toList, .LDB_IMM),
   ("ldc".toList, .LDC_IMM), ("add".toList, .ADD), ("sub".toList, .SUB),
   ("mul".toList, .MUL), ("div".toList, .DIV), ("mod".toList, .MOD),
   ("and".toList, .AND), ("or".toList, .OR), ("xor".toList, .XOR),
   ("not".toList, .NOT), ("shl".toList, .SHL), ("shr".toList, .SHR),
   ("inc".toList, .INC),
   ("printa".toList, .PRINT_A), ("printc".toList, .PRINT_CHAR),
   ("ina".toList, .IN_A),
   ("load_a".toList, .LOAD_A_MEM), ("store_a".toList, .STORE_A_MEM),
   ("load8_a".toList, .LOAD8_A_MEM), ("store8_a".toList, .STORE8_A_MEM),
   ("mov_mem_imm".toList, .MOV_MEM_IMM), ("mov8_mem_imm".toList, .MOV8_MEM_IMM),
   ("mov_reg_imm".toList, .MOV_REG_IMM), ("mov_reg_reg".toList, .MOV_REG_REG),
   ("mov_reg_mem".toList, .MOV_REG_MEM), ("mov_reg_mem2".toList, .MOV_REG_MEM2),
   ("mov_mem_reg".toList, .MOV_MEM_REG), ("load".toList, .LOAD),
   ("store".toList, .STORE),
   ("jmp".toList, .JMP), ("jz".toList, .JZ), ("jnz".toList, .JNZ),
   ("jn".toList, .JN), ("jp".toList, .JP), ("jeq".toList, .JEQ),
   ("jgt".toList, .JGT), ("jlt".toList, .JLT), ("call".toList, .CALL),
   ("ret".toList, .RET),
   ("push_a".toList, .PUSH_A), ("pop_a".toList, .POP_A),
   ("push_b".toList, .PUSH_B), ("pop_b".toList, .POP_B),
   ("cmp".toList, .CMP),
   ("wait".toList, .WAIT), ("syscall".toList, .SYSCALL), ("int".toList, .INT),
   ("reset".toList, .RESET), ("halt".toList, .HALT)]

/-- The data members of `TextAssembler` that change during assembly, together
with the global `memory` the assembler writes into. -/
structure TextAssembler where
  symbolTable : List (Str × Nat)
  forwardRefs : List (Nat × Str)
  currentAddress : Nat
  isSecondPass : Bool
  memory : Memory

/-- The assignment `symbolTable[label] = addr` on a `std::map`: the entry for
`label` is replaced, or added when there was none. -/
def setSymbol (table : List (Str × Nat)) (label : Str) (addr : Nat) : List (Str × Nat) :=
  (label, addr) :: table.filter (fun e => e.1 != label)

/-! ## assembler.cpp -/

/-- The first half of `preprocessLine`: cut the line at the first `;`. -/
def cutSemicolon (line : Str) : Str := line.takeWhile (fun ch => ch != ';')

/-- The second half of the comment removal: cut the line at the first `//`. -/
def cutSlashes : Str → Str
  | [] => []
  | ch :: rest =>
    if ch = '/' ∧ rest.head? = some '/' then [] else ch :: cutSlashes rest

/-- Erase leading white space. -/
def trimLeft (line : Str) : Str := line.dropWhile isspace

/-- Erase trailing white space. -/
def trimRight (line : Str) : Str := (line.reverse.dropWhile isspace).reverse

/-- The function `TextAssembler::preprocessLine`. -/
def preprocessLine (line : Str) : Str :=
  trimRight (trimLeft (cutSlashes (cutSemicolon line)))

/-- The function `TextAssembler::isLabelDefinition`: `some label` when it
returns true, where `label` is the text before the first colon with leading
white space erased; `none` when the line holds no colon. -/
def isLabelDefinition (line : Str) : Option Str :=
  if line.contains ':' then some (trimLeft (line.takeWhile (fun ch => ch != ':')))
  else none

/-- The expression `line.substr(line.find(':') + 1)`. -/
def afterColon (line : Str) : Str := (line.dropWhile (fun ch => ch != ':')).drop 1

/-- The loop `while (iss >> value) { currentAddress++; char comma; iss >> comma; }`
of the `.db` directive, returning how often the address was incremented.  Both
variables are single characters; `fuel` bounds the number of iterations. -/
def dbCount : Nat → IStream → Nat
  | 0, _ => 0
  | fuel + 1, is =>
    let v := is.getChar 0
    if v.2.failbit then 0 else 1 + dbCount fuel (v.2.getChar 0).2

/-- The body of the loop of `firstPass` for one source line.  `u` stands for
the indeterminate value of an uninitialised local variable. -/
def firstPassLine (u : Nat) (rawLine : Str) (st : TextAssembler) : TextAssembler :=
  let line := preprocessLine rawLine
  if line.isEmpty then st
  else
    let labelled := isLabelDefinition line
    let st :=
      match labelled with
      | some label =>
        { st with symbolTable := setSymbol st.symbolTable label st.currentAddress }
      | none => st
    let line := if labelled.isSome then preprocessLine (afterColon line) else line
    if line.isEmpty then st
    else
      let d := (IStream.ofStr line).getString
      let directive := d.1
      let iss := d.2
      if directive = ".org".toList then
        { st with currentAddress := (iss.setHex.getU16 u).1 }
      else if directive = ".db".toList then
        { st with currentAddress :=
            (st.currentAddress + dbCount (iss.buf.length + 1) iss) % 65536 }
      else if (opcodeMap.lookup directive).isSome then
        match instructionSize.lookup directive with
        | some size => { st with currentAddress := (st.currentAddress + size) % 65536 }
        | none => { st with currentAddress := (st.currentAddress + 1) % 65536 }
      else st

/-- The function `TextAssembler::firstPass`. -/
def firstPass (u : Nat) (code : List Str) (st : TextAssembler) : TextAssembler :=
  code.foldl (fun acc rawLine => firstPassLine u rawLine acc)
    { st with currentAddress := 0x9000, symbolTable := [], forwardRefs := [] }

/-- The statement `memory[currentAddress++] = v`. -/
def emit (st : TextAssembler) (v : Nat) : TextAssembler :=
  { st with memory := st.memory.write st.currentAddress v,
            currentAddress := (st.currentAddress + 1) % 65536 }

/-- The two statements emitting a 16-bit value, high byte first. -/
def emit16 (st : TextAssembler) (v : Nat) : TextAssembler :=
  emit (emit st ((v >>> 8) &&& 0xFF)) (v &&& 0xFF)

/-- The mnemonics of the first branch of `parseLine` (no operand). -/
def noOperand : List Str :=
  ["nop".toList, "add".toList, "sub".toList, "mul".toList, "div".toList,
   "mod".toList, "printa".toList, "printc".toList, "and".toList, "or".toList,
   "xor".toList, "not".toList, "shl".toList, "shr".toList, "ina".toList,
   "ret".toList, "halt".toList, "reset".toList, "push_a".toList,
   "pop_a".toList, "push_b".toList, "pop_b".toList, "cmp".toList]

/-- The mnemonics of the jump/branch branch of `parseLine`. -/
def jumpMnemonics : List Str :=
  ["jmp".toList, "jz".toList, "jnz".toList, "jn".toList, "jp".toList,
   "jeq".toList, "jgt".toList, "jlt".toList, "call".toList]

/-- The jump/branch branch of `parseLine`: resolve the operand token as a
label, a `0x` literal or a decimal number and emit it. -/
def parseJumpOperand (u : Nat) (iss : IStream) (st : TextAssembler) : TextAssembler :=
  let addrOrLabel := iss.getString.1
  if addrOrLabel.length ≥ 2 ∧ addrOrLabel.take 2 ≠ "0x".toList then
    match st.symbolTable.lookup addrOrLabel with
    | some addr => emit16 st addr
    | none => emit (emit st 0) 0
  else
    let addr :=
      if addrOrLabel.take 2 = "0x".toList then
        ((IStream.ofStr (addrOrLabel.drop 2)).setHex.getU16 u).1
      else
        ((IStream.ofStr addrOrLabel).getU16 u).1
    emit16 st addr

/-- The operand part of `parseLine`: the chain of branches on the mnemonic
that follows the emission of the opcode byte. -/
def parseOperands (u : Nat) (opcode : Str) (iss : IStream) (st : TextAssembler) :
    TextAssembler :=
  if opcode ∈ noOperand then st
  else if opcode = "lda".toList ∨ opcode = "ldb".toList ∨ opcode = "ldc".toList then
    emit16 st (iss.getU16 u).1
  else if opcode = "inc".toList then
    emit st (iss.getChar u).1
  else if opcode ∈ jumpMnemonics then
    parseJumpOperand u iss st
  else if opcode = "load_a".toList ∨ opcode = "store_a".toList ∨
      opcode = "load8_a".toList ∨ opcode = "store8_a".toList ∨
      opcode = "load".toList ∨ opcode = "store".toList then
    let a := iss.setHex.getU16 u
    let st := emit16 st a.1
    if opcode = "load".toList ∨ opcode = "store".toList then
      emit st (a.2.getChar u).1
    else st
  else if opcode = "mov_mem_imm".toList then
    let a := iss.setHex.getU16 u
    let v := a.2.getU16 u
    emit16 (emit16 st a.1) v.1
  else if opcode = "mov8_mem_imm".toList then
    let a := iss.setHex.getU16 u
    let v := a.2.getChar u
    emit (emit16 st a.1) v.1
  else if opcode = "mov_reg_imm".toList then
    let r := iss.getChar u
    let a := r.2.setHex.getU16 u
    let v := a.2.getU16 u
    emit16 (emit16 (emit st r.1) a.1) v.1
  else if opcode = "mov_reg_reg".toList then
    let r1 := iss.getChar u
    let r2 := r1.2.getChar u
    emit (emit st r1.1) r2.1
  else if opcode = "mov_reg_mem".toList ∨ opcode = "mov_reg_mem2".toList then
    let r := iss.getChar u
    let a := r.2.setHex.getU16 u
    emit16 (emit st r.1) a.1
  else if opcode = "mov_mem_reg".toList then
    let a := iss.setHex.getU16 u
    let r := a.2.getChar u
    emit (emit16 st a.1) r.1
  else if opcode = "wait".toList then
    emit st (iss.getChar u).1
  else if opcode = "syscall".toList then st
  else if opcode = "int".toList then
    emit st (iss.setHex.getChar u).1
  else st

/-- The function `TextAssembler::parseLine` (second pass, one source line). -/
def parseLine (u : Nat) (rawLine : Str) (st : TextAssembler) : TextAssembler :=
  let line := preprocessLine rawLine
  if line.isEmpty then st
  else
    let line :=
      if (isLabelDefinition line).isSome then preprocessLine (afterColon line) else line
    if line.isEmpty then st
    else
      let d := (IStream.ofStr line).getString
      let directive := d.1
      let iss := d.2
      if directive = ".org".toList then
        { st with currentAddress := (iss.setHex.getU16 u).1 }
      else
        match opcodeMap.lookup directive with
        | none => st
        | some op => parseOperands u directive iss (emit st op.toByte)

/-- The function `TextAssembler::doSecondPass`. -/
def doSecondPass (u : Nat) (code : List Str) (st : TextAssembler) : TextAssembler :=
  code.foldl (fun acc rawLine => parseLine u rawLine acc)
    { st with isSecondPass := true, currentAddress := 0x9000 }

/-- The function `TextAssembler::assemble`.  The uninitialised local variables
of `firstPass` and those of `parseLine` are different objects: `u1` stands for
the indeterminate value met in pass 1, `u2` for the one met in pass 2. -/
def assemble (u1 u2 : Nat) (code : List Str) (st : TextAssembler) : TextAssembler :=
  doSecondPass u2 code (firstPass u1 code st)

/-- A freshly constructed `TextAssembler` over the given memory. -/
def TextAssembler.init (memory : Memory) : TextAssembler :=
  { symbolTable := [], forwardRefs := [], currentAddress := 0x9000,
    isSecondPass := false, memory := memory }

/-- The machine that `start` finds when the program counter is `pc`, the
registers, flags and stack are clear and the engine is running. -/
def Machine.boot (pc : Nat) (memory : Memory) (cin : List Nat) : Machine :=
  { cpu := { pc := pc, a := 0, b := 0, c := 0, mem_base := 0, flag := 0,
             zero_flag := 0, negative_flag := 0, stack := [] },
    memory := memory, cpu_running := true, cout := [], cerr := [], cin := cin,
    fetched := 0 }

/-! ## Auxiliary notions used in the statements -/

/-- The directive token and the stream behind it that both passes compute for
a source line (comment removal, trimming, label removal, first token); `none`
when the line is skipped before a token is read. -/
def statement (rawLine : Str) : Option (Str × IStream) :=
  let line := preprocessLine rawLine
  if line.isEmpty then none
  else
    let line :=
      if (isLabelDefinition line).isSome then preprocessLine (afterColon line) else line
    if line.isEmpty then none
    else some (IStream.ofStr line).getString

/-- Number of operand bytes the branch of `parseLine` for a mnemonic emits
after the opcode byte. -/
def operandLen (opcode : Str) : Nat :=
  if opcode ∈ noOperand then 0
  else if opcode = "lda".toList ∨ opcode = "ldb".toList ∨ opcode = "ldc".toList then 2
  else if opcode = "inc".toList then 1
  else if opcode ∈ jumpMnemonics then 2
  else if opcode = "load_a".toList ∨ opcode = "store_a".toList ∨
      opcode = "load8_a".toList ∨ opcode = "store8_a".toList ∨
      opcode = "load".toList ∨ opcode = "store".toList then
    (if opcode = "load".toList ∨ opcode = "store".toList then 3 else 2)
  else if opcode = "mov_mem_imm".toList then 4
  else if opcode = "mov8_mem_imm".toList then 3
  else if opcode = "mov_reg_imm".toList then 5
  else if opcode = "mov_reg_reg".toList then 2
  else if opcode = "mov_reg_mem".toList ∨ opcode = "mov_reg_mem2".toList then 3
  else if opcode = "mov_mem_reg".toList then 3
  else if opcode = "wait".toList then 1
  else if opcode = "syscall".toList then 0
  else if opcode = "int".toList then 1
  else 0

/-- Number of operand bytes the `case` for an opcode fetches through the
program counter. -/
def operandFetches : Opcode → Nat
  | .INC | .PRINT_R | .WAIT | .INT => 1
  | .LDA_IMM | .LDB_IMM | .LDC_IMM => 2
  | .JMP | .JZ | .JNZ | .JN | .JP | .JEQ | .JGT | .JLT | .CALL => 2
  | .LOAD_A_MEM | .STORE_A_MEM | .LOAD8_A_MEM | .STORE8_A_MEM => 2
  | .MOV_REG_REG => 2
  | .MOV8_MEM_IMM | .MOV_REG_MEM | .MOV_REG_MEM2 | .MOV_MEM_REG | .LOAD | .STORE => 3
  | .MOV_MEM_IMM => 4
  | .MOV_REG_IMM => 5
  | _ => 0

/-- The number a run of digit characters denotes in the base of the stream,
continuing from the value `acc`. -/
def valueOf (hex : Bool) (ds : Str) (acc : Nat) : Nat :=
  ds.foldl (fun a ch => a * baseOf hex + (digitOf hex ch).getD 0) acc

/-- The mnemonics that `parseLine` encodes in one byte, with their opcodes. -/
def oneByte : List (Str × Opcode) :=
  opcodeMap.filter (fun e => decide (e.1 ∈ noOperand) || decide (e.1 = "syscall".toList))

/-- The source program `lda m` / `ldb n` / `add` / `printa` / `halt`, the
immediates written in decimal. -/
def sumProgram (m n : Nat) : List Str :=
  ["lda".toList ++ ' ' :: Nat.toDigits 10 m, "ldb".toList ++ ' ' :: Nat.toDigits 10 n,
   "add".toList, "printa".toList, "halt".toList]

/-- The machine that runs the assembled sum program: the program assembled
into zero-filled memory, program counter `0x9000`, all else clear. -/
def sumMachine (u1 u2 m n : Nat) (cin : List Nat) : Machine :=
  Machine.boot 0x9000
    (assemble u1 u2 (sumProgram m n) (TextAssembler.init Memory.zero)).memory cin

/-- The label part of the loop body of `firstPass`: record the label of a
preprocessed line, if it has one. -/
def recordLabel (line : Str) (st : TextAssembler) : TextAssembler :=
  match isLabelDefinition line with
  | some label =>
    { st with symbolTable := setSymbol st.symbolTable label st.currentAddress }
  | none => st

/-- The directive part of the loop body of `firstPass`: the cursor movement
for the statement `(d, iss)` read from a line. -/
def advance (u : Nat) (d : Str) (iss : IStream) (st : TextAssembler) : TextAssembler :=
  if d = ".org".toList then
    { st with currentAddress := (iss.setHex.getU16 u).1 }
  else if d = ".db".toList then
    { st with currentAddress :=
        (st.currentAddress + dbCount (iss.buf.length + 1) iss) % 65536 }
  else if (opcodeMap.lookup d).isSome then
    match instructionSize.lookup d with
    | some size => { st with currentAddress := (st.currentAddress + size) % 65536 }
    | none => { st with currentAddress := (st.currentAddress + 1) % 65536 }
  else st

/-- The invariant of pass 1: the cursor and every recorded address are 16-bit
values. -/
def Wide (st : TextAssembler) : Prop :=
  st.currentAddress < 65536 ∧ ∀ e ∈ st.symbolTable, e.2 < 65536

/-- The source `nop` / `x: nop` / `jmp x`: the label `x` is defined before the
jump that names it. -/
def shortLabelProgram : List Str := ["nop".toList, "x: nop".toList, "jmp x".toList]

/-- A concrete instance of C8: CALL 0x9100 at address 0x9000. -/
def callMachine : Machine :=
  Machine.boot 0x9000
    { cell := fun i => if i = 0x9000 then 0x50 else if i = 0x9001 then 0x91 else 0,
      oob := false } []

/-- A machine about to execute DIV with `A = 7` and `B = 0`. -/
def divByZeroMachine : Machine :=
  { Machine.boot 0x9000 { cell := fun i => if i = 0x9000 then 0x06 else 0, oob := false } []
    with cpu := { pc := 0x9000, a := 7, b := 0, c := 0, mem_base := 0, flag := 0,
                  zero_flag := 0, negative_flag := 0, stack := [] } }

/-- The machine that is about to execute the assembled source line
`mov_mem_imm 0xffff 0x1234`: the line assembled into zero-filled memory (bytes
`37 FF FF 12 34` at `0x9000`), program counter `0x9000`, all else clear. -/
def movMemImmMachine : Machine :=
  Machine.boot 0x9000
    (assemble 0 0 ["mov_mem_imm 0xffff 0x1234".toList]
      (TextAssembler.init Memory.zero)).memory []

/-- The hypothesis of C3 on a source line: its directive token, if it has
one, is neither `.db` nor `mov_reg_imm`, and behind the token `.org` the line
goes on with an operand (a character that is no white space), so that the
extraction of the address finds something to read. -/
def Tame (line : Str) : Prop :=
  ∀ d iss, statement line = some (d, iss) →
    d ≠ ".db".toList ∧ d ≠ "mov_reg_imm".toList ∧
    (d = ".org".toList → iss.sentry.1 = true)

/-- A source line on which the result of either pass does not depend on the
value of an uninitialised local variable: every operand that is extracted is
present in the text. -/
def Determined (line : Str) : Prop :=
  (∀ (u v : Nat) (st : TextAssembler), firstPassLine u line st = firstPassLine v line st) ∧
  (∀ (u v : Nat) (st : TextAssembler), parseLine u line st = parseLine v line st)

/-- A machine whose program counter is `0xFFFF` and whose memory holds the
byte `0x0B`, which is no opcode, in every cell. -/
def wrapMachine : Machine :=
  Machine.boot 0xFFFF { cell := fun _ => 0x0B, oob := false } []

/-- The source `lp: .org 0x9100` / `halt`. -/
def orgLabelProgram : List Str := ["lp: .org 0x9100".toList, "halt".toList]

/-- A sequence of assignments `memory[i] = v`, oldest first. -/
def writeAll (ws : List (Nat × Nat)) (m : Memory) : Memory :=
  ws.foldl (fun acc w => acc.write w.1 w.2) m

/-- The byte the assignments `ws` leave in cell `j`, if any of them writes
there (the last one wins). -/
def lastWrite : List (Nat × Nat) → Nat → Option Nat
  | [], _ => none
  | w :: ws, j =>
    match lastWrite ws j with
    | some v => some v
    | none => if j = w.1 then some (w.2 % 256) else none

/-- The condition under which, by the claim about comparisons, a conditional
jump is taken, in terms of the registers `B` and `C`. -/
def claimedTaken : Opcode → Nat → Nat → Bool
  | .JZ, b, c => decide (b = c)
  | .JNZ, b, c => decide (b ≠ c)
  | .JN, b, c => decide (b < c)
  | .JP, b, c => decide (b > c)
  | .JEQ, b, c => decide (b = c)
  | .JGT, b, c => decide (b > c)
  | .JLT, b, c => decide (b < c)
  | _, _, _ => false

/-- The condition each conditional jump of `start` tests before it assigns
the program counter. -/
def branches : Opcode → CPU → Bool
  | .JZ, cpu => cpu.zero_flag != 0
  | .JNZ, cpu => cpu.zero_flag == 0
  | .JN, cpu => cpu.negative_flag != 0
  | .JP, cpu => cpu.negative_flag == 0 && cpu.zero_flag == 0
  | .JEQ, cpu => cpu.b == cpu.c
  | .JGT, cpu => decide (cpu.b > cpu.c)
  | .JLT, cpu => decide (cpu.b < cpu.c)
  | _, _ => false

/-- The seven conditional jumps. -/
def conditionalJumps : List Opcode := [.JZ, .JNZ, .JN, .JP, .JEQ, .JGT, .JLT]

/-- A machine about to execute `cmp` followed by `jz 0x9100`, with `B = C = 7`
and `A = 1`. -/
def cmpJzMachine : Machine :=
  { Machine.boot 0x9000
      { cell := fun i =>
          if i = 0x9000 then 0x40 else if i = 0x9001 then 0x11
          else if i = 0x9002 then 0x91 else 0,
        oob := false } []
    with cpu := { pc := 0x9000, a := 1, b := 7, c := 7, mem_base := 0, flag := 0,
                  zero_flag := 0, negative_flag := 0, stack := [] } }

/-- The machine that runs the assembled source `ldc 5` / `reset`: the program
assembled into zero-filled memory, program counter `0x9000`, all else
clear. -/
def resetMachine : Machine :=
  Machine.boot 0x9000
    (assemble 0 0 ["ldc 5".toList, "reset".toList] (TextAssembler.init Memory.zero)).memory []

/-- A machine whose program counter points at the byte `0x0B`, which is no
opcode. -/
def unknownOpcodeMachine : Machine :=
  Machine.boot 0x9000 { cell := fun i => if i = 0x9000 then 0x0B else 0, oob := false } []

/-- The register letters (as byte values) for which the `switch (reg)` of an
opcode has a `case`: `a`, `b`, `c` for INC and PRINT_R, `a`, `b` for the
moves, loads and stores with a register operand. -/
def acceptsRegister : Opcode → Nat → Bool
  | .INC, r => r == 97 || r == 98 || r == 99
  | .PRINT_R, r => r == 97 || r == 98 || r == 99
  | .MOV_REG_IMM, r => r == 97 || r == 98
  | .MOV_REG_MEM, r => r == 97 || r == 98
  | .MOV_REG_MEM2, r => r == 97 || r == 98
  | .MOV_MEM_REG, r => r == 97 || r == 98
  | .LOAD, r => r == 97 || r == 98
  | .STORE, r => r == 97 || r == 98
  | _, _ => false

/-- Distance of the register operand byte from the opcode byte: the handlers
of MOV_MEM_REG and STORE fetch the address first. -/
def registerOperandAt : Opcode → Nat
  | .MOV_MEM_REG => 3
  | .STORE => 3
  | _ => 1

/-- The opcodes whose handler ends in `default: break;` for a register letter
without a `case`. -/
def silentOnRegister : List Opcode :=
  [.INC, .MOV_REG_IMM, .MOV_REG_MEM, .MOV_REG_MEM2, .MOV_MEM_REG, .LOAD, .STORE]

/-- The machine that runs the assembled source line `inc z`. -/
def incZMachine : Machine :=
  Machine.boot 0x9000
    (assemble 0 0 ["inc z".toList] (TextAssembler.init Memory.zero)).memory []

/-- A machine about to execute SYSCALL with `A = 2` and `B = 7`. -/
def syscallMachine : Machine :=
  { Machine.boot 0x9000 { cell := fun i => if i = 0x9000 then 0xF0 else 0, oob := false } []
    with cpu := { pc := 0x9000, a := 2, b := 7, c := 0, mem_base := 0, flag := 0,
                  zero_flag := 0, negative_flag := 0, stack := [] } }

/-- A machine about to execute `INT 0x10` with `B = 65`. -/
def intMachine : Machine :=
  { Machine.boot 0x9000
      { cell := fun i => if i = 0x9000 then 0xF1 else if i = 0x9001 then 0x10 else 0,
        oob := false } []
    with cpu := { pc := 0x9000, a := 0, b := 65, c := 0, mem_base := 0, flag := 0,
                  zero_flag := 0, negative_flag := 0, stack := [] } }

/-- A machine whose program counter is `0xFFFF`, over zero-filled memory. -/
def topMachine : Machine := Machine.boot 0xFFFF Memory.zero []

/-- The source `.org 0xffff` / `halt`. -/
def topProgram : List Str := [".org 0xffff".toList, "halt".toList]

/-- The machine that runs the assembled source line `int 0x10`. -/
def intLineMachine : Machine :=
  Machine.boot 0x9000
    (assemble 0 0 ["int 0x10".toList] (TextAssembler.init Memory.zero)).memory []

/-- The source `jmp done` / `nop` / `done: halt`. -/
def forwardProgram : List Str := ["jmp done".toList, "nop".toList, "done: halt".toList]

/-- Two assembler states from which pass 2 emits the same bytes: same memory,
same cursor, and symbol tables under which every token resolves to the same
address when an absent key is read as address 0. -/
def SameOutput (a b : TextAssembler) : Prop :=
  a.memory = b.memory ∧ a.currentAddress = b.currentAddress ∧
  ∀ tok : Str, (a.symbolTable.lookup tok).getD 0 = (b.symbolTable.lookup tok).getD 0

/-- The source line `jmp 5`, assembled alone by pass 2 over zeroed memory with
an empty symbol table. -/
def shortOperandLine : TextAssembler :=
  parseLine 0 "jmp 5".toList (TextAssembler.init Memory.zero)

/-- The source `frob` / `lp: nop`: a line with an unknown mnemonic, then a
label definition. -/
def unknownMnemonicProgram : List Str := ["frob".toList, "lp: nop".toList]

/-- The address cursor of pass 1 after the single source line `line`, started
from the default `0x9000`. -/
def cursorAfter (line : Str) : Nat :=
  (firstPass 0 [line] (TextAssembler.init Memory.zero)).currentAddress

/-- The source line `<label>: .org 0x<digits>`. -/
def labelledOrgLine (label ds : Str) : Str :=
  label ++ ':' :: ' ' :: (".org".toList ++ ' ' :: '0' :: 'x' :: ds)

/-- The source `name : nop` / `jmp name`: white space between the label name
and the colon. -/
def spacedLabelProgram : List Str := ["name : nop".toList, "jmp name".toList]

/-- A comment marker starts at the head of the text: a `;`, or a `/` directly
followed by another `/`. -/
def startsComment : Str → Bool
  | [] => false
  | ch :: rest => ch == ';' || (ch == '/' && rest.head? == some '/')

/-- The prefix of a line that ends just before its earliest comment marker;
the whole line when it holds no marker. -/
def beforeComment : Str → Str
  | [] => []
  | ch :: rest => if startsComment (ch :: rest) then [] else ch :: beforeComment rest

/-- The line `mov_reg_imm a 0x1000 5`, assembled alone into zeroed memory. -/
def movRegImmLine : TextAssembler :=
  assemble 0 0 ["mov_reg_imm a 0x1000 5".toList] (TextAssembler.init Memory.zero)

/-- The machine that runs the assembled line `ldb 4660`. -/
def ldbMachine : Machine :=
  Machine.boot 0x9000
    (assemble 0 0 ["ldb 4660".toList] (TextAssembler.init Memory.zero)).memory []

/-- The machine that runs the assembled line `inc c` with `C = 0xFFFF`. -/
def incCMachine : Machine :=
  { Machine.boot 0x9000
      (assemble 0 0 ["inc c".toList] (TextAssembler.init Memory.zero)).memory [] with
    cpu := { pc := 0x9000, a := 1, b := 2, c := 0xFFFF, mem_base := 0, flag := 0,
             zero_flag := 0, negative_flag := 0, stack := [] } }

/-- The line `load 0x1000 a` assembled into memory that holds 7 at `0x1000`,
ready to run from `0x9000`. -/
def loadMachine : Machine :=
  Machine.boot 0x9000
    (assemble 0 0 ["load 0x1000 a".toList]
      (TextAssembler.init (Memory.zero.write 0x1000 7))).memory []

/-- The line `load 0x6100 b` assembled into memory that holds 7 at `0x6100`
and 9 at `0x0062`, ready to run from `0x9000`. -/
def loadOtherMachine : Machine :=
  Machine.boot 0x9000
    (assemble 0 0 ["load 0x6100 b".toList]
      (TextAssembler.init ((Memory.zero.write 0x6100 7).write 0x0062 9))).memory []

/-- The machine about to execute the single assembled source line `line`, with
`A = 1`, `B = 2`, `C = 3`, program counter `0x9000`. -/
def registerMachine (line : Str) : Machine :=
  { Machine.boot 0x9000
      (assemble 0 0 [line] (TextAssembler.init Memory.zero)).memory [] with
    cpu := { pc := 0x9000, a := 1, b := 2, c := 3, mem_base := 0, flag := 0,
             zero_flag := 0, negative_flag := 0, stack := [] } }

/-- The machine about to execute the assembled line `ret` with an empty
stack. -/
def retMachine : Machine :=
  Machine.boot 0x9000
    (assemble 0 0 ["ret".toList] (TextAssembler.init Memory.zero)).memory []

/-- The machine that runs `push_a` / `push_b` / `pop_a` / `pop_b` with
`A = 1`, `B = 2` and the stack holding 7. -/
def exchangeMachine : Machine :=
  { Machine.boot 0x9000
      (assemble 0 0 ["push_a".toList, "push_b".toList, "pop_a".toList, "pop_b".toList]
        (TextAssembler.init Memory.zero)).memory [] with
    cpu := { pc := 0x9000, a := 1, b := 2, c := 3, mem_base := 0, flag := 0,
             zero_flag := 0, negative_flag := 0, stack := [7] } }

/-- The value the arithmetic and logic opcodes are said to leave in `A`, as a
function of the values of `A` and `B` before. -/
def claimedResult : Opcode → Nat → Nat → Nat
  | .ADD, a, b => (a + b) % 65536
  | .SUB, a, b => (((a : Int) - (b : Int)) % 65536).toNat
  | .MUL, a, b => (a * b) % 65536
  | .AND, a, b => a &&& b
  | .OR, a, b => a ||| b
  | .XOR, a, b => a ^^^ b
  | .NOT, a, _ => 65535 - a
  | .SHL, a, _ => (2 * a) % 65536
  | .SHR, a, _ => a / 2
  | _, a, _ => a

/-- The opcodes of register arithmetic and logic that always write `A`. -/
def registerArithmetic : List Opcode :=
  [.ADD, .SUB, .MUL, .AND, .OR, .XOR, .NOT, .SHL, .SHR]

/-- The machine about to execute the assembled line `sub` with `A = 1`,
`B = 2`. -/
def subMachine : Machine := registerMachine "sub".toList

/-- The machine that runs `lda 4660` / `store_a 0x1000` / `lda 0` /
`load_a 0x1000` / `halt`, assembled into zeroed memory. -/
def storeLoadMachine : Machine :=
  Machine.boot 0x9000
    (assemble 0 0
      ["lda 4660".toList, "store_a 0x1000".toList, "lda 0".toList,
       "load_a 0x1000".toList, "halt".toList]
      (TextAssembler.init Memory.zero)).memory []

/-- The machine that runs `mov_mem_reg 0x1000 a` / `mov_reg_mem2 b 0x1000`
with `A = 0x1234`. -/
def roundTripMachine : Machine :=
  { Machine.boot 0x9000
      (assemble 0 0 ["mov_mem_reg 0x1000 a".toList, "mov_reg_mem2 b 0x1000".toList]
        (TextAssembler.init Memory.zero)).memory [] with
    cpu := { pc := 0x9000, a := 0x1234, b := 0, c := 0, mem_base := 0, flag := 0,
             zero_flag := 0, negative_flag := 0, stack := [] } }

/-- The machine about to execute the assembled line `store_a 0xfffe` with
`A = 0x1234`. -/
def edgeStoreMachine : Machine :=
  { Machine.boot 0x9000
      (assemble 0 0 ["store_a 0xfffe".toList] (TextAssembler.init Memory.zero)).memory [] with
    cpu := { pc := 0x9000, a := 0x1234, b := 0, c := 0, mem_base := 0, flag := 0,
             zero_flag := 0, negative_flag := 0, stack := [] } }

/-- The machine about to execute the assembled line `load_a 0xfffe`. -/
def edgeLoadMachine : Machine :=
  Machine.boot 0x9000
    (assemble 0 0 ["load_a 0xfffe".toList] (TextAssembler.init Memory.zero)).memory []

/-! ## Properties of the execution engine -/

@[simp]
theorem Memory.touch_cell (m : Memory) (i : Nat) : (m.touch i).cell = m.cell := rfl

@[simp]
theorem Memory.write_cell (m : Memory) (i v j : Nat) :
    (m.write i v).cell j = if j = i then v % 256 else m.cell j := rfl

theorem decode_toByte (op : Opcode) : decode op.toByte = some op := by
  cases op <;> rfl

theorem word_eq (hi lo : Nat) (hhi : hi < 256) (hlo : lo < 256) :
    word hi lo = hi * 256 + lo := by
  unfold word
  have h := Nat.mul_add_lt_is_or (show lo < 2 ^ 8 by omega) hi
  rw [Nat.shiftLeft_eq, Nat.mul_comm, ← h]
  omega

theorem word_split (T : Nat) (hT : T < 65536) : word (T / 256) (T % 256) = T := by
  rw [word_eq _ _ (by omega) (by omega)]
  omega

/-- C8: a CALL whose opcode byte is at `X` with operand `T` pushes `X + 3`
(modulo 2^16) and sets the program counter to `T` without changing a register
or flag; a RET executed in any later state whose stack is the one the CALL
left sets the program counter to `X + 3` and leaves the stack as it was before
the CALL. -/
theorem call_pushes_return_address_and_ret_resumes (base X T : Nat) (s : Machine)
    (hT : T < 65536) (hpc : s.cpu.pc = X)
    (hop : s.memory.cell X = Opcode.CALL.toByte)
    (hhi : s.memory.cell ((X + 1) % 65536) = T / 256)
    (hlo : s.memory.cell ((X + 2) % 65536) = T % 256) :
    (step base s).cpu.stack = (X + 3) % 65536 :: s.cpu.stack ∧
    (step base s).cpu.pc = T ∧
    (step base s).cpu.a = s.cpu.a ∧ (step base s).cpu.b = s.cpu.b ∧
    (step base s).cpu.c = s.cpu.c ∧
    (step base s).cpu.zero_flag = s.cpu.zero_flag ∧
    (step base s).cpu.negative_flag = s.cpu.negative_flag ∧
    (step base s).cpu_running = s.cpu_running ∧
    ∀ s2 : Machine, s2.cpu.stack = (step base s).cpu.stack →
      s2.memory.cell s2.cpu.pc = Opcode.RET.toByte →
      (step base s2).cpu.pc = (X + 3) % 65536 ∧
      (step base s2).cpu.stack = s.cpu.stack := by
  have h2 : ((X + 1) % 65536 + 1) % 65536 = (X + 2) % 65536 := by omega
  have h3 : ((X + 2) % 65536 + 1) % 65536 = (X + 3) % 65536 := by omega
  have hstep : step base s =
      ((s.fetch.2.fetchAddr.2.push s.fetch.2.fetchAddr.2.cpu.pc).setPc
        s.fetch.2.fetchAddr.1) := by
    simp [step, Machine.fetch, hpc, hop, decode_toByte, exec]
  have hw : s.fetch.2.fetchAddr.1 = T := by
    simp [Machine.fetchAddr, Machine.fetch, hpc, h2, hhi, hlo, word_split T hT]
  have hstack : (step base s).cpu.stack = (X + 3) % 65536 :: s.cpu.stack := by
    rw [hstep]
    simp [Machine.setPc, Machine.push, Machine.fetchAddr, Machine.fetch, hpc, h2, h3]
  refine ⟨hstack, ?_, ?_, ?_, ?_, ?_, ?_, ?_, ?_⟩
  · rw [hstep, hw]; simp [Machine.setPc]; omega
  · rw [hstep]; rfl
  · rw [hstep]; rfl
  · rw [hstep]; rfl
  · rw [hstep]; rfl
  · rw [hstep]; rfl
  · rw [hstep]; rfl
  · intro s2 hs2 hret
    rw [hstack] at hs2
    have : step base s2 = exec base .RET s2.fetch.2 := by
      simp [step, Machine.fetch, hret, decode_toByte]
    rw [this]
    simp [exec, Machine.fetch, hs2]

theorem call_pushes_return_address_and_ret_resumes_witness :
    (step 0x9000 callMachine).cpu.stack = [0x9003] ∧
    (step 0x9000 callMachine).cpu.pc = 0x9100 :=
  have h := call_pushes_return_address_and_ret_resumes 0x9000 0x9000 0x9100
    callMachine (by decide) rfl (by decide) (by decide) (by decide)
  ⟨h.1, h.2.1⟩

/-- C9: DIV and MOD with `B = 0` leave `A` unchanged; with `B` not zero they
set `A` to the unsigned quotient, resp. remainder.  In both cases `B`, `C`,
the flags, the stack and the memory cells are unchanged, the program counter
advances by one and the running flag is kept. -/
theorem div_mod_by_zero_is_skipped (base : Nat) (s : Machine) (op : Opcode)
    (hop : op = .DIV ∨ op = .MOD)
    (hfetch : s.memory.cell s.cpu.pc = op.toByte) :
    (s.cpu.b = 0 → (step base s).cpu.a = s.cpu.a) ∧
    (s.cpu.b ≠ 0 → s.cpu.a < 65536 →
      (step base s).cpu.a =
        if op = .DIV then s.cpu.a / s.cpu.b else s.cpu.a % s.cpu.b) ∧
    (step base s).cpu.b = s.cpu.b ∧ (step base s).cpu.c = s.cpu.c ∧
    (step base s).cpu.zero_flag = s.cpu.zero_flag ∧
    (step base s).cpu.negative_flag = s.cpu.negative_flag ∧
    (step base s).cpu.stack = s.cpu.stack ∧
    (step base s).memory.cell = s.memory.cell ∧
    (step base s).cpu.pc = (s.cpu.pc + 1) % 65536 ∧
    (step base s).cpu_running = s.cpu_running := by
  have hstep : step base s = exec base op s.fetch.2 := by
    simp [step, Machine.fetch, hfetch, decode_toByte]
  rw [hstep]
  rcases hop with rfl | rfl
  · by_cases hb : s.cpu.b = 0
    · simp [exec, Machine.fetch, hb]
    · have hq : s.cpu.a / s.cpu.b ≤ s.cpu.a := Nat.div_le_self _ _
      simp [exec, Machine.fetch, Machine.setA, hb]
      intro ha
      omega
  · by_cases hb : s.cpu.b = 0
    · simp [exec, Machine.fetch, hb]
    · have hq : s.cpu.a % s.cpu.b ≤ s.cpu.a := Nat.mod_le _ _
      simp [exec, Machine.fetch, Machine.setA, hb]
      intro ha
      omega

theorem div_mod_by_zero_is_skipped_witness :
    (step 0x9000 divByZeroMachine).cpu.a = 7 ∧
    (step 0x9000 divByZeroMachine).cpu.pc = 0x9001 ∧
    (step 0x9000 divByZeroMachine).cpu_running = true :=
  have h := div_mod_by_zero_is_skipped 0x9000 divByZeroMachine .DIV (Or.inl rfl)
    (by decide)
  ⟨h.1 rfl, h.2.2.2.2.2.2.2.2.1, h.2.2.2.2.2.2.2.2.2⟩

/-- The four accumulator accesses with a bound check (`LOAD_A_MEM`,
`STORE_A_MEM`, `LOAD8_A_MEM`, `STORE8_A_MEM`) skip the transfer when the
operand address is not below `MEMORY_MAX`. -/
theorem guarded_access_out_of_range (base hi lo : Nat) (s : Machine) (op : Opcode)
    (hop : op = .LOAD_A_MEM ∨ op = .STORE_A_MEM ∨ op = .LOAD8_A_MEM ∨ op = .STORE8_A_MEM)
    (hfetch : s.memory.cell s.cpu.pc = op.toByte)
    (hhi : s.memory.cell ((s.cpu.pc + 1) % 65536) = hi)
    (hlo : s.memory.cell ((s.cpu.pc + 2) % 65536) = lo)
    (hrange : MEMORY_MAX ≤ word hi lo) :
    (step base s).cpu = { s.cpu with pc := (s.cpu.pc + 3) % 65536 } ∧
    (step base s).memory.cell = s.memory.cell ∧
    (step base s).cpu_running = s.cpu_running := by
  have h2 : ((s.cpu.pc + 1) % 65536 + 1) % 65536 = (s.cpu.pc + 2) % 65536 := by omega
  have h3 : ((s.cpu.pc + 2) % 65536 + 1) % 65536 = (s.cpu.pc + 3) % 65536 := by omega
  have hstep : step base s = exec base op s.fetch.2 := by
    simp [step, Machine.fetch, hfetch, decode_toByte]
  have hr : ¬ word hi lo < MEMORY_MAX := by omega
  rw [hstep]
  rcases hop with rfl | rfl | rfl | rfl <;>
    simp [exec, Machine.fetchAddr, Machine.fetch, h2, h3, hhi, hlo, hr]

/-- C10 (evaluation at the failing input): `MOV_MEM_IMM` has no bound check.
For the assembled line `mov_mem_imm 0xffff 0x1234` the operand address
`0xFFFF` is not below `MEMORY_MAX`, yet the step stores both immediate bytes,
at indices `0xFFFF` and `0x10000` outside the array, where the cells held zero
before. -/
theorem mov_mem_imm_is_not_bound_checked :
    ¬ (0xFFFF < MEMORY_MAX) ∧
    (List.range 5).map (fun i => movMemImmMachine.memory.cell (0x9000 + i)) =
      [0x37, 0xFF, 0xFF, 0x12, 0x34] ∧
    movMemImmMachine.memory.cell 0xFFFF = 0 ∧
    movMemImmMachine.memory.cell 0x10000 = 0 ∧
    movMemImmMachine.memory.oob = false ∧
    (step 0x9000 movMemImmMachine).memory.cell 0xFFFF = 0x12 ∧
    (step 0x9000 movMemImmMachine).memory.cell 0x10000 = 0x34 ∧
    (step 0x9000 movMemImmMachine).memory.oob = true ∧
    (step 0x9000 movMemImmMachine).cpu.pc = 0x9005 ∧
    (step 0x9000 movMemImmMachine).cpu_running = true := by
  decide

theorem exec_fetched (base : Nat) (op : Opcode) (s : Machine) :
    (exec base op s).fetched = s.fetched + operandFetches op := by
  cases op <;> simp only [exec, operandFetches, Machine.jumpIf] <;>
    (try split_ifs) <;> (try split) <;>
    simp [Machine.fetchAddr, Machine.fetch, Machine.setA, Machine.setB, Machine.setC,
      Machine.setPc, Machine.push, Machine.stop, Machine.printNum, Machine.printChar,
      Machine.printEndl, Machine.report, Machine.wait_cycles, Machine.load,
      Machine.store, Nat.add_assoc]

theorem step_fetched (base : Nat) (op : Opcode) (s : Machine)
    (hfetch : s.memory.cell s.cpu.pc = op.toByte) :
    (step base s).fetched = s.fetched + (1 + operandFetches op) := by
  have hstep : step base s = exec base op s.fetch.2 := by
    simp [step, Machine.fetch, hfetch, decode_toByte]
  rw [hstep, exec_fetched]
  simp [Machine.fetch, Nat.add_assoc]

/-! ## Properties of the assembler: emitted bytes -/

theorem lookup_mem {β : Type} (k : Str) (v : β) :
    ∀ l : List (Str × β), l.lookup k = some v → (k, v) ∈ l
  | [], h => by simp [List.lookup] at h
  | (k1, v1) :: l, h => by
    by_cases hk : k = k1
    · subst hk
      simp [List.lookup] at h
      simp [h]
    · have hb : (k == k1) = false := by simpa using hk
      simp only [List.lookup, hb] at h
      exact List.mem_cons_of_mem _ (lookup_mem k v l h)

theorem emit16_eq (st : TextAssembler) (v : Nat) :
    emit16 st v = [(v >>> 8) &&& 0xFF, v &&& 0xFF].foldl emit st := rfl

theorem foldl_emit_append (st : TextAssembler) (as bs : List Nat) :
    (as ++ bs).foldl emit st = bs.foldl emit (as.foldl emit st) :=
  List.foldl_append _ _ _ _

theorem parseJumpOperand_bytes (u : Nat) (iss : IStream) (table : List (Str × Nat)) :
    ∃ bs : List Nat, bs.length = 2 ∧
      ∀ st : TextAssembler, st.symbolTable = table →
        parseJumpOperand u iss st = bs.foldl emit st := by
  unfold parseJumpOperand
  by_cases h : (iss.getString.1).length ≥ 2 ∧ (iss.getString.1).take 2 ≠ "0x".toList
  · cases hl : table.lookup iss.getString.1 with
    | none =>
      refine ⟨[0, 0], rfl, ?_⟩
      intro st hst
      rw [if_pos h, hst, hl]
      rfl
    | some addr =>
      refine ⟨[(addr >>> 8) &&& 0xFF, addr &&& 0xFF], rfl, ?_⟩
      intro st hst
      rw [if_pos h, hst, hl]
      rfl
  · refine ⟨[((if (iss.getString.1).take 2 = "0x".toList then
        ((IStream.ofStr ((iss.getString.1).drop 2)).setHex.getU16 u).1
      else ((IStream.ofStr iss.getString.1).getU16 u).1) >>> 8) &&& 0xFF,
      (if (iss.getString.1).take 2 = "0x".toList then
        ((IStream.ofStr ((iss.getString.1).drop 2)).setHex.getU16 u).1
      else ((IStream.ofStr iss.getString.1).getU16 u).1) &&& 0xFF], rfl, ?_⟩
    intro st _
    rw [if_neg h]
    rfl

theorem parseOperands_bytes (u : Nat) (opcode : Str) (iss : IStream)
    (table : List (Str × Nat)) :
    ∃ bs : List Nat, bs.length = operandLen opcode ∧
      ∀ st : TextAssembler, st.symbolTable = table →
        parseOperands u opcode iss st = bs.foldl emit st := by
  unfold parseOperands operandLen
  by_cases h0 : opcode ∈ noOperand
  · simp only [if_pos h0]
    exact ⟨[], rfl, fun _ _ => rfl⟩
  simp only [if_neg h0]
  by_cases h1 : opcode = "lda".toList ∨ opcode = "ldb".toList ∨ opcode = "ldc".toList
  · simp only [if_pos h1]
    exact ⟨[_, _], rfl, fun _ _ => rfl⟩
  simp only [if_neg h1]
  by_cases h2 : opcode = "inc".toList
  · simp only [if_pos h2]
    exact ⟨[_], rfl, fun _ _ => rfl⟩
  simp only [if_neg h2]
  by_cases h3 : opcode ∈ jumpMnemonics
  · simp only [if_pos h3]
    exact parseJumpOperand_bytes u iss table
  simp only [if_neg h3]
  by_cases h4 : opcode = "load_a".toList ∨ opcode = "store_a".toList ∨
      opcode = "load8_a".toList ∨ opcode = "store8_a".toList ∨
      opcode = "load".toList ∨ opcode = "store".toList
  · simp only [if_pos h4]
    by_cases hr : opcode = "load".toList ∨ opcode = "store".toList
    · simp only [if_pos hr]
      exact ⟨[_, _, _], rfl, fun _ _ => rfl⟩
    · simp only [if_neg hr]
      exact ⟨[_, _], rfl, fun _ _ => rfl⟩
  simp only [if_neg h4]
  by_cases h5 : opcode = "mov_mem_imm".toList
  · simp only [if_pos h5]
    exact ⟨[_, _, _, _], rfl, fun _ _ => rfl⟩
  simp only [if_neg h5]
  by_cases h6 : opcode = "mov8_mem_imm".toList
  · simp only [if_pos h6]
    exact ⟨[_, _, _], rfl, fun _ _ => rfl⟩
  simp only [if_neg h6]
  by_cases h7 : opcode = "mov_reg_imm".toList
  · simp only [if_pos h7]
    exact ⟨[_, _, _, _, _], rfl, fun _ _ => rfl⟩
  simp only [if_neg h7]
  by_cases h8 : opcode = "mov_reg_reg".toList
  · simp only [if_pos h8]
    exact ⟨[_, _], rfl, fun _ _ => rfl⟩
  simp only [if_neg h8]
  by_cases h9 : opcode = "mov_reg_mem".toList ∨ opcode = "mov_reg_mem2".toList
  · simp only [if_pos h9]
    exact ⟨[_, _, _], rfl, fun _ _ => rfl⟩
  simp only [if_neg h9]
  by_cases h10 : opcode = "mov_mem_reg".toList
  · simp only [if_pos h10]
    exact ⟨[_, _, _], rfl, fun _ _ => rfl⟩
  simp only [if_neg h10]
  by_cases h11 : opcode = "wait".toList
  · simp only [if_pos h11]
    exact ⟨[_], rfl, fun _ _ => rfl⟩
  simp only [if_neg h11]
  by_cases h12 : opcode = "syscall".toList
  · simp only [if_pos h12]
    exact ⟨[], rfl, fun _ _ => rfl⟩
  simp only [if_neg h12]
  by_cases h13 : opcode = "int".toList
  · simp only [if_pos h13]
    exact ⟨[_], rfl, fun _ _ => rfl⟩
  simp only [if_neg h13]
  exact ⟨[], rfl, fun _ _ => rfl⟩

theorem parseLine_of_statement_none (u : Nat) (rawLine : Str) (st : TextAssembler)
    (h : statement rawLine = none) : parseLine u rawLine st = st := by
  unfold statement at h
  unfold parseLine
  by_cases h1 : (preprocessLine rawLine).isEmpty = true
  · simp only [h1, if_true]
  · simp only [h1] at h ⊢
    by_cases h2 : (if (isLabelDefinition (preprocessLine rawLine)).isSome = true then
        preprocessLine (afterColon (preprocessLine rawLine))
        else preprocessLine rawLine).isEmpty = true
    · simp only [h2, if_true]
      simp
    · simp [h2] at h

theorem parseLine_of_statement (u : Nat) (rawLine : Str) (st : TextAssembler)
    (d : Str) (iss : IStream) (h : statement rawLine = some (d, iss)) :
    parseLine u rawLine st =
      if d = ".org".toList then
        { st with currentAddress := (iss.setHex.getU16 u).1 }
      else
        match opcodeMap.lookup d with
        | none => st
        | some op => parseOperands u d iss (emit st op.toByte) := by
  unfold statement at h
  unfold parseLine
  by_cases h1 : (preprocessLine rawLine).isEmpty = true
  · simp [h1] at h
  · simp only [h1] at h ⊢
    by_cases h2 : (if (isLabelDefinition (preprocessLine rawLine)).isSome = true then
        preprocessLine (afterColon (preprocessLine rawLine))
        else preprocessLine rawLine).isEmpty = true
    · simp [h2] at h
    · simp only [h2] at h ⊢
      simp only [Bool.false_eq_true, if_false, Option.some.injEq] at h ⊢
      rw [h]

theorem size_table_agrees :
    ∀ e ∈ opcodeMap, e.1 ≠ "mov_reg_imm".toList →
      instructionSize.lookup e.1 = some (1 + operandLen e.1) := by
  decide

theorem fetches_agree :
    ∀ e ∈ opcodeMap, operandFetches e.2 = operandLen e.1 := by
  decide

theorem org_is_no_mnemonic : opcodeMap.lookup ".org".toList = none := by decide

theorem foldl_emit_cursor : ∀ (bs : List Nat) (st : TextAssembler), bs ≠ [] →
    (bs.foldl emit st).currentAddress = (st.currentAddress + bs.length) % 65536
  | [], _, h => absurd rfl h
  | [b], st, _ => by simp [emit]
  | b :: c :: rest, st, _ => by
    have ih := foldl_emit_cursor (c :: rest) (emit st b) (by simp)
    rw [List.foldl_cons, ih]
    simp only [emit, List.length_cons]
    omega

theorem parseLine_bytes (u : Nat) (rawLine mn : Str) (iss : IStream) (op : Opcode)
    (table : List (Str × Nat))
    (hstmt : statement rawLine = some (mn, iss))
    (hop : opcodeMap.lookup mn = some op) :
    ∃ bs : List Nat, bs.length = operandLen mn ∧
      ∀ st : TextAssembler, st.symbolTable = table →
        parseLine u rawLine st = (op.toByte :: bs).foldl emit st := by
  have hne : mn ≠ ".org".toList := by
    intro h
    rw [h, org_is_no_mnemonic] at hop
    exact Option.noConfusion hop
  obtain ⟨bs, hlen, hbs⟩ := parseOperands_bytes u mn iss table
  refine ⟨bs, hlen, ?_⟩
  intro st hst
  rw [parseLine_of_statement u rawLine st mn iss hstmt, if_neg hne, hop]
  exact hbs (emit st op.toByte) hst

/-- C5: for a line whose mnemonic is in the opcode table and is not
`mov_reg_imm`, whatever the operand text behind it, `parseLine` performs
exactly `size` statements `memory[currentAddress++] = byte`, where `size` is
the entry of `instructionSize` for the mnemonic: one byte is written per
cursor step and the cursor ends `size` further (as a `uint16_t`). -/
theorem parseLine_advances_by_declared_size (u : Nat) (rawLine mn : Str)
    (iss : IStream) (op : Opcode) (st : TextAssembler)
    (hstmt : statement rawLine = some (mn, iss))
    (hop : opcodeMap.lookup mn = some op)
    (hne : mn ≠ "mov_reg_imm".toList) :
    ∃ (size : Nat) (bs : List Nat),
      instructionSize.lookup mn = some size ∧ bs.length = size ∧
      parseLine u rawLine st = bs.foldl emit st ∧
      (parseLine u rawLine st).currentAddress = (st.currentAddress + size) % 65536 := by
  obtain ⟨bs, hlen, hbs⟩ := parseLine_bytes u rawLine mn iss op st.symbolTable hstmt hop
  have hsize := size_table_agrees (mn, op) (lookup_mem mn op opcodeMap hop) hne
  have hl : (op.toByte :: bs).length = 1 + operandLen mn := by
    simp [hlen, Nat.add_comm]
  refine ⟨1 + operandLen mn, op.toByte :: bs, hsize, hl, hbs st rfl, ?_⟩
  rw [hbs st rfl, foldl_emit_cursor _ _ (by simp), hl]

theorem parseLine_advances_by_declared_size_witness :
    ∃ (size : Nat) (bs : List Nat),
      instructionSize.lookup "lda".toList = some size ∧ bs.length = size ∧
      parseLine 0 "lda 10".toList (TextAssembler.init Memory.zero) =
        bs.foldl emit (TextAssembler.init Memory.zero) ∧
      (parseLine 0 "lda 10".toList (TextAssembler.init Memory.zero)).currentAddress =
        ((TextAssembler.init Memory.zero).currentAddress + size) % 65536 :=
  parseLine_advances_by_declared_size 0 "lda 10".toList "lda".toList
    { buf := " 10".toList, eofbit := false, failbit := false, hex := false }
    .LDA_IMM (TextAssembler.init Memory.zero) (by decide) (by decide) (by decide)

/-- C4: for a line whose mnemonic is in the opcode table (`mov_reg_imm`
included), the number of bytes the engine consumes through the program counter
when it executes the opcode of that mnemonic (opcode byte and operand bytes)
equals the number of bytes `parseLine` emits for the line. -/
theorem engine_consumes_what_pass2_emits (base u : Nat) (rawLine mn : Str)
    (iss : IStream) (op : Opcode) (st : TextAssembler) (s : Machine)
    (hstmt : statement rawLine = some (mn, iss))
    (hop : opcodeMap.lookup mn = some op)
    (hfetch : s.memory.cell s.cpu.pc = op.toByte) :
    ∃ bs : List Nat,
      parseLine u rawLine st = bs.foldl emit st ∧
      (step base s).fetched = s.fetched + bs.length := by
  obtain ⟨bs, hlen, hbs⟩ := parseLine_bytes u rawLine mn iss op st.symbolTable hstmt hop
  have hf := fetches_agree (mn, op) (lookup_mem mn op opcodeMap hop)
  refine ⟨op.toByte :: bs, hbs st rfl, ?_⟩
  rw [step_fetched base op s hfetch]
  simp only [List.length_cons, hlen]
  simp only at hf
  omega

theorem engine_consumes_what_pass2_emits_witness :
    ∃ bs : List Nat,
      parseLine 0 "call 0x9100".toList (TextAssembler.init Memory.zero) =
        bs.foldl emit (TextAssembler.init Memory.zero) ∧
      (step 0x9000 callMachine).fetched = callMachine.fetched + bs.length :=
  engine_consumes_what_pass2_emits 0x9000 0 "call 0x9100".toList "call".toList
    { buf := " 0x9100".toList, eofbit := false, failbit := false, hex := false }
    .CALL (TextAssembler.init Memory.zero) callMachine (by decide) (by decide) (by decide)

/-! ## Properties of the text functions -/

theorem cutSlashes_eq_self : ∀ l : Str, '/' ∉ l → cutSlashes l = l
  | [], _ => rfl
  | ch :: rest, h => by
    have h1 : ch ≠ '/' := fun e => h (by simp [e])
    have h2 : '/' ∉ rest := fun e => h (List.mem_cons_of_mem _ e)
    simp [cutSlashes, h1, cutSlashes_eq_self rest h2]

theorem cutSemicolon_eq_self (l : Str) (h : ';' ∉ l) : cutSemicolon l = l := by
  unfold cutSemicolon
  rw [List.takeWhile_eq_self_iff]
  intro ch hch
  have : ch ≠ ';' := fun e => h (e ▸ hch)
  simpa using this

theorem trimLeft_eq_self (ch : Char) (rest : Str) (h : isspace ch = false) :
    trimLeft (ch :: rest) = ch :: rest := by
  simp [trimLeft, List.dropWhile, h]

theorem trimRight_eq_self (l : Str) (ch : Char) (h : isspace ch = false) :
    trimRight (l ++ [ch]) = l ++ [ch] := by
  simp [trimRight, List.dropWhile, h]

/-- A line that starts and ends with a character that is no white space and
holds no `;`, `/` or `:` is left alone by preprocessing and defines no
label. -/
theorem preprocessLine_plain (first last : Char) (mid : Str)
    (hfirst : isspace first = false) (hlast : isspace last = false)
    (hsemi : ';' ∉ first :: (mid ++ [last])) (hslash : '/' ∉ first :: (mid ++ [last]))
    (hcolon : ':' ∉ first :: (mid ++ [last])) :
    preprocessLine (first :: (mid ++ [last])) = first :: (mid ++ [last]) ∧
    isLabelDefinition (first :: (mid ++ [last])) = none := by
  constructor
  · unfold preprocessLine
    rw [cutSemicolon_eq_self _ hsemi, cutSlashes_eq_self _ hslash,
      trimLeft_eq_self _ _ hfirst]
    have := trimRight_eq_self (first :: mid) last hlast
    simpa using this
  · unfold isLabelDefinition
    have : (first :: (mid ++ [last])).contains ':' = false := by
      simpa using hcolon
    rw [this]
    simp

theorem statement_plain (first last : Char) (mid : Str)
    (hfirst : isspace first = false) (hlast : isspace last = false)
    (hsemi : ';' ∉ first :: (mid ++ [last])) (hslash : '/' ∉ first :: (mid ++ [last]))
    (hcolon : ':' ∉ first :: (mid ++ [last])) :
    statement (first :: (mid ++ [last])) =
      some (IStream.ofStr (first :: (mid ++ [last]))).getString := by
  obtain ⟨hp, hl⟩ := preprocessLine_plain first last mid hfirst hlast hsemi hslash hcolon
  unfold statement
  simp only [hp, hl]
  simp

/-- The token and the remaining stream read from a line of the form
`mnemonic`, one blank, `operand`. -/
theorem getString_token (mn operand : Str) (hmn : ∀ ch ∈ mn, isspace ch = false)
    (hne : mn ≠ []) :
    (IStream.ofStr (mn ++ ' ' :: operand)).getString =
      (mn, { buf := ' ' :: operand, eofbit := false, failbit := false, hex := false }) := by
  obtain ⟨ch, rest, rfl⟩ := List.exists_cons_of_ne_nil hne
  have hch : isspace ch = false := hmn ch (by simp)
  have htake : ∀ l : Str, (∀ c ∈ l, isspace c = false) →
      (l ++ ' ' :: operand).takeWhile (fun c => !isspace c) = l := by
    intro l hl
    induction l with
    | nil => simp [List.takeWhile, isspace]
    | cons c l ih =>
      have hc : isspace c = false := hl c (by simp)
      simp [List.takeWhile, hc]
      exact ih (fun d hd => hl d (List.mem_cons_of_mem _ hd))
  have hdrop : ∀ l : Str, (∀ c ∈ l, isspace c = false) →
      (l ++ ' ' :: operand).dropWhile (fun c => !isspace c) = ' ' :: operand := by
    intro l hl
    induction l with
    | nil => simp [List.dropWhile, isspace]
    | cons c l ih =>
      have hc : isspace c = false := hl c (by simp)
      simp [List.dropWhile, hc]
      exact ih (fun d hd => hl d (List.mem_cons_of_mem _ hd))
  have h1 := htake (ch :: rest) hmn
  have h2 := hdrop (ch :: rest) hmn
  simp only [IStream.getString, IStream.sentry, IStream.ofStr]
  simp only [List.cons_append] at h1 h2 ⊢
  simp [List.dropWhile, hch, h1, h2]

/-! ## Properties of number extraction -/

theorem readDigits_all (hex : Bool) : ∀ (ds : Str) (acc n : Nat),
    (∀ ch ∈ ds, (digitOf hex ch).isSome = true) →
    readDigits hex ds acc n = (valueOf hex ds acc, n + ds.length, [])
  | [], acc, n, _ => by simp [readDigits, valueOf]
  | ch :: cs, acc, n, h => by
    have hc : (digitOf hex ch).isSome = true := h ch (by simp)
    obtain ⟨d, hd⟩ := Option.isSome_iff_exists.mp hc
    have ih := readDigits_all hex cs (acc * baseOf hex + d) (n + 1)
      (fun c hcs => h c (List.mem_cons_of_mem _ hcs))
    simp only [readDigits, hd, ih, valueOf, List.foldl_cons, Option.getD_some,
      List.length_cons]
    simp [Nat.add_assoc, Nat.add_comm 1]

theorem valueOf_append (hex : Bool) (xs ys : Str) (acc : Nat) :
    valueOf hex (xs ++ ys) acc = valueOf hex ys (valueOf hex xs acc) := by
  simp [valueOf, List.foldl_append]

theorem digitChar_is_digit :
    ∀ d, d < 16 →
      hexDigit (Nat.digitChar d) = some d ∧ (d < 10 → decDigit (Nat.digitChar d) = some d) ∧
      isspace (Nat.digitChar d) = false ∧ Nat.digitChar d ≠ ';' ∧
      Nat.digitChar d ≠ '/' ∧ Nat.digitChar d ≠ ':' ∧
      Nat.digitChar d ≠ '-' ∧ Nat.digitChar d ≠ '+' := by
  decide

theorem digitOf_digitChar (hex : Bool) (d : Nat) (h : d < baseOf hex) :
    digitOf hex (Nat.digitChar d) = some d := by
  cases hex
  · have h10 : d < 10 := by simpa [baseOf] using h
    simp [digitOf, (digitChar_is_digit d (by omega)).2.1 h10]
  · have h16 : d < 16 := by simpa [baseOf] using h
    simp [digitOf, (digitChar_is_digit d h16).1]

theorem toDigitsCore_append (b : Nat) : ∀ (fuel n : Nat) (ds : List Char),
    Nat.toDigitsCore b fuel n ds = Nat.toDigitsCore b fuel n [] ++ ds
  | 0, _, _ => by simp [Nat.toDigitsCore]
  | fuel + 1, n, ds => by
    simp only [Nat.toDigitsCore]
    split
    · simp
    · rw [toDigitsCore_append b fuel (n / b) (Nat.digitChar (n % b) :: ds),
        toDigitsCore_append b fuel (n / b) [Nat.digitChar (n % b)]]
      simp

/-- The characters `Nat.toDigitsCore` produces are digits of the base, none of
them is white space or one of `; / : - +`, there is at least one, and read
back they give the number. -/
theorem toDigitsCore_spec (hex : Bool) : ∀ (fuel n : Nat), n < fuel →
    (∀ ch ∈ Nat.toDigitsCore (baseOf hex) fuel n [],
      (digitOf hex ch).isSome = true ∧ isspace ch = false ∧ ch ≠ ';' ∧ ch ≠ '/' ∧
      ch ≠ ':' ∧ ch ≠ '-' ∧ ch ≠ '+') ∧
    Nat.toDigitsCore (baseOf hex) fuel n [] ≠ [] ∧
    valueOf hex (Nat.toDigitsCore (baseOf hex) fuel n []) 0 = n
  | 0, _, h => absurd h (Nat.not_lt_zero _)
  | fuel + 1, n, h => by
    have hb : 2 ≤ baseOf hex ∧ baseOf hex ≤ 16 := by cases hex <;> simp [baseOf]
    have hmod : n % baseOf hex < baseOf hex := Nat.mod_lt _ (by omega)
    have hdig := digitOf_digitChar hex (n % baseOf hex) hmod
    have hch := digitChar_is_digit (n % baseOf hex) (by omega)
    have hlast : ∀ ch ∈ [Nat.digitChar (n % baseOf hex)],
        (digitOf hex ch).isSome = true ∧ isspace ch = false ∧ ch ≠ ';' ∧ ch ≠ '/' ∧
        ch ≠ ':' ∧ ch ≠ '-' ∧ ch ≠ '+' := by
      intro ch hmem
      rw [List.mem_singleton] at hmem
      subst hmem
      exact ⟨by simp [hdig], hch.2.2.1, hch.2.2.2.1, hch.2.2.2.2.1, hch.2.2.2.2.2.1,
        hch.2.2.2.2.2.2.1, hch.2.2.2.2.2.2.2⟩
    simp only [Nat.toDigitsCore]
    by_cases hq : n / baseOf hex = 0
    · rw [if_pos hq]
      refine ⟨hlast, by simp, ?_⟩
      have hn : n % baseOf hex = n := by
        rw [Nat.mod_eq_of_lt]
        exact (Nat.div_eq_zero_iff (by omega)).mp hq
      have hdig2 := hdig
      rw [hn] at hdig2
      simp [valueOf, hn, hdig2]
    · rw [if_neg hq, toDigitsCore_append]
      have hlt : n / baseOf hex < fuel := by
        have hpos : 0 < n := by
          rcases Nat.eq_zero_or_pos n with h0 | h0
          · simp [h0] at hq
          · exact h0
        have : n / baseOf hex < n := Nat.div_lt_self hpos (by omega)
        omega
      obtain ⟨ih1, ih2, ih3⟩ := toDigitsCore_spec hex fuel (n / baseOf hex) hlt
      refine ⟨?_, by simp [ih2], ?_⟩
      · intro ch hmem
        rcases List.mem_append.mp hmem with hm | hm
        · exact ih1 ch hm
        · exact hlast ch hm
      · rw [valueOf_append, ih3]
        simp only [valueOf, List.foldl_cons, List.foldl_nil, hdig, Option.getD_some]
        exact Nat.div_add_mod' n (baseOf hex)

theorem valueOf_dropZeros : ∀ ds : Str,
    valueOf false (ds.dropWhile (fun ch => ch == '0')) 0 = valueOf false ds 0
  | [] => rfl
  | ch :: cs => by
    by_cases h : ch = '0'
    · subst h
      have ih := valueOf_dropZeros cs
      have h0 : digitOf false '0' = some 0 := by decide
      simp only [List.dropWhile, beq_self_eq_true, ih]
      simp [valueOf, h0]
    · have hb : (ch == '0') = false := by simpa using h
      simp [List.dropWhile, hb]

theorem getU16_dec (ds : Str) (old : Nat) (hne : ds ≠ [])
    (hd : ∀ ch ∈ ds, (digitOf false ch).isSome = true ∧ isspace ch = false ∧
      ch ≠ '-' ∧ ch ≠ '+')
    (hv : valueOf false ds 0 ≤ 65535) :
    (IStream.getU16
      { buf := ' ' :: ds, eofbit := false, failbit := false, hex := false } old).1 =
      valueOf false ds 0 := by
  obtain ⟨c, cs, rfl⟩ := List.exists_cons_of_ne_nil hne
  obtain ⟨_, hsp, hminus, hplus⟩ := hd c (by simp)
  have hzd : ∀ ch ∈ (c :: cs).dropWhile (fun ch => ch == '0'),
      (digitOf false ch).isSome = true :=
    fun ch hch => (hd ch ((List.dropWhile_sublist _).subset hch)).1
  have hread := readDigits_all false _ 0 0 hzd
  have hval := valueOf_dropZeros (c :: cs)
  have hsplit := List.takeWhile_append_dropWhile (fun ch => ch == '0') (c :: cs)
  have hnofail : ¬ (((c :: cs).dropWhile (fun ch => ch == '0')).length = 0 ∧
      decide (((c :: cs).takeWhile (fun ch => ch == '0')).length ≠ 0) = false) := by
    rintro ⟨h1, h2⟩
    have hnil : (c :: cs).dropWhile (fun ch => ch == '0') = [] :=
      List.length_eq_zero.mp h1
    rw [hnil, List.append_nil] at hsplit
    rw [hsplit] at h2
    simp at h2
  have hsentry : (IStream.sentry
      { buf := ' ' :: c :: cs, eofbit := false, failbit := false, hex := false }) =
      (true, { buf := c :: cs, eofbit := false, failbit := false, hex := false }) := by
    have hdw : (' ' :: c :: cs).dropWhile isspace = c :: cs := by
      rw [List.dropWhile_cons_of_pos (by decide), List.dropWhile_cons_of_neg (by simp [hsp])]
    simp [IStream.sentry, hdw]
  unfold IStream.getU16
  rw [hsentry]
  simp only [if_true, if_neg hminus, if_neg hplus, Bool.false_eq_true, if_false, hread,
    Nat.zero_add]
  rw [if_neg hnofail, hval, if_neg (by omega)]

theorem getU16_hex (ds : Str) (old : Nat) (hne : ds ≠ [])
    (hd : ∀ ch ∈ ds, (digitOf true ch).isSome = true)
    (hv : valueOf true ds 0 ≤ 65535) :
    (IStream.getU16
      { buf := ' ' :: '0' :: 'x' :: ds, eofbit := false, failbit := false, hex := true }
      old).1 = valueOf true ds 0 := by
  have hread := readDigits_all true ds 0 0 hd
  have hlen : ds.length ≠ 0 := fun h => hne (List.length_eq_zero.mp h)
  have hsentry : (IStream.sentry
      { buf := ' ' :: '0' :: 'x' :: ds, eofbit := false, failbit := false, hex := true }) =
      (true, { buf := '0' :: 'x' :: ds, eofbit := false, failbit := false, hex := true }) := by
    have hdw : (' ' :: '0' :: 'x' :: ds).dropWhile isspace = '0' :: 'x' :: ds := by
      rw [List.dropWhile_cons_of_pos (by decide), List.dropWhile_cons_of_neg (by decide)]
    simp [IStream.sentry, hdw]
  unfold IStream.getU16
  rw [hsentry]
  have h1 : ¬ ('0' = '-') := by decide
  have h2 : ¬ ('0' = '+') := by decide
  simp only [if_true, if_neg h1, if_neg h2, true_or, hread, Nat.zero_add]
  rw [if_neg (by simp [hlen]), if_neg (by omega)]
  simp

/-! ## Properties of the two passes on single lines -/

/-- The statement read from `mnemonic operand` when neither part holds white
space or one of `; / :`. -/
theorem statement_operand (mn operand : Str) (hmn : mn ≠ []) (hop : operand ≠ [])
    (hmnc : ∀ ch ∈ mn, isspace ch = false ∧ ch ≠ ';' ∧ ch ≠ '/' ∧ ch ≠ ':')
    (hopc : ∀ ch ∈ operand, isspace ch = false ∧ ch ≠ ';' ∧ ch ≠ '/' ∧ ch ≠ ':') :
    statement (mn ++ ' ' :: operand) =
      some (mn, { buf := ' ' :: operand, eofbit := false, failbit := false,
                  hex := false }) := by
  obtain ⟨first, rest, rfl⟩ := List.exists_cons_of_ne_nil hmn
  have hlast := List.dropLast_append_getLast hop
  have hall : ∀ ch ∈ first :: ((rest ++ ' ' :: operand.dropLast) ++ [operand.getLast hop]),
      ch = ' ' ∨ (isspace ch = false ∧ ch ≠ ';' ∧ ch ≠ '/' ∧ ch ≠ ':') := by
    intro ch hch
    simp only [List.mem_cons, List.mem_append, List.not_mem_nil, or_false] at hch
    rcases hch with h | (h | h | h) | h
    · exact Or.inr (hmnc ch (by simp [h]))
    · exact Or.inr (hmnc ch (by simp [h]))
    · exact Or.inl h
    · exact Or.inr (hopc ch (List.mem_of_mem_dropLast h))
    · exact Or.inr (hopc ch (h ▸ List.getLast_mem hop))
  have hline : (first :: rest) ++ ' ' :: operand =
      first :: ((rest ++ ' ' :: operand.dropLast) ++ [operand.getLast hop]) := by
    conv_lhs => rw [← hlast]
    simp
  have hno : ∀ c : Char, c ≠ ' ' → (c = ';' ∨ c = '/' ∨ c = ':') →
      c ∉ first :: ((rest ++ ' ' :: operand.dropLast) ++ [operand.getLast hop]) := by
    intro c hc1 hc2 hmem
    rcases hall c hmem with h | ⟨_, h1, h2, h3⟩
    · exact hc1 h
    · rcases hc2 with h | h | h
      · exact h1 h
      · exact h2 h
      · exact h3 h
  rw [hline, statement_plain first (operand.getLast hop) _
    (hmnc first (by simp)).1 (hopc _ (List.getLast_mem hop)).1
    (hno ';' (by decide) (Or.inl rfl)) (hno '/' (by decide) (Or.inr (Or.inl rfl)))
    (hno ':' (by decide) (Or.inr (Or.inr rfl))), ← hline,
    getString_token (first :: rest) operand (fun ch h => (hmnc ch h).1) hmn]

/-- The effect of `firstPass` on a line, given the statement read from it. -/
theorem firstPassLine_of_statement (u : Nat) (rawLine : Str) (st : TextAssembler)
    (d : Str) (iss : IStream) (h : statement rawLine = some (d, iss)) :
    firstPassLine u rawLine st =
      advance u d iss (recordLabel (preprocessLine rawLine) st) := by
  unfold statement at h
  unfold firstPassLine advance recordLabel
  by_cases h1 : (preprocessLine rawLine).isEmpty = true
  · simp [h1] at h
  · simp only [h1] at h ⊢
    by_cases h2 : (if (isLabelDefinition (preprocessLine rawLine)).isSome = true then
        preprocessLine (afterColon (preprocessLine rawLine))
        else preprocessLine rawLine).isEmpty = true
    · simp [h2] at h
    · simp only [h2] at h ⊢
      simp only [Bool.false_eq_true, if_false, Option.some.injEq] at h ⊢
      rw [h]

/-- The effect of `firstPass` on a line that is skipped before a token is
read: at most a label is recorded. -/
theorem firstPassLine_of_statement_none (u : Nat) (rawLine : Str) (st : TextAssembler)
    (h : statement rawLine = none) :
    firstPassLine u rawLine st =
      if (preprocessLine rawLine).isEmpty then st
      else recordLabel (preprocessLine rawLine) st := by
  unfold statement at h
  unfold firstPassLine recordLabel
  by_cases h1 : (preprocessLine rawLine).isEmpty = true
  · simp only [h1, if_true]
  · simp only [h1] at h ⊢
    by_cases h2 : (if (isLabelDefinition (preprocessLine rawLine)).isSome = true then
        preprocessLine (afterColon (preprocessLine rawLine))
        else preprocessLine rawLine).isEmpty = true
    · simp only [h2, if_true]
    · simp [h2] at h

theorem recordLabel_frame (line : Str) (st : TextAssembler) :
    (recordLabel line st).memory = st.memory ∧
    (recordLabel line st).currentAddress = st.currentAddress ∧
    (recordLabel line st).forwardRefs = st.forwardRefs ∧
    (recordLabel line st).isSecondPass = st.isSecondPass := by
  unfold recordLabel
  split <;> exact ⟨rfl, rfl, rfl, rfl⟩

theorem advance_frame (u : Nat) (d : Str) (iss : IStream) (st : TextAssembler) :
    (advance u d iss st).memory = st.memory ∧
    (advance u d iss st).symbolTable = st.symbolTable ∧
    (advance u d iss st).forwardRefs = st.forwardRefs ∧
    (advance u d iss st).isSecondPass = st.isSecondPass := by
  unfold advance
  split
  · exact ⟨rfl, rfl, rfl, rfl⟩
  · split
    · exact ⟨rfl, rfl, rfl, rfl⟩
    · split
      · split <;> exact ⟨rfl, rfl, rfl, rfl⟩
      · exact ⟨rfl, rfl, rfl, rfl⟩

theorem firstPassLine_memory (u : Nat) (rawLine : Str) (st : TextAssembler) :
    (firstPassLine u rawLine st).memory = st.memory := by
  cases hs : statement rawLine with
  | none =>
    rw [firstPassLine_of_statement_none u rawLine st hs]
    split
    · rfl
    · exact (recordLabel_frame _ st).1
  | some p =>
    obtain ⟨d, iss⟩ := p
    rw [firstPassLine_of_statement u rawLine st d iss hs, (advance_frame u d iss _).1]
    exact (recordLabel_frame _ st).1

theorem foldl_firstPassLine_memory (u : Nat) : ∀ (code : List Str) (st : TextAssembler),
    (code.foldl (fun acc rawLine => firstPassLine u rawLine acc) st).memory = st.memory
  | [], _ => rfl
  | l :: rest, st => by
    rw [List.foldl_cons, foldl_firstPassLine_memory u rest, firstPassLine_memory]

theorem firstPass_memory (u : Nat) (code : List Str) (st : TextAssembler) :
    (firstPass u code st).memory = st.memory := by
  unfold firstPass
  rw [foldl_firstPassLine_memory]

theorem decimal_spec (n : Nat) :
    (∀ ch ∈ Nat.toDigits 10 n,
      (digitOf false ch).isSome = true ∧ isspace ch = false ∧ ch ≠ ';' ∧ ch ≠ '/' ∧
      ch ≠ ':' ∧ ch ≠ '-' ∧ ch ≠ '+') ∧
    Nat.toDigits 10 n ≠ [] ∧
    valueOf false (Nat.toDigits 10 n) 0 = n :=
  toDigitsCore_spec false (n + 1) n (Nat.lt_succ_self n)

theorem hexadecimal_spec (n : Nat) :
    (∀ ch ∈ Nat.toDigits 16 n,
      (digitOf true ch).isSome = true ∧ isspace ch = false ∧ ch ≠ ';' ∧ ch ≠ '/' ∧
      ch ≠ ':' ∧ ch ≠ '-' ∧ ch ≠ '+') ∧
    Nat.toDigits 16 n ≠ [] ∧
    valueOf true (Nat.toDigits 16 n) 0 = n :=
  toDigitsCore_spec true (n + 1) n (Nat.lt_succ_self n)

theorem parseLine_load_immediate (u m : Nat) (mn : Str) (op : Opcode) (st : TextAssembler)
    (hm : m ≤ 65535)
    (hmn : (mn, op) = ("lda".toList, Opcode.LDA_IMM) ∨ (mn, op) = ("ldb".toList, Opcode.LDB_IMM) ∨
      (mn, op) = ("ldc".toList, Opcode.LDC_IMM)) :
    parseLine u (mn ++ ' ' :: Nat.toDigits 10 m) st = emit16 (emit st op.toByte) m := by
  obtain ⟨hch, hne, hval⟩ := decimal_spec m
  have hstmt : statement (mn ++ ' ' :: Nat.toDigits 10 m) =
      some (mn, { buf := ' ' :: Nat.toDigits 10 m, eofbit := false, failbit := false,
                  hex := false }) := by
    apply statement_operand mn _ _ hne _
      (fun ch h => ⟨(hch ch h).2.1, (hch ch h).2.2.1, (hch ch h).2.2.2.1, (hch ch h).2.2.2.2.1⟩)
    · rcases hmn with h | h | h <;> cases h <;> decide
    · rcases hmn with h | h | h <;> cases h <;> decide
  have hget : (IStream.getU16
      { buf := ' ' :: Nat.toDigits 10 m, eofbit := false, failbit := false, hex := false }
      u).1 = m := by
    rw [getU16_dec _ u hne
      (fun ch h => ⟨(hch ch h).1, (hch ch h).2.1, (hch ch h).2.2.2.2.2.1, (hch ch h).2.2.2.2.2.2⟩)
      (by rw [hval]; exact hm), hval]
  rw [parseLine_of_statement u _ st mn _ hstmt]
  rcases hmn with h | h | h <;> cases h
  · rw [if_neg (by decide)]
    show parseOperands u "lda".toList _ (emit st Opcode.LDA_IMM.toByte) = _
    show emit16 _ _ = _
    rw [hget]
  · rw [if_neg (by decide)]
    show parseOperands u "ldb".toList _ (emit st Opcode.LDB_IMM.toByte) = _
    show emit16 _ _ = _
    rw [hget]
  · rw [if_neg (by decide)]
    show parseOperands u "ldc".toList _ (emit st Opcode.LDC_IMM.toByte) = _
    show emit16 _ _ = _
    rw [hget]

/-! ## The sum program (C1) -/

theorem oneByte_spec :
    ∀ e ∈ oneByte,
      statement e.1 = some (e.1, { buf := [], eofbit := true, failbit := false, hex := false }) ∧
      opcodeMap.lookup e.1 = some e.2 ∧ operandLen e.1 = 0 := by
  decide

theorem parseLine_oneByte (u : Nat) (mn : Str) (op : Opcode) (st : TextAssembler)
    (h : (mn, op) ∈ oneByte) : parseLine u mn st = emit st op.toByte := by
  obtain ⟨hstmt, hop, hlen⟩ := oneByte_spec (mn, op) h
  obtain ⟨bs, hbl, hbs⟩ := parseLine_bytes u mn mn _ op st.symbolTable hstmt hop
  rw [hlen] at hbl
  rw [hbs st rfl, List.length_eq_zero.mp hbl]
  rfl

theorem assemble_sumProgram (u1 u2 m n : Nat) (st : TextAssembler)
    (hm : m ≤ 65535) (hn : n ≤ 65535) :
    (assemble u1 u2 (sumProgram m n) st).memory =
      ([0x01, (m >>> 8) &&& 0xFF, m &&& 0xFF, 0x02, (n >>> 8) &&& 0xFF, n &&& 0xFF,
        0x03, 0x08, 0xFF].foldl emit { st with currentAddress := 0x9000 }).memory := by
  unfold assemble doSecondPass sumProgram
  simp only [List.foldl_cons, List.foldl_nil]
  rw [parseLine_load_immediate u2 m _ .LDA_IMM _ hm (Or.inl rfl),
    parseLine_load_immediate u2 n _ .LDB_IMM _ hn (Or.inr (Or.inl rfl)),
    parseLine_oneByte u2 "add".toList .ADD _ (by decide),
    parseLine_oneByte u2 "printa".toList .PRINT_A _ (by decide),
    parseLine_oneByte u2 "halt".toList .HALT _ (by decide)]
  simp only [emit16, emit, firstPass_memory]
  rfl

theorem high_byte (v : Nat) (h : v ≤ 65535) : ((v >>> 8) &&& 0xFF) % 256 = v / 256 := by
  have h1 : (0xFF : Nat) = 2 ^ 8 - 1 := by norm_num
  rw [h1, Nat.and_pow_two_sub_one_eq_mod, Nat.shiftRight_eq_div_pow]
  omega

theorem low_byte (v : Nat) : (v &&& 0xFF) % 256 = v % 256 := by
  have h1 : (0xFF : Nat) = 2 ^ 8 - 1 := by norm_num
  rw [h1, Nat.and_pow_two_sub_one_eq_mod]
  omega

theorem start_halted (base : Nat) : ∀ (fuel : Nat) (s : Machine),
    s.cpu_running = false → start base fuel s = s
  | 0, _, _ => rfl
  | fuel + 1, s, h => by simp [start, h]

theorem start_add (base : Nat) : ∀ (k fuel : Nat) (s : Machine),
    (start base k s).cpu_running = false → start base (k + fuel) s = start base k s
  | 0, fuel, s, h => by
    simp only [start] at h
    simp [start, start_halted base fuel s h]
  | k + 1, fuel, s, h => by
    rw [Nat.add_right_comm]
    simp only [start] at h ⊢
    by_cases hr : s.cpu_running = true
    · simp only [hr, if_true] at h ⊢
      exact start_add base k fuel _ h
    · simp [hr]

theorem sum_program_run (base m n : Nat) (s0 : Machine) (hm : m ≤ 65535) (hn : n ≤ 65535)
    (hpc : s0.cpu.pc = 0x9000) (hrun : s0.cpu_running = true)
    (h0 : s0.memory.cell 0x9000 = 0x01) (h1 : s0.memory.cell 0x9001 = m / 256)
    (h2 : s0.memory.cell 0x9002 = m % 256) (h3 : s0.memory.cell 0x9003 = 0x02)
    (h4 : s0.memory.cell 0x9004 = n / 256) (h5 : s0.memory.cell 0x9005 = n % 256)
    (h6 : s0.memory.cell 0x9006 = 0x03) (h7 : s0.memory.cell 0x9007 = 0x08)
    (h8 : s0.memory.cell 0x9008 = 0xFF) :
    (∀ k, k < 5 → (start base k s0).cpu_running = true) ∧
    (start base 5 s0).cpu_running = false ∧
    (start base 5 s0).cpu.a = (m + n) % 65536 ∧
    (start base 5 s0).cpu.b = n ∧
    (start base 5 s0).cout = s0.cout ++ Nat.toDigits 10 ((m + n) % 65536) := by
  have d1 : decode 1 = some .LDA_IMM := rfl
  have d2 : decode 2 = some .LDB_IMM := rfl
  have d3 : decode 3 = some .ADD := rfl
  have d8 : decode 8 = some .PRINT_A := rfl
  have dF : decode 255 = some .HALT := rfl
  have wm := word_split m (by omega)
  have wn := word_split n (by omega)
  have key : (start base 4 s0).cpu_running = true ∧
      (start base 3 s0).cpu_running = true ∧ (start base 2 s0).cpu_running = true ∧
      (start base 1 s0).cpu_running = true ∧
      (start base 5 s0).cpu_running = false ∧
      (start base 5 s0).cpu.a = (m + n) % 65536 ∧
      (start base 5 s0).cpu.b = n ∧
      (start base 5 s0).cout = s0.cout ++ Nat.toDigits 10 ((m + n) % 65536) := by
    simp [start, step, exec, Machine.fetch, Machine.fetchAddr, Machine.setA, Machine.setB,
      Machine.printNum, Machine.stop, hpc, hrun, h0, h1, h2, h3, h4, h5, h6, h7, h8,
      d1, d2, d3, d8, dF, wm, wn]
    omega
  obtain ⟨k4, k3, k2, k1, rest⟩ := key
  refine ⟨?_, rest⟩
  intro k hk
  have : k = 0 ∨ k = 1 ∨ k = 2 ∨ k = 3 ∨ k = 4 := by omega
  rcases this with rfl | rfl | rfl | rfl | rfl
  · exact hrun
  · exact k1
  · exact k2
  · exact k3
  · exact k4

/-- C1: for decimal immediates `m`, `n` in `0 .. 65535`, the program
`lda m` / `ldb n` / `add` / `printa` / `halt`, assembled into zero-filled
memory and run from program counter `0x9000` with registers, flags and stack
clear, is still running after fewer than five instructions and has halted
after five, with `A = (m + n) mod 65536`, `B = n` and the decimal text of `A`
as the whole output. -/
theorem sum_program_halts_with_sum (base u1 u2 m n : Nat) (cin : List Nat)
    (hm : m ≤ 65535) (hn : n ≤ 65535) :
    (∀ k, k < 5 → (start base k (sumMachine u1 u2 m n cin)).cpu_running = true) ∧
    ∀ fuel, 5 ≤ fuel →
      (start base fuel (sumMachine u1 u2 m n cin)).cpu_running = false ∧
      (start base fuel (sumMachine u1 u2 m n cin)).cpu.a = (m + n) % 65536 ∧
      (start base fuel (sumMachine u1 u2 m n cin)).cpu.b = n ∧
      (start base fuel (sumMachine u1 u2 m n cin)).cout = Nat.toDigits 10 ((m + n) % 65536) := by
  have hmem := assemble_sumProgram u1 u2 m n (TextAssembler.init Memory.zero) hm hn
  have hb1 := high_byte m hm
  have hb2 := low_byte m
  have hb3 := high_byte n hn
  have hb4 := low_byte n
  have hrun := sum_program_run base m n (sumMachine u1 u2 m n cin) hm hn rfl rfl
    (by simp [sumMachine, Machine.boot, hmem, emit])
    (by simp [sumMachine, Machine.boot, hmem, emit, hb1])
    (by simp [sumMachine, Machine.boot, hmem, emit, hb2])
    (by simp [sumMachine, Machine.boot, hmem, emit])
    (by simp [sumMachine, Machine.boot, hmem, emit, hb3])
    (by simp [sumMachine, Machine.boot, hmem, emit, hb4])
    (by simp [sumMachine, Machine.boot, hmem, emit])
    (by simp [sumMachine, Machine.boot, hmem, emit])
    (by simp [sumMachine, Machine.boot, hmem, emit])
  refine ⟨hrun.1, ?_⟩
  intro fuel hfuel
  obtain ⟨j, rfl⟩ := Nat.exists_eq_add_of_le hfuel
  rw [start_add base 5 j _ hrun.2.1]
  refine ⟨hrun.2.1, hrun.2.2.1, hrun.2.2.2.1, ?_⟩
  rw [hrun.2.2.2.2]
  rfl

theorem sum_program_halts_with_sum_witness :
    (start 0x9000 4 (sumMachine 0 0 10 3 [])).cpu_running = true ∧
    (start 0x9000 5 (sumMachine 0 0 10 3 [])).cpu_running = false ∧
    (start 0x9000 5 (sumMachine 0 0 10 3 [])).cpu.a = 13 ∧
    (start 0x9000 5 (sumMachine 0 0 10 3 [])).cpu.b = 3 ∧
    (start 0x9000 5 (sumMachine 0 0 10 3 [])).cout = ['1', '3'] :=
  have h := sum_program_halts_with_sum 0x9000 0 0 10 3 [] (by decide) (by decide)
  ⟨h.1 4 (by decide), (h.2 5 (Nat.le_refl 5)).1, (h.2 5 (Nat.le_refl 5)).2.1,
    (h.2 5 (Nat.le_refl 5)).2.2.1, (h.2 5 (Nat.le_refl 5)).2.2.2⟩

/-! ## The origin directive (C7) -/

theorem toByte_lt (op : Opcode) : op.toByte < 256 := by
  cases op <;> decide

theorem operandLen_le : ∀ e ∈ opcodeMap, operandLen e.1 ≤ 5 := by decide

theorem foldl_emit_cell : ∀ (bs : List Nat) (st : TextAssembler) (j : Nat),
    st.currentAddress < 65536 →
    (∀ k, k < bs.length → j ≠ (st.currentAddress + k) % 65536) →
    (bs.foldl emit st).memory.cell j = st.memory.cell j
  | [], _, _, _, _ => rfl
  | b :: rest, st, j, hc, h => by
    have h0 : j ≠ st.currentAddress := by
      have := h 0 (by simp)
      rwa [Nat.add_zero, Nat.mod_eq_of_lt hc] at this
    rw [List.foldl_cons, foldl_emit_cell rest (emit st b) j
      (by simp only [emit]; omega)
      (fun k hk => by
        have := h (k + 1) (by simp; omega)
        simp only [emit]
        omega)]
    simp [emit, h0]

theorem statement_org (X : Nat) :
    statement (".org".toList ++ ' ' :: '0' :: 'x' :: Nat.toDigits 16 X) =
      some (".org".toList,
        { buf := ' ' :: '0' :: 'x' :: Nat.toDigits 16 X, eofbit := false, failbit := false,
          hex := false }) := by
  obtain ⟨hch, hne, hval⟩ := hexadecimal_spec X
  apply statement_operand ".org".toList _ (by decide) (by simp) (by decide)
  intro ch h
  rcases List.mem_cons.mp h with h | h
  · subst h; decide
  · rcases List.mem_cons.mp h with h | h
    · subst h; decide
    · exact ⟨(hch ch h).2.1, (hch ch h).2.2.1, (hch ch h).2.2.2.1, (hch ch h).2.2.2.2.1⟩

theorem getU16_org (u X : Nat) (hX : X ≤ 65535) :
    ((IStream.setHex
      { buf := ' ' :: '0' :: 'x' :: Nat.toDigits 16 X, eofbit := false, failbit := false,
        hex := false }).getU16 u).1 = X := by
  obtain ⟨hch, hne, hval⟩ := hexadecimal_spec X
  have hget := getU16_hex _ u hne (fun ch h => (hch ch h).1) (by rw [hval]; exact hX)
  rw [hval] at hget
  exact hget

theorem parseLine_org (u X : Nat) (st : TextAssembler) (hX : X ≤ 65535) :
    parseLine u (".org".toList ++ ' ' :: '0' :: 'x' :: Nat.toDigits 16 X) st =
      { st with currentAddress := X } := by
  rw [parseLine_of_statement u _ st _ _ (statement_org X), if_pos rfl, getU16_org u X hX]

/-- C7: after `.org 0x<X>` (with `X + 1` inside memory), a one-byte
instruction and any further instruction line, the assembled memory holds the
opcode byte of the first instruction at `X` and the opcode byte of the second
at `X + 1`. -/
theorem org_places_instructions (u1 u2 X : Nat) (mn1 : Str) (op1 : Opcode)
    (line2 mn2 : Str) (iss2 : IStream) (op2 : Opcode) (st : TextAssembler)
    (hX : X + 1 < MEMORY_MAX) (h1 : (mn1, op1) ∈ oneByte)
    (hstmt : statement line2 = some (mn2, iss2))
    (hop : opcodeMap.lookup mn2 = some op2) :
    (assemble u1 u2 [".org".toList ++ ' ' :: '0' :: 'x' :: Nat.toDigits 16 X, mn1, line2]
      st).memory.cell X = op1.toByte ∧
    (assemble u1 u2 [".org".toList ++ ' ' :: '0' :: 'x' :: Nat.toDigits 16 X, mn1, line2]
      st).memory.cell (X + 1) = op2.toByte := by
  have hX2 : X ≤ 65533 := by
    have : MEMORY_MAX = 65535 := rfl
    omega
  unfold assemble doSecondPass
  generalize firstPass u1
    [".org".toList ++ ' ' :: '0' :: 'x' :: Nat.toDigits 16 X, mn1, line2] st = st1
  simp only [List.foldl_cons, List.foldl_nil]
  rw [parseLine_org u2 X _ (by omega), parseLine_oneByte u2 mn1 op1 _ h1]
  obtain ⟨bs, hlen, hbs⟩ := parseLine_bytes u2 line2 mn2 iss2 op2 st1.symbolTable hstmt hop
  have hle := operandLen_le (mn2, op2) (lookup_mem mn2 op2 opcodeMap hop)
  simp only at hle
  have hb1 := toByte_lt op1
  have hb2 := toByte_lt op2
  have hpl := hbs (emit { st1 with isSecondPass := true, currentAddress := X } op1.toByte) rfl
  simp only [] at hpl ⊢
  rw [hpl, List.foldl_cons]
  constructor
  · rw [foldl_emit_cell bs _ X (by simp only [emit]; omega)
      (fun k hk => by simp only [emit]; omega)]
    simp [emit, Nat.mod_eq_of_lt hb1]
    omega
  · rw [foldl_emit_cell bs _ (X + 1) (by simp only [emit]; omega)
      (fun k hk => by simp only [emit]; omega)]
    simp [emit, Nat.mod_eq_of_lt hb2]
    omega

theorem org_places_instructions_witness :
    (assemble 0 0 [".org 0x9100".toList, "nop".toList, "halt".toList]
      (TextAssembler.init Memory.zero)).memory.cell 0x9100 = 0x00 ∧
    (assemble 0 0 [".org 0x9100".toList, "nop".toList, "halt".toList]
      (TextAssembler.init Memory.zero)).memory.cell 0x9101 = 0xFF :=
  org_places_instructions 0 0 0x9100 "nop".toList .NOP "halt".toList "halt".toList
    { buf := [], eofbit := true, failbit := false, hex := false } .HALT
    (TextAssembler.init Memory.zero) (by decide) (by decide) (by decide) (by decide)

/-! ## Frame properties of the passes and label resolution (C2) -/

theorem ite_lt {c : Prop} [Decidable c] {a b n : Nat} (ha : c → a < n) (hb : ¬ c → b < n) :
    (if c then a else b) < n := by
  split
  · exact ha (by assumption)
  · exact hb (by assumption)

theorem getU16_lt (is : IStream) (old : Nat) : (is.getU16 old).1 < 65536 := by
  unfold IStream.getU16
  simp only [apply_ite Prod.fst]
  refine ite_lt (fun _ => ?_) (fun _ => Nat.mod_lt _ (by decide))
  refine ite_lt (fun _ => by decide) (fun _ => ?_)
  refine ite_lt (fun _ => by decide) (fun h => ?_)
  refine ite_lt (fun _ => Nat.mod_lt _ (by decide)) (fun _ => ?_)
  omega

theorem foldl_emit_frame : ∀ (bs : List Nat) (st : TextAssembler),
    (bs.foldl emit st).symbolTable = st.symbolTable ∧
    (bs.foldl emit st).forwardRefs = st.forwardRefs ∧
    (bs.foldl emit st).isSecondPass = st.isSecondPass ∧
    (st.currentAddress < 65536 → (bs.foldl emit st).currentAddress < 65536)
  | [], _ => ⟨rfl, rfl, rfl, id⟩
  | b :: rest, st => by
    obtain ⟨h1, h2, h3, h4⟩ := foldl_emit_frame rest (emit st b)
    rw [List.foldl_cons]
    refine ⟨h1, h2, h3, fun _ => h4 ?_⟩
    simp only [emit]
    omega

/-- The shape of every `parseLine` result: the cursor is possibly reset by
`.org`, then a sequence of bytes is emitted. -/
theorem parseLine_shape (u : Nat) (rawLine : Str) (st : TextAssembler) :
    ∃ (c : Nat) (bs : List Nat),
      (c = st.currentAddress ∨ c < 65536) ∧
      parseLine u rawLine st = bs.foldl emit { st with currentAddress := c } := by
  cases hs : statement rawLine with
  | none =>
    exact ⟨st.currentAddress, [], Or.inl rfl, parseLine_of_statement_none u rawLine st hs⟩
  | some p =>
    obtain ⟨d, iss⟩ := p
    rw [parseLine_of_statement u rawLine st d iss hs]
    by_cases hd : d = ".org".toList
    · rw [if_pos hd]
      exact ⟨_, [], Or.inr (getU16_lt _ _), rfl⟩
    · rw [if_neg hd]
      cases hl : opcodeMap.lookup d with
      | none => exact ⟨st.currentAddress, [], Or.inl rfl, rfl⟩
      | some op =>
        obtain ⟨bs, _, hbs⟩ := parseOperands_bytes u d iss st.symbolTable
        refine ⟨st.currentAddress, op.toByte :: bs, Or.inl rfl, ?_⟩
        rw [List.foldl_cons]
        exact hbs (emit st op.toByte) rfl

theorem parseLine_frame (u : Nat) (rawLine : Str) (st : TextAssembler) :
    (parseLine u rawLine st).symbolTable = st.symbolTable ∧
    (parseLine u rawLine st).forwardRefs = st.forwardRefs ∧
    (parseLine u rawLine st).isSecondPass = st.isSecondPass ∧
    (st.currentAddress < 65536 → (parseLine u rawLine st).currentAddress < 65536) := by
  obtain ⟨c, bs, hc, h⟩ := parseLine_shape u rawLine st
  obtain ⟨h1, h2, h3, h4⟩ := foldl_emit_frame bs { st with currentAddress := c }
  rw [h]
  refine ⟨h1, h2, h3, fun hlt => h4 ?_⟩
  rcases hc with hc | hc
  · simp only [hc]; exact hlt
  · exact hc

theorem foldl_parseLine_frame (u : Nat) : ∀ (code : List Str) (st : TextAssembler),
    (code.foldl (fun acc rawLine => parseLine u rawLine acc) st).symbolTable = st.symbolTable ∧
    (code.foldl (fun acc rawLine => parseLine u rawLine acc) st).forwardRefs = st.forwardRefs ∧
    (code.foldl (fun acc rawLine => parseLine u rawLine acc) st).isSecondPass =
      st.isSecondPass ∧
    (st.currentAddress < 65536 →
      (code.foldl (fun acc rawLine => parseLine u rawLine acc) st).currentAddress < 65536)
  | [], _ => ⟨rfl, rfl, rfl, id⟩
  | l :: rest, st => by
    obtain ⟨h1, h2, h3, h4⟩ := foldl_parseLine_frame u rest (parseLine u l st)
    obtain ⟨g1, g2, g3, g4⟩ := parseLine_frame u l st
    rw [List.foldl_cons]
    exact ⟨h1.trans g1, h2.trans g2, h3.trans g3, fun h => h4 (g4 h)⟩

theorem doSecondPass_frame (u : Nat) (code : List Str) (st : TextAssembler) :
    (doSecondPass u code st).symbolTable = st.symbolTable ∧
    (doSecondPass u code st).currentAddress < 65536 := by
  obtain ⟨h1, _, _, h4⟩ := foldl_parseLine_frame u code
    { st with isSecondPass := true, currentAddress := 0x9000 }
  exact ⟨h1, h4 (by simp)⟩

theorem recordLabel_wide (line : Str) (st : TextAssembler) (h : Wide st) :
    Wide (recordLabel line st) := by
  unfold recordLabel
  split
  · refine ⟨h.1, ?_⟩
    intro e he
    simp only [setSymbol, List.mem_cons, List.mem_filter] at he
    rcases he with he | he
    · rw [he]; exact h.1
    · exact h.2 e he.1
  · exact h

theorem advance_wide (u : Nat) (d : Str) (iss : IStream) (st : TextAssembler)
    (h : Wide st) : Wide (advance u d iss st) := by
  unfold advance
  split
  · exact ⟨getU16_lt _ _, h.2⟩
  · split
    · exact ⟨Nat.mod_lt _ (by decide), h.2⟩
    · split
      · split
        · exact ⟨Nat.mod_lt _ (by decide), h.2⟩
        · exact ⟨Nat.mod_lt _ (by decide), h.2⟩
      · exact h

theorem firstPassLine_wide (u : Nat) (rawLine : Str) (st : TextAssembler) (h : Wide st) :
    Wide (firstPassLine u rawLine st) := by
  cases hs : statement rawLine with
  | none =>
    rw [firstPassLine_of_statement_none u rawLine st hs]
    split
    · exact h
    · exact recordLabel_wide _ st h
  | some p =>
    obtain ⟨d, iss⟩ := p
    rw [firstPassLine_of_statement u rawLine st d iss hs]
    exact advance_wide u d iss _ (recordLabel_wide _ st h)

theorem foldl_firstPassLine_wide (u : Nat) : ∀ (code : List Str) (st : TextAssembler),
    Wide st → Wide (code.foldl (fun acc rawLine => firstPassLine u rawLine acc) st)
  | [], _, h => h
  | l :: rest, st, h => by
    rw [List.foldl_cons]
    exact foldl_firstPassLine_wide u rest _ (firstPassLine_wide u l st h)

theorem firstPass_wide (u : Nat) (code : List Str) (st : TextAssembler) :
    Wide (firstPass u code st) := by
  unfold firstPass
  apply foldl_firstPassLine_wide
  exact ⟨by simp, by simp⟩

theorem parseJumpOperand_label (u : Nat) (iss : IStream) (st : TextAssembler)
    (label : Str) (addr : Nat)
    (htok : iss.getString.1 = label) (hlen : 2 ≤ label.length)
    (h0x : label.take 2 ≠ "0x".toList)
    (hsym : st.symbolTable.lookup label = some addr) :
    parseJumpOperand u iss st = emit16 st addr := by
  unfold parseJumpOperand
  simp only [htok]
  rw [if_pos ⟨hlen, h0x⟩, hsym]

theorem parseOperands_jump (u : Nat) (mn : Str) (iss : IStream) (st : TextAssembler)
    (hmn : mn ∈ jumpMnemonics) :
    parseOperands u mn iss st = parseJumpOperand u iss st := by
  have h : ∀ m ∈ jumpMnemonics, m ∉ noOperand ∧
      ¬ (m = "lda".toList ∨ m = "ldb".toList ∨ m = "ldc".toList) ∧ m ≠ "inc".toList := by
    decide
  obtain ⟨h1, h2, h3⟩ := h mn hmn
  unfold parseOperands
  rw [if_neg h1, if_neg h2, if_neg h3, if_pos hmn]

/-- C2 (amended): when the operand token of a jump/call line is a label of at
least two characters that does not begin with `0x` and is a key of the symbol
table built by pass 1, pass 2 writes the opcode byte at the cursor and, in the
two cells behind it, operand bytes that decode (high byte first, as the engine
does) to the address recorded for the label. -/
theorem jump_operand_is_label_address (u1 u2 : Nat) (pre post : List Str)
    (rawLine mn label : Str) (iss : IStream) (op : Opcode) (addr : Nat)
    (st : TextAssembler)
    (hstmt : statement rawLine = some (mn, iss)) (hmn : mn ∈ jumpMnemonics)
    (hop : opcodeMap.lookup mn = some op)
    (htok : iss.getString.1 = label) (hlen : 2 ≤ label.length)
    (h0x : label.take 2 ≠ "0x".toList)
    (hsym : (firstPass u1 (pre ++ rawLine :: post) st).symbolTable.lookup label = some addr) :
    (parseLine u2 rawLine
      (doSecondPass u2 pre (firstPass u1 (pre ++ rawLine :: post) st))).memory.cell
        (doSecondPass u2 pre (firstPass u1 (pre ++ rawLine :: post) st)).currentAddress =
      op.toByte ∧
    word
      ((parseLine u2 rawLine
        (doSecondPass u2 pre (firstPass u1 (pre ++ rawLine :: post) st))).memory.cell
          (((doSecondPass u2 pre (firstPass u1 (pre ++ rawLine :: post) st)).currentAddress
            + 1) % 65536))
      ((parseLine u2 rawLine
        (doSecondPass u2 pre (firstPass u1 (pre ++ rawLine :: post) st))).memory.cell
          (((doSecondPass u2 pre (firstPass u1 (pre ++ rawLine :: post) st)).currentAddress
            + 2) % 65536)) = addr := by
  have hwide := (firstPass_wide u1 (pre ++ rawLine :: post) st).2 (label, addr)
    (lookup_mem label addr _ hsym)
  simp only at hwide
  obtain ⟨htab, hcur⟩ := doSecondPass_frame u2 pre (firstPass u1 (pre ++ rawLine :: post) st)
  generalize doSecondPass u2 pre (firstPass u1 (pre ++ rawLine :: post) st) = before
    at htab hcur ⊢
  rw [← htab] at hsym
  have hne : mn ≠ ".org".toList := by
    intro h
    rw [h, org_is_no_mnemonic] at hop
    exact Option.noConfusion hop
  rw [parseLine_of_statement u2 rawLine before mn iss hstmt, if_neg hne, hop]
  simp only
  rw [parseOperands_jump u2 mn iss _ hmn,
    parseJumpOperand_label u2 iss (emit before op.toByte) label addr htok hlen h0x hsym]
  have hb := toByte_lt op
  have hhi := high_byte addr (by omega)
  have hlo := low_byte addr
  have e1 : (before.currentAddress + 1) % 65536 ≠ before.currentAddress := by omega
  have e2 : (before.currentAddress + 2) % 65536 ≠ before.currentAddress := by omega
  have e3 : (before.currentAddress + 2) % 65536 ≠ (before.currentAddress + 1) % 65536 := by
    omega
  have e4 : ((before.currentAddress + 1) % 65536 + 1) % 65536 =
      (before.currentAddress + 2) % 65536 := by omega
  constructor
  · simp [emit16, emit, e4, Ne.symm e1, Ne.symm e2, Nat.mod_eq_of_lt hb]
  · simp [emit16, emit, e4, e3, Ne.symm e3, hhi, hlo]
    exact word_split addr (by omega)

/-- C2 (counterexample): in `nop` / `x: nop` / `jmp x` the label `x` is
recorded at `0x9001`, but the operand bytes emitted for `jmp x` (behind the
opcode byte `0x10` at `0x9002`) decode to `0`: a one-character operand is not
looked up in the symbol table. -/
theorem short_label_is_not_resolved :
    (assemble 0 0 shortLabelProgram (TextAssembler.init Memory.zero)).symbolTable.lookup
      "x".toList = some 0x9001 ∧
    (assemble 0 0 shortLabelProgram (TextAssembler.init Memory.zero)).memory.cell 0x9002 =
      Opcode.JMP.toByte ∧
    word ((assemble 0 0 shortLabelProgram (TextAssembler.init Memory.zero)).memory.cell 0x9003)
      ((assemble 0 0 shortLabelProgram (TextAssembler.init Memory.zero)).memory.cell 0x9004)
      ≠ 0x9001 := by
  decide

theorem jump_operand_is_label_address_witness :
    (parseLine 0 "jmp lp".toList
      (doSecondPass 0 ["lp: nop".toList]
        (firstPass 0 (["lp: nop".toList] ++ "jmp lp".toList :: [])
          (TextAssembler.init Memory.zero)))).memory.cell 0x9001 = 0x10 ∧
    word
      ((parseLine 0 "jmp lp".toList
        (doSecondPass 0 ["lp: nop".toList]
          (firstPass 0 (["lp: nop".toList] ++ "jmp lp".toList :: [])
            (TextAssembler.init Memory.zero)))).memory.cell 0x9002)
      ((parseLine 0 "jmp lp".toList
        (doSecondPass 0 ["lp: nop".toList]
          (firstPass 0 (["lp: nop".toList] ++ "jmp lp".toList :: [])
            (TextAssembler.init Memory.zero)))).memory.cell 0x9003) = 0x9000 :=
  jump_operand_is_label_address 0 0 ["lp: nop".toList] [] "jmp lp".toList "jmp".toList
    "lp".toList { buf := " lp".toList, eofbit := false, failbit := false, hex := false }
    .JMP 0x9000 (TextAssembler.init Memory.zero) (by decide) (by decide) (by decide)
    (by decide) (by decide) (by decide) (by decide)

/-! ## Agreement of the two passes (C3) -/

theorem lookup_setSymbol_self (table : List (Str × Nat)) (label : Str) (addr : Nat) :
    (setSymbol table label addr).lookup label = some addr := by
  simp [setSymbol, List.lookup]

theorem lookup_filter_ne (label other : Str) (h : other ≠ label) :
    ∀ table : List (Str × Nat),
      (table.filter (fun e => e.1 != other)).lookup label = table.lookup label
  | [] => rfl
  | (k, v) :: rest => by
    by_cases hk : k = other
    · subst hk
      have hlk : (label == k) = false := by simpa using Ne.symm h
      simp only [List.filter, bne_self_eq_false, List.lookup, hlk]
      exact lookup_filter_ne label k h rest
    · have hb : (k != other) = true := by simpa using hk
      simp only [List.filter, hb, List.lookup]
      rw [lookup_filter_ne label other h rest]

theorem lookup_setSymbol_other (table : List (Str × Nat)) (label other : Str) (addr : Nat)
    (h : other ≠ label) :
    (setSymbol table other addr).lookup label = table.lookup label := by
  have hlk : (label == other) = false := by simpa using Ne.symm h
  simp only [setSymbol, List.lookup, hlk]
  exact lookup_filter_ne label other h table

theorem firstPassLine_symbolTable (u : Nat) (rawLine : Str) (st : TextAssembler) :
    (firstPassLine u rawLine st).symbolTable =
      if (preprocessLine rawLine).isEmpty then st.symbolTable
      else (recordLabel (preprocessLine rawLine) st).symbolTable := by
  cases hs : statement rawLine with
  | none =>
    rw [firstPassLine_of_statement_none u rawLine st hs]
    split <;> rfl
  | some p =>
    obtain ⟨d, iss⟩ := p
    rw [firstPassLine_of_statement u rawLine st d iss hs, (advance_frame u d iss _).2.1]
    have hne : (preprocessLine rawLine).isEmpty = false := by
      unfold statement at hs
      by_cases h1 : (preprocessLine rawLine).isEmpty = true
      · simp [h1] at hs
      · simpa using h1
    rw [hne]
    rfl

theorem isLabelDefinition_nil : isLabelDefinition [] = none := rfl

theorem firstPassLine_lookup_other (u : Nat) (rawLine label : Str) (st : TextAssembler)
    (h : isLabelDefinition (preprocessLine rawLine) ≠ some label) :
    (firstPassLine u rawLine st).symbolTable.lookup label = st.symbolTable.lookup label := by
  rw [firstPassLine_symbolTable]
  split
  · rfl
  · unfold recordLabel
    split
    · rename_i other hother
      have hne : other ≠ label := fun e => h (by rw [hother, e])
      exact lookup_setSymbol_other _ _ _ _ hne
    · rfl

theorem firstPassLine_lookup_self (u : Nat) (rawLine label : Str) (st : TextAssembler)
    (h : isLabelDefinition (preprocessLine rawLine) = some label) :
    (firstPassLine u rawLine st).symbolTable.lookup label = some st.currentAddress := by
  rw [firstPassLine_symbolTable]
  have hne : (preprocessLine rawLine).isEmpty = false := by
    cases hp : preprocessLine rawLine with
    | nil => rw [hp, isLabelDefinition_nil] at h; exact Option.noConfusion h
    | cons c cs => rfl
  rw [hne]
  unfold recordLabel
  simp only [h, Bool.false_eq_true, if_false]
  exact lookup_setSymbol_self _ _ _

theorem foldl_firstPassLine_lookup_other (u : Nat) (label : Str) :
    ∀ (code : List Str) (st : TextAssembler),
      (∀ line ∈ code, isLabelDefinition (preprocessLine line) ≠ some label) →
      (code.foldl (fun acc rawLine => firstPassLine u rawLine acc) st).symbolTable.lookup
        label = st.symbolTable.lookup label
  | [], _, _ => rfl
  | l :: rest, st, h => by
    rw [List.foldl_cons, foldl_firstPassLine_lookup_other u label rest _
      (fun line hl => h line (List.mem_cons_of_mem _ hl)),
      firstPassLine_lookup_other u l label st (h l (by simp))]

theorem sentry_setHex (is : IStream) : is.setHex.sentry.1 = is.sentry.1 := by
  unfold IStream.sentry IStream.setHex
  simp only []
  split_ifs <;> rfl

/-- An extraction whose sentry succeeds does not look at the old value of the
variable. -/
theorem getU16_of_sentry (is : IStream) (h : is.sentry.1 = true) (a b : Nat) :
    is.getU16 a = is.getU16 b := by
  unfold IStream.getU16
  simp only [h, if_true]

theorem line_cursor_agree (u1 u2 : Nat) (line : Str) (st1 st2 : TextAssembler)
    (htame : Tame line) (hcur : st1.currentAddress = st2.currentAddress) :
    (firstPassLine u1 line st1).currentAddress = (parseLine u2 line st2).currentAddress := by
  cases hs : statement line with
  | none =>
    rw [firstPassLine_of_statement_none u1 line st1 hs,
      parseLine_of_statement_none u2 line st2 hs]
    split
    · exact hcur
    · rw [(recordLabel_frame _ st1).2.1]; exact hcur
  | some p =>
    obtain ⟨d, iss⟩ := p
    obtain ⟨hdb, hmov, horg⟩ := htame d iss hs
    rw [firstPassLine_of_statement u1 line st1 d iss hs]
    have hrec := (recordLabel_frame (preprocessLine line) st1).2.1
    generalize recordLabel (preprocessLine line) st1 = st1r at hrec
    unfold advance
    by_cases hd : d = ".org".toList
    · have hsentry : iss.setHex.sentry.1 = true := by
        rw [sentry_setHex]
        exact horg hd
      rw [parseLine_of_statement u2 line st2 d iss hs, if_pos hd, if_pos hd,
        getU16_of_sentry iss.setHex hsentry u1 u2]
    · rw [if_neg hd, if_neg hdb]
      cases hl : opcodeMap.lookup d with
      | none =>
        rw [parseLine_of_statement u2 line st2 d iss hs, if_neg hd, hl]
        simp only [Option.isSome_none, Bool.false_eq_true, if_false]
        rw [hrec, hcur]
      | some op =>
        obtain ⟨bs, hlen, hbs⟩ := parseLine_bytes u2 line d iss op st2.symbolTable hs hl
        have hsize := size_table_agrees (d, op) (lookup_mem d op opcodeMap hl) hmov
        simp only at hsize
        rw [hbs st2 rfl, foldl_emit_cursor _ _ (by simp)]
        simp only [Option.isSome_some, if_true, hsize, List.length_cons, hlen, hrec, hcur]
        congr 1
        omega

theorem foldl_cursor_agree (u1 u2 : Nat) : ∀ (code : List Str) (st1 st2 : TextAssembler),
    (∀ line ∈ code, Tame line) → st1.currentAddress = st2.currentAddress →
    (code.foldl (fun acc rawLine => firstPassLine u1 rawLine acc) st1).currentAddress =
      (code.foldl (fun acc rawLine => parseLine u2 rawLine acc) st2).currentAddress
  | [], _, _, _, h => h
  | l :: rest, st1, st2, ht, h => by
    rw [List.foldl_cons, List.foldl_cons]
    exact foldl_cursor_agree u1 u2 rest _ _
      (fun line hl => ht line (List.mem_cons_of_mem _ hl))
      (line_cursor_agree u1 u2 l st1 st2 (ht l (by simp)) h)

theorem passes_cursor_agree (u1 u2 : Nat) (code : List Str) (st1 st2 : TextAssembler)
    (ht : ∀ line ∈ code, Tame line) :
    (firstPass u1 code st1).currentAddress = (doSecondPass u2 code st2).currentAddress := by
  unfold firstPass doSecondPass
  exact foldl_cursor_agree u1 u2 code _ _ ht rfl

/-- Lines from which no token is read (blank, comment-only and label-only
lines) do not move pass 2. -/
theorem doSecondPass_skip (u : Nat) (pre : List Str) (st : TextAssembler) :
    ∀ skipped : List Str, (∀ l ∈ skipped, statement l = none) →
      doSecondPass u (pre ++ skipped) st = doSecondPass u pre st
  | [], _ => by simp
  | l :: rest, h => by
    have ih := doSecondPass_skip u (pre ++ [l]) st rest
      (fun x hx => h x (List.mem_cons_of_mem _ hx))
    have hl : doSecondPass u (pre ++ [l]) st = doSecondPass u pre st := by
      unfold doSecondPass
      rw [List.foldl_append, List.foldl_cons, List.foldl_nil,
        parseLine_of_statement_none u l _ (h l (by simp))]
    rw [← hl, ← ih]
    simp

theorem firstPass_append (u : Nat) (pre : List Str) (line : Str) (post : List Str)
    (st : TextAssembler) :
    firstPass u (pre ++ line :: post) st =
      post.foldl (fun acc rawLine => firstPassLine u rawLine acc)
        (firstPassLine u line (firstPass u pre st)) := by
  unfold firstPass
  rw [List.foldl_append, List.foldl_cons]

theorem parseLine_opcode_cell (u : Nat) (line mn : Str) (iss : IStream) (op : Opcode)
    (st : TextAssembler) (hs : statement line = some (mn, iss))
    (hop : opcodeMap.lookup mn = some op) :
    (parseLine u line st).memory.cell st.currentAddress = op.toByte := by
  obtain ⟨bs, hlen, hbs⟩ := parseLine_bytes u line mn iss op st.symbolTable hs hop
  have hle := operandLen_le (mn, op) (lookup_mem mn op opcodeMap hop)
  simp only at hle
  have hb := toByte_lt op
  rw [hbs st rfl, List.foldl_cons, foldl_emit_cell bs _ st.currentAddress
    (by simp only [emit]; omega) (fun k hk => by simp only [emit]; omega)]
  simp [emit, Nat.mod_eq_of_lt hb]

/-- C3 (amended): for a source program without `.db` lines and without
`mov_reg_imm`, in which every `.org` is followed by an operand, the cursor of
pass 1 at the start of each line equals the cursor of pass 2 at the start of
the same line, whatever values the uninitialised variables of the two passes
hold.  Hence a label that is not defined again further down is recorded in the
symbol table at the pass-2 cursor at the start of its line.  An instruction
standing on that line has its opcode byte emitted at exactly that address; and
when nothing stands behind the label on its line, so has the next instruction
line, provided only lines without instruction or directive lie in between. -/
theorem passes_agree_on_cursor (u1 u2 : Nat) (code : List Str) (st1 st2 : TextAssembler)
    (ht : ∀ line ∈ code, Tame line) :
    (∀ k, (firstPass u1 (code.take k) st1).currentAddress =
      (doSecondPass u2 (code.take k) st2).currentAddress) ∧
    ∀ (pre : List Str) (line : Str) (post : List Str) (label : Str),
      code = pre ++ line :: post →
      isLabelDefinition (preprocessLine line) = some label →
      (∀ other ∈ post, isLabelDefinition (preprocessLine other) ≠ some label) →
      (firstPass u1 code st1).symbolTable.lookup label =
        some (doSecondPass u2 pre st2).currentAddress ∧
      (∀ (mn : Str) (iss : IStream) (op : Opcode),
        statement line = some (mn, iss) → opcodeMap.lookup mn = some op →
        (parseLine u2 line (doSecondPass u2 pre st2)).memory.cell
          (doSecondPass u2 pre st2).currentAddress = op.toByte) ∧
      ∀ (mid : List Str) (next : Str) (rest : List Str) (mn : Str) (iss : IStream)
        (op : Opcode),
        post = mid ++ next :: rest → statement line = none →
        (∀ l ∈ mid, statement l = none) →
        statement next = some (mn, iss) → opcodeMap.lookup mn = some op →
        (doSecondPass u2 (pre ++ line :: mid) st2).currentAddress =
          (doSecondPass u2 pre st2).currentAddress ∧
        (parseLine u2 next (doSecondPass u2 (pre ++ line :: mid) st2)).memory.cell
          (doSecondPass u2 pre st2).currentAddress = op.toByte := by
  constructor
  · intro k
    exact passes_cursor_agree u1 u2 _ st1 st2
      (fun line hl => ht line (List.mem_of_mem_take hl))
  · intro pre line post label hcode hlabel hpost
    refine ⟨?_, ?_, ?_⟩
    · rw [hcode, firstPass_append, foldl_firstPassLine_lookup_other u1 label post _ hpost,
        firstPassLine_lookup_self u1 line label _ hlabel,
        passes_cursor_agree u1 u2 pre st1 st2
          (fun l hl => ht l (by rw [hcode]; exact List.mem_append_left _ hl))]
    · intro mn iss op hs hop
      exact parseLine_opcode_cell u2 line mn iss op _ hs hop
    · intro mid next rest mn iss op _ hline hmid hs hop
      have hskip := doSecondPass_skip u2 pre st2 (line :: mid) (fun l hl => by
        rcases List.mem_cons.mp hl with h | h
        · rw [h]; exact hline
        · exact hmid l h)
      refine ⟨by rw [hskip], ?_⟩
      have hcell := parseLine_opcode_cell u2 next mn iss op
        (doSecondPass u2 (pre ++ line :: mid) st2) hs hop
      rw [hskip] at hcell ⊢
      exact hcell

theorem orgLabelProgram_tame : ∀ line ∈ orgLabelProgram, Tame line := by
  intro line hl d iss hs
  simp only [orgLabelProgram, List.mem_cons, List.mem_singleton, List.not_mem_nil,
    or_false] at hl
  rcases hl with rfl | rfl
  · have : statement "lp: .org 0x9100".toList = some (".org".toList,
        { buf := " 0x9100".toList, eofbit := false, failbit := false, hex := false }) := by
      decide
    rw [this] at hs
    cases hs
    decide
  · have : statement "halt".toList = some ("halt".toList,
        { buf := [], eofbit := true, failbit := false, hex := false }) := by
      decide
    rw [this] at hs
    cases hs
    decide

/-- C3 (counterexample): in `lp: .org 0x9100` / `halt` (no `.db`, no
`mov_reg_imm`, `lp` defined once) the label is recorded at `0x9000`, whereas
pass 2 emits the next instruction after the label, `halt`, at `0x9100`.  And
on the single line `.org`, without operand, each pass sets its cursor to the
value its own uninitialised variable holds: 7 in pass 1 and 9 in pass 2, say. -/
theorem label_before_org_is_not_next_instruction :
    (∀ line ∈ orgLabelProgram, Tame line) ∧
    (assemble 0 0 orgLabelProgram (TextAssembler.init Memory.zero)).symbolTable.lookup
      "lp".toList = some 0x9000 ∧
    (doSecondPass 0 ["lp: .org 0x9100".toList]
      (firstPass 0 orgLabelProgram (TextAssembler.init Memory.zero))).currentAddress =
      0x9100 ∧
    (assemble 0 0 orgLabelProgram (TextAssembler.init Memory.zero)).memory.cell 0x9100 =
      Opcode.HALT.toByte ∧
    (assemble 0 0 orgLabelProgram (TextAssembler.init Memory.zero)).memory.cell 0x9000 = 0 ∧
    (firstPass 7 [".org".toList] (TextAssembler.init Memory.zero)).currentAddress = 7 ∧
    (doSecondPass 9 [".org".toList]
      (firstPass 7 [".org".toList] (TextAssembler.init Memory.zero))).currentAddress = 9 :=
  ⟨orgLabelProgram_tame, by decide, by decide, by decide, by decide, by decide, by decide⟩

theorem passes_agree_on_cursor_witness :
    (firstPass 7 (orgLabelProgram.take 1) (TextAssembler.init Memory.zero)).currentAddress =
      (doSecondPass 9 (orgLabelProgram.take 1)
        (TextAssembler.init Memory.zero)).currentAddress :=
  (passes_agree_on_cursor 7 9 orgLabelProgram (TextAssembler.init Memory.zero)
    (TextAssembler.init Memory.zero) orgLabelProgram_tame).1 1

/-! ## Idempotence of assembly (C6) -/

theorem writeAll_cell : ∀ (ws : List (Nat × Nat)) (m : Memory) (j : Nat),
    (writeAll ws m).cell j = (lastWrite ws j).getD (m.cell j)
  | [], _, _ => rfl
  | w :: ws, m, j => by
    have ih := writeAll_cell ws (m.write w.1 w.2) j
    simp only [writeAll, List.foldl_cons] at ih ⊢
    rw [ih]
    simp only [lastWrite]
    cases lastWrite ws j with
    | some v => rfl
    | none =>
      simp only [Option.getD_none, Memory.write_cell]
      split <;> rfl

theorem writeAll_oob : ∀ (ws : List (Nat × Nat)) (m : Memory),
    (writeAll ws m).oob = (m.oob || ws.any (fun w => decide (MEMORY_MAX ≤ w.1)))
  | [], m => by simp [writeAll]
  | w :: ws, m => by
    have ih := writeAll_oob ws (m.write w.1 w.2)
    simp only [writeAll, List.foldl_cons] at ih ⊢
    rw [ih]
    simp [Memory.write, Bool.or_assoc]

theorem writeAll_idempotent (ws : List (Nat × Nat)) (m : Memory) :
    writeAll ws (writeAll ws m) = writeAll ws m := by
  have hc : (writeAll ws (writeAll ws m)).cell = (writeAll ws m).cell := by
    funext j
    rw [writeAll_cell ws (writeAll ws m) j, writeAll_cell ws m j]
    cases lastWrite ws j <;> rfl
  have ho : (writeAll ws (writeAll ws m)).oob = (writeAll ws m).oob := by
    rw [writeAll_oob ws (writeAll ws m), writeAll_oob ws m]
    cases m.oob <;> cases ws.any (fun w => decide (MEMORY_MAX ≤ w.1)) <;> rfl
  cases h1 : writeAll ws (writeAll ws m)
  cases h2 : writeAll ws m
  rw [h1, h2] at hc ho
  simp only at hc ho
  rw [hc, ho]

theorem writeAll_append (ws vs : List (Nat × Nat)) (m : Memory) :
    writeAll (ws ++ vs) m = writeAll vs (writeAll ws m) := by
  simp [writeAll, List.foldl_append]

theorem foldl_emit_writes : ∀ (bs : List Nat) (st : TextAssembler),
    ∃ ws : List (Nat × Nat), ∀ m : Memory,
      bs.foldl emit { st with memory := m } =
        { bs.foldl emit st with memory := writeAll ws m }
  | [], st => ⟨[], fun _ => rfl⟩
  | b :: rest, st => by
    obtain ⟨ws, h⟩ := foldl_emit_writes rest (emit st b)
    refine ⟨(st.currentAddress, b) :: ws, ?_⟩
    intro m
    have := h (m.write st.currentAddress b)
    simp only [List.foldl_cons]
    exact this

/-- The uniform shape of `parseLine`: which cursor it continues from and which
bytes it emits depends on the line, the symbol table and the cursor only. -/
theorem parseLine_uniform (u : Nat) (rawLine : Str) (table : List (Str × Nat)) (cur : Nat) :
    ∃ (c : Nat) (bs : List Nat), ∀ st : TextAssembler,
      st.symbolTable = table → st.currentAddress = cur →
      parseLine u rawLine st = bs.foldl emit { st with currentAddress := c } := by
  cases hs : statement rawLine with
  | none =>
    refine ⟨cur, [], ?_⟩
    intro st _ hc
    rw [parseLine_of_statement_none u rawLine st hs, ← hc]
    rfl
  | some p =>
    obtain ⟨d, iss⟩ := p
    by_cases hd : d = ".org".toList
    · refine ⟨(iss.setHex.getU16 u).1, [], ?_⟩
      intro st _ _
      rw [parseLine_of_statement u rawLine st d iss hs, if_pos hd]
      rfl
    · cases hl : opcodeMap.lookup d with
      | none =>
        refine ⟨cur, [], ?_⟩
        intro st _ hc
        rw [parseLine_of_statement u rawLine st d iss hs, if_neg hd, hl, ← hc]
        rfl
      | some op =>
        obtain ⟨bs, _, hbs⟩ := parseOperands_bytes u d iss table
        refine ⟨cur, op.toByte :: bs, ?_⟩
        intro st ht hc
        rw [parseLine_of_statement u rawLine st d iss hs, if_neg hd, hl, List.foldl_cons,
          ← hc]
        exact hbs (emit st op.toByte) ht

theorem parseLine_writes (u : Nat) (rawLine : Str) (st : TextAssembler) :
    ∃ ws : List (Nat × Nat), ∀ m : Memory,
      parseLine u rawLine { st with memory := m } =
        { parseLine u rawLine st with memory := writeAll ws m } := by
  obtain ⟨c, bs, h⟩ := parseLine_uniform u rawLine st.symbolTable st.currentAddress
  obtain ⟨ws, hw⟩ := foldl_emit_writes bs { st with currentAddress := c }
  refine ⟨ws, ?_⟩
  intro m
  rw [h { st with memory := m } rfl rfl, h st rfl rfl]
  exact hw m

theorem foldl_parseLine_writes (u : Nat) : ∀ (code : List Str) (st : TextAssembler),
    ∃ ws : List (Nat × Nat), ∀ m : Memory,
      code.foldl (fun acc rawLine => parseLine u rawLine acc) { st with memory := m } =
        { code.foldl (fun acc rawLine => parseLine u rawLine acc) st with
          memory := writeAll ws m }
  | [], st => ⟨[], fun _ => rfl⟩
  | l :: rest, st => by
    obtain ⟨w1, h1⟩ := parseLine_writes u l st
    obtain ⟨w2, h2⟩ := foldl_parseLine_writes u rest (parseLine u l st)
    refine ⟨w1 ++ w2, ?_⟩
    intro m
    simp only [List.foldl_cons]
    rw [h1 m, h2 (writeAll w1 m), writeAll_append]

theorem recordLabel_comm (line : Str) (st : TextAssembler) (m : Memory) (b : Bool) :
    recordLabel line { st with memory := m, isSecondPass := b } =
      { recordLabel line st with memory := m, isSecondPass := b } := by
  unfold recordLabel
  split <;> rfl

theorem advance_comm (u : Nat) (d : Str) (iss : IStream) (st : TextAssembler)
    (m : Memory) (b : Bool) :
    advance u d iss { st with memory := m, isSecondPass := b } =
      { advance u d iss st with memory := m, isSecondPass := b } := by
  unfold advance
  split
  · rfl
  · split
    · rfl
    · split
      · split <;> rfl
      · rfl

theorem firstPassLine_comm (u : Nat) (rawLine : Str) (st : TextAssembler)
    (m : Memory) (b : Bool) :
    firstPassLine u rawLine { st with memory := m, isSecondPass := b } =
      { firstPassLine u rawLine st with memory := m, isSecondPass := b } := by
  cases hs : statement rawLine with
  | none =>
    rw [firstPassLine_of_statement_none u rawLine _ hs,
      firstPassLine_of_statement_none u rawLine st hs]
    split
    · rfl
    · exact recordLabel_comm _ st m b
  | some p =>
    obtain ⟨d, iss⟩ := p
    rw [firstPassLine_of_statement u rawLine _ d iss hs,
      firstPassLine_of_statement u rawLine st d iss hs, recordLabel_comm, advance_comm]

theorem foldl_firstPassLine_comm (u : Nat) (m : Memory) (b : Bool) :
    ∀ (code : List Str) (st : TextAssembler),
      code.foldl (fun acc rawLine => firstPassLine u rawLine acc)
          { st with memory := m, isSecondPass := b } =
        { code.foldl (fun acc rawLine => firstPassLine u rawLine acc) st with
          memory := m, isSecondPass := b }
  | [], _ => rfl
  | l :: rest, st => by
    simp only [List.foldl_cons]
    rw [firstPassLine_comm, foldl_firstPassLine_comm u m b rest]

/-- The result of `firstPass` depends on the incoming assembler only through
its memory and its `isSecondPass` flag, which it passes on. -/
theorem firstPass_reset (u : Nat) (code : List Str) (st st0 : TextAssembler) :
    firstPass u code st =
      { firstPass u code st0 with memory := st.memory, isSecondPass := st.isSecondPass } := by
  unfold firstPass
  rw [← foldl_firstPassLine_comm]

/-- Replaying an assembly with the values the uninitialised variables held
the first time changes nothing. -/
theorem assemble_replay (u1 u2 : Nat) (code : List Str) (st : TextAssembler) :
    assemble u1 u2 code (assemble u1 u2 code st) = assemble u1 u2 code st := by
  unfold assemble doSecondPass
  obtain ⟨ws, hw⟩ := foldl_parseLine_writes u2 code
    { firstPass u1 code st with isSecondPass := true, currentAddress := 0x9000 }
  have h1 := hw (firstPass u1 code st).memory
  have hfp := firstPass_reset u1 code
    (code.foldl (fun acc rawLine => parseLine u2 rawLine acc)
      { firstPass u1 code st with isSecondPass := true, currentAddress := 0x9000 }) st
  rw [hfp]
  have h2 := hw (writeAll ws (firstPass u1 code st).memory)
  simp only [] at h1 h2 ⊢
  rw [h1]
  simp only []
  rw [h2, writeAll_idempotent]

theorem foldl_firstPassLine_determined (u v : Nat) :
    ∀ (code : List Str) (st : TextAssembler), (∀ line ∈ code, Determined line) →
      code.foldl (fun acc rawLine => firstPassLine u rawLine acc) st =
        code.foldl (fun acc rawLine => firstPassLine v rawLine acc) st
  | [], _, _ => by simp only [List.foldl_nil]
  | l :: rest, st, h => by
    simp only [List.foldl_cons]
    rw [(h l (by simp)).1 u v st]
    exact foldl_firstPassLine_determined u v rest _
      (fun line hl => h line (List.mem_cons_of_mem _ hl))

theorem foldl_parseLine_determined (u v : Nat) :
    ∀ (code : List Str) (st : TextAssembler), (∀ line ∈ code, Determined line) →
      code.foldl (fun acc rawLine => parseLine u rawLine acc) st =
        code.foldl (fun acc rawLine => parseLine v rawLine acc) st
  | [], _, _ => by simp only [List.foldl_nil]
  | l :: rest, st, h => by
    simp only [List.foldl_cons]
    rw [(h l (by simp)).2 u v st]
    exact foldl_parseLine_determined u v rest _
      (fun line hl => h line (List.mem_cons_of_mem _ hl))

/-- On determined lines an assembly does not depend on the values of
uninitialised variables. -/
theorem assemble_determined (u1 u2 v1 v2 : Nat) (code : List Str) (st : TextAssembler)
    (hdet : ∀ line ∈ code, Determined line) :
    assemble v1 v2 code st = assemble u1 u2 code st := by
  have hfp : firstPass v1 code st = firstPass u1 code st := by
    unfold firstPass
    exact foldl_firstPassLine_determined v1 u1 code _ hdet
  unfold assemble
  rw [hfp]
  unfold doSecondPass
  exact foldl_parseLine_determined v2 u2 code _ hdet

/-- Pass 1 reads an uninitialised variable only on a `.org` without operand. -/
theorem firstPassLine_same (u v : Nat) (line : Str) (st : TextAssembler)
    (h : ∀ d iss, statement line = some (d, iss) → d = ".org".toList →
      iss.sentry.1 = true) :
    firstPassLine u line st = firstPassLine v line st := by
  cases hs : statement line with
  | none =>
    rw [firstPassLine_of_statement_none u line st hs,
      firstPassLine_of_statement_none v line st hs]
  | some p =>
    obtain ⟨d, iss⟩ := p
    rw [firstPassLine_of_statement u line st d iss hs,
      firstPassLine_of_statement v line st d iss hs]
    unfold advance
    by_cases hd : d = ".org".toList
    · have hsentry : iss.setHex.sentry.1 = true := by
        rw [sentry_setHex]
        exact h d iss hs hd
      rw [if_pos hd, if_pos hd, getU16_of_sentry iss.setHex hsentry u v]
    · rw [if_neg hd, if_neg hd]

/-- A one-byte instruction line is determined. -/
theorem determined_oneByte (mn : Str) (op : Opcode) (h : (mn, op) ∈ oneByte) :
    Determined mn := by
  obtain ⟨hstmt, hop, _⟩ := oneByte_spec (mn, op) h
  have hne : mn ≠ ".org".toList := by
    intro he
    rw [he, org_is_no_mnemonic] at hop
    exact Option.noConfusion hop
  constructor
  · intro u v st
    apply firstPassLine_same
    intro d iss hs hd
    rw [hstmt] at hs
    cases hs
    exact absurd hd hne
  · intro u v st
    rw [parseLine_oneByte u mn op st h, parseLine_oneByte v mn op st h]

/-- A load-immediate line with its operand written in decimal is determined. -/
theorem determined_load_immediate (m : Nat) (mn : Str) (op : Opcode) (hm : m ≤ 65535)
    (hmn : (mn, op) = ("lda".toList, Opcode.LDA_IMM) ∨
      (mn, op) = ("ldb".toList, Opcode.LDB_IMM) ∨
      (mn, op) = ("ldc".toList, Opcode.LDC_IMM)) :
    Determined (mn ++ ' ' :: Nat.toDigits 10 m) := by
  obtain ⟨hch, hne, _⟩ := decimal_spec m
  have hstmt : statement (mn ++ ' ' :: Nat.toDigits 10 m) =
      some (mn, { buf := ' ' :: Nat.toDigits 10 m, eofbit := false, failbit := false,
                  hex := false }) := by
    apply statement_operand mn _ _ hne _
      (fun ch h => ⟨(hch ch h).2.1, (hch ch h).2.2.1, (hch ch h).2.2.2.1, (hch ch h).2.2.2.2.1⟩)
    · rcases hmn with h | h | h <;> cases h <;> decide
    · rcases hmn with h | h | h <;> cases h <;> decide
  have hnorg : mn ≠ ".org".toList := by
    rcases hmn with h | h | h <;> cases h <;> decide
  constructor
  · intro u v st
    apply firstPassLine_same
    intro d iss hs hd
    rw [hstmt] at hs
    cases hs
    exact absurd hd hnorg
  · intro u v st
    rw [parseLine_load_immediate u m mn op st hm hmn,
      parseLine_load_immediate v m mn op st hm hmn]

theorem sumProgram_determined (m n : Nat) (hm : m ≤ 65535) (hn : n ≤ 65535) :
    ∀ line ∈ sumProgram m n, Determined line := by
  intro line hl
  simp only [sumProgram, List.mem_cons, List.mem_singleton, List.not_mem_nil,
    or_false] at hl
  rcases hl with rfl | rfl | rfl | rfl | rfl
  · exact determined_load_immediate m _ _ hm (Or.inl rfl)
  · exact determined_load_immediate n _ _ hn (Or.inr (Or.inl rfl))
  · exact determined_oneByte _ Opcode.ADD (by decide)
  · exact determined_oneByte _ Opcode.PRINT_A (by decide)
  · exact determined_oneByte _ Opcode.HALT (by decide)

theorem step_eq_exec (base : Nat) (op : Opcode) (s : Machine)
    (hfetch : s.memory.cell s.cpu.pc = op.toByte) :
    step base s = exec base op s.fetch.2 := by
  simp [step, Machine.fetch, hfetch, decode_toByte]

theorem fetchAddr_eq (s : Machine) (T : Nat) (hT : T < 65536)
    (hhi : s.memory.cell s.cpu.pc = T / 256)
    (hlo : s.memory.cell ((s.cpu.pc + 1) % 65536) = T % 256) :
    s.fetchAddr =
      (T, { s with memory := (s.memory.touch s.cpu.pc).touch ((s.cpu.pc + 1) % 65536),
                   cpu := { s.cpu with pc := ((s.cpu.pc + 1) % 65536 + 1) % 65536 },
                   fetched := s.fetched + 1 + 1 }) := by
  simp [Machine.fetchAddr, Machine.fetch, hhi, hlo, word_split T hT]

theorem exec_conditional (base : Nat) (op : Opcode) (s : Machine)
    (hop : op ∈ conditionalJumps) :
    exec base op s = s.jumpIf (fun cpu => branches op cpu) := by
  simp only [conditionalJumps, List.mem_cons, List.mem_singleton, List.not_mem_nil,
    or_false] at hop
  rcases hop with rfl | rfl | rfl | rfl | rfl | rfl | rfl <;> rfl

/-- The program counter after a conditional jump with operand `T`. -/
theorem jump_pc (base T : Nat) (op : Opcode) (s : Machine) (hT : T < 65536)
    (hop : op ∈ conditionalJumps)
    (hfetch : s.memory.cell s.cpu.pc = op.toByte)
    (hhi : s.memory.cell ((s.cpu.pc + 1) % 65536) = T / 256)
    (hlo : s.memory.cell ((s.cpu.pc + 2) % 65536) = T % 256) :
    (step base s).cpu.pc =
      if branches op s.cpu = true then T else (s.cpu.pc + 3) % 65536 := by
  have h2 : ((s.cpu.pc + 1) % 65536 + 1) % 65536 = (s.cpu.pc + 2) % 65536 := by omega
  have h3 : ((s.cpu.pc + 2) % 65536 + 1) % 65536 = (s.cpu.pc + 3) % 65536 := by omega
  have hT2 : T % 65536 = T := Nat.mod_eq_of_lt hT
  have hfa := fetchAddr_eq s.fetch.2 T hT (by simpa [Machine.fetch] using hhi)
    (by simpa [Machine.fetch, h2] using hlo)
  have hb : branches op
      { s.cpu with pc := (((s.cpu.pc + 1) % 65536 + 1) % 65536 + 1) % 65536 } =
      branches op s.cpu := by
    simp only [conditionalJumps, List.mem_cons, List.mem_singleton, List.not_mem_nil,
      or_false] at hop
    rcases hop with rfl | rfl | rfl | rfl | rfl | rfl | rfl <;> rfl
  rw [step_eq_exec base op s hfetch, exec_conditional base op _ hop]
  simp only [Machine.jumpIf, hfa]
  simp only [Machine.fetch] at hb ⊢
  rw [hb]
  by_cases hc : branches op s.cpu = true
  · simp [hc, Machine.setPc, hT2]
  · simp [hc, h2, h3]

theorem branches_after_cmp (op : Opcode) (cpu : CPU) (pc : Nat)
    (hop : op ∈ conditionalJumps) :
    branches op { cpu with
      pc := pc,
      zero_flag := if cpu.c = cpu.b then 1 else 0,
      negative_flag := if cpu.b < cpu.c then 1 else 0 } = claimedTaken op cpu.b cpu.c := by
  simp only [conditionalJumps, List.mem_cons, List.mem_singleton, List.not_mem_nil,
    or_false] at hop
  rcases Nat.lt_trichotomy cpu.b cpu.c with h | h | h
  · have h1 : ¬ cpu.c = cpu.b := by omega
    have h2 : ¬ cpu.b = cpu.c := by omega
    have h3 : ¬ cpu.c < cpu.b := by omega
    rcases hop with rfl | rfl | rfl | rfl | rfl | rfl | rfl <;>
      simp [branches, claimedTaken, h, h1, h2, h3]
  · rcases hop with rfl | rfl | rfl | rfl | rfl | rfl | rfl <;>
      simp [branches, claimedTaken, h]
  · have h1 : ¬ cpu.c = cpu.b := by omega
    have h2 : ¬ cpu.b = cpu.c := by omega
    have h4 : ¬ cpu.b < cpu.c := by omega
    rcases hop with rfl | rfl | rfl | rfl | rfl | rfl | rfl <;>
      simp [branches, claimedTaken, h, h1, h2, h4]

theorem step_cmp (base : Nat) (s : Machine)
    (hcmp : s.memory.cell s.cpu.pc = Opcode.CMP.toByte) :
    step base s =
      { s with
        memory := s.memory.touch s.cpu.pc,
        fetched := s.fetched + 1,
        cpu := { s.cpu with
          pc := (s.cpu.pc + 1) % 65536,
          zero_flag := if s.cpu.c = s.cpu.b then 1 else 0,
          negative_flag := if s.cpu.b < s.cpu.c then 1 else 0 } } := by
  rw [step_eq_exec base .CMP s hcmp]
  rfl

/-- C12: CMP sets the zero flag to 1 iff `C = B` and the negative flag to 1
iff `B < C`, leaving `A`, `B`, `C`, the stack and the memory cells unchanged.
A conditional jump executed right after it is taken (program counter := its
operand) iff `B = C` for jz, `B ≠ C` for jnz, `B < C` for jn and `B > C` for
jp; jeq, jgt and jlt are taken iff `B = C`, `B > C`, `B < C` in any state,
whatever the flags; and for none of the seven does the outcome depend on
`A`. -/
theorem cmp_sets_flags_and_jumps_follow (base T : Nat) (op : Opcode) (s : Machine)
    (hT : T < 65536) (hop : op ∈ conditionalJumps)
    (hcmp : s.memory.cell s.cpu.pc = Opcode.CMP.toByte)
    (hjmp : s.memory.cell ((s.cpu.pc + 1) % 65536) = op.toByte)
    (hhi : s.memory.cell ((s.cpu.pc + 2) % 65536) = T / 256)
    (hlo : s.memory.cell ((s.cpu.pc + 3) % 65536) = T % 256) :
    (step base s).cpu.zero_flag = (if s.cpu.c = s.cpu.b then 1 else 0) ∧
    (step base s).cpu.negative_flag = (if s.cpu.b < s.cpu.c then 1 else 0) ∧
    (step base s).cpu.a = s.cpu.a ∧ (step base s).cpu.b = s.cpu.b ∧
    (step base s).cpu.c = s.cpu.c ∧ (step base s).cpu.stack = s.cpu.stack ∧
    (step base s).memory.cell = s.memory.cell ∧
    (step base (step base s)).cpu.pc =
      (if claimedTaken op s.cpu.b s.cpu.c = true then T else (s.cpu.pc + 4) % 65536) ∧
    (∀ s2 : Machine, op = .JEQ ∨ op = .JGT ∨ op = .JLT →
      s2.memory.cell s2.cpu.pc = op.toByte →
      s2.memory.cell ((s2.cpu.pc + 1) % 65536) = T / 256 →
      s2.memory.cell ((s2.cpu.pc + 2) % 65536) = T % 256 →
      (step base s2).cpu.pc =
        if claimedTaken op s2.cpu.b s2.cpu.c = true then T else (s2.cpu.pc + 3) % 65536) ∧
    (∀ (s2 : Machine) (v : Nat),
      s2.memory.cell s2.cpu.pc = op.toByte →
      s2.memory.cell ((s2.cpu.pc + 1) % 65536) = T / 256 →
      s2.memory.cell ((s2.cpu.pc + 2) % 65536) = T % 256 →
      (step base { s2 with cpu := { s2.cpu with a := v } }).cpu.pc =
        (step base s2).cpu.pc) := by
  have e2 : ((s.cpu.pc + 1) % 65536 + 1) % 65536 = (s.cpu.pc + 2) % 65536 := by omega
  have e3 : ((s.cpu.pc + 1) % 65536 + 2) % 65536 = (s.cpu.pc + 3) % 65536 := by omega
  have e4 : ((s.cpu.pc + 1) % 65536 + 3) % 65536 = (s.cpu.pc + 4) % 65536 := by omega
  have hs := step_cmp base s hcmp
  refine ⟨by rw [hs], by rw [hs], by rw [hs], by rw [hs], by rw [hs], by rw [hs],
    by rw [hs]; rfl, ?_, ?_, ?_⟩
  · have hj := jump_pc base T op (step base s) hT hop
      (by rw [hs]; simpa using hjmp) (by rw [hs]; simpa [e2] using hhi)
      (by rw [hs]; simpa [e3] using hlo)
    rw [hj, hs]
    simp only []
    rw [branches_after_cmp op s.cpu _ hop, e4]
  · intro s2 hdir h0 h1 h2
    rw [jump_pc base T op s2 hT hop h0 h1 h2]
    rcases hdir with rfl | rfl | rfl <;> simp [branches, claimedTaken]
  · intro s2 v h0 h1 h2
    rw [jump_pc base T op s2 hT hop h0 h1 h2,
      jump_pc base T op { s2 with cpu := { s2.cpu with a := v } } hT hop h0 h1 h2]
    have hb : branches op { s2.cpu with a := v } = branches op s2.cpu := by
      simp only [conditionalJumps, List.mem_cons, List.mem_singleton, List.not_mem_nil,
        or_false] at hop
      rcases hop with rfl | rfl | rfl | rfl | rfl | rfl | rfl <;> rfl
    simp only [hb]

theorem cmp_sets_flags_and_jumps_follow_witness :
    (step 0x9000 cmpJzMachine).cpu.zero_flag = 1 ∧
    (step 0x9000 cmpJzMachine).cpu.negative_flag = 0 ∧
    (step 0x9000 (step 0x9000 cmpJzMachine)).cpu.pc = 0x9100 :=
  have h := cmp_sets_flags_and_jumps_follow 0x9000 0x9100 .JZ cmpJzMachine
    (by decide) (by decide) (by decide) (by decide) (by decide) (by decide)
  ⟨h.1, h.2.1, h.2.2.2.2.2.2.2.1⟩

/-- C13 (evaluation at the failing input): `CPU::reset` clears `A` and `B`
but not `C`.  After `ldc 5` and `reset` (instruction base `0x9000`) the program
counter is the instruction base, `A`, `B`, both flags are zero and the stack
is empty, but register `C` still holds 5. -/
theorem reset_does_not_clear_c :
    (start 0x9000 2 resetMachine).cpu.pc = 0x9000 ∧
    (start 0x9000 2 resetMachine).cpu.a = 0 ∧
    (start 0x9000 2 resetMachine).cpu.b = 0 ∧
    (start 0x9000 2 resetMachine).cpu.zero_flag = 0 ∧
    (start 0x9000 2 resetMachine).cpu.negative_flag = 0 ∧
    (start 0x9000 2 resetMachine).cpu.stack = [] ∧
    (start 0x9000 1 resetMachine).cpu.c = 5 ∧
    (start 0x9000 2 resetMachine).cpu.c = 5 ∧
    ∀ (base : Nat) (cpu : CPU), (cpu.reset base).c = cpu.c := by
  refine ⟨by decide, by decide, by decide, by decide, by decide, by decide, by decide,
    by decide, fun _ _ => rfl⟩

theorem decode_none (byte : Nat) (h : ∀ op : Opcode, op.toByte ≠ byte) :
    decode byte = none := by
  unfold decode
  rw [List.find?_eq_none]
  intro op _
  simpa using h op

/-- C14 (counterexample): with the program counter at `0xFFFF`, fetching the
byte `0x0B`, which is no opcode, wraps the counter to 0; the engine halts and
reports the address `cpu.pc - 1 = -1`, not `0xFFFF`, and the counter is not one
past the faulting address. -/
theorem unknown_opcode_at_top_reports_minus_one :
    wrapMachine.cpu.pc = 0xFFFF ∧ wrapMachine.memory.cell 0xFFFF = 0x0B ∧
    decode 0x0B = none ∧
    (step 0x9000 wrapMachine).cpu_running = false ∧
    (step 0x9000 wrapMachine).cerr = [Diag.unknownOpcode 0x0B (-1)] ∧
    (step 0x9000 wrapMachine).cpu.pc = 0 := by
  decide

/-- C14 (amended): fetching a byte that is no opcode halts the engine and
reports the byte; registers, flags, stack and memory cells are unchanged.
When the program counter before the fetch lies inside the memory array
(`0 .. 0xFFFE`) the address reported is that program counter and the counter
ends one past it; at program counter `0xFFFF` the counter wraps to 0 and the
address reported is `-1`. -/
theorem unknown_opcode_halts (base byte : Nat) (s : Machine)
    (hbyte : ∀ op : Opcode, op.toByte ≠ byte)
    (hfetch : s.memory.cell s.cpu.pc = byte) :
    (step base s).cpu_running = false ∧
    (step base s).memory.cell = s.memory.cell ∧
    (step base s).cout = s.cout ∧
    (Memory.InBounds s.cpu.pc →
      (step base s).cerr = s.cerr ++ [Diag.unknownOpcode byte (s.cpu.pc : Int)] ∧
      (step base s).cpu = { s.cpu with pc := s.cpu.pc + 1 } ∧
      (step base s).memory.oob = s.memory.oob) ∧
    (s.cpu.pc = 0xFFFF →
      (step base s).cerr = s.cerr ++ [Diag.unknownOpcode byte (-1)] ∧
      (step base s).cpu = { s.cpu with pc := 0 }) := by
  refine ⟨?_, ?_, ?_, ?_, ?_⟩
  · simp [step, Machine.fetch, hfetch, decode_none byte hbyte, Machine.report, Machine.stop]
  · simp [step, Machine.fetch, hfetch, decode_none byte hbyte, Machine.report, Machine.stop]
  · simp [step, Machine.fetch, hfetch, decode_none byte hbyte, Machine.report, Machine.stop]
  · intro hpc
    have hlt : s.cpu.pc < 65535 := hpc
    have hmod : (s.cpu.pc + 1) % 65536 = s.cpu.pc + 1 := Nat.mod_eq_of_lt (by omega)
    have hnot : ¬ (MEMORY_MAX ≤ s.cpu.pc) := by
      have : MEMORY_MAX = 65535 := rfl
      omega
    simp [step, Machine.fetch, hfetch, decode_none byte hbyte, Machine.report, Machine.stop,
      hmod, Memory.touch, hnot]
  · intro hpc
    have hfetch2 : s.memory.cell 65535 = byte := by
      rw [← hpc]
      exact hfetch
    simp [step, Machine.fetch, hfetch2, decode_none byte hbyte, Machine.report, Machine.stop,
      hpc]

theorem unknown_opcode_halts_witness :
    (step 0x9000 unknownOpcodeMachine).cpu_running = false ∧
    (step 0x9000 unknownOpcodeMachine).cerr = [Diag.unknownOpcode 0x0B 0x9000] ∧
    (step 0x9000 unknownOpcodeMachine).cpu.pc = 0x9001 :=
  have h := unknown_opcode_halts 0x9000 0x0B unknownOpcodeMachine
    (by intro op; cases op <;> decide) (by decide)
  ⟨h.1, (h.2.2.2.1 (by decide)).1, congrArg CPU.pc (h.2.2.2.1 (by decide)).2.1⟩

/-- C15 (amended): only the print-register opcode halts on an operand byte
that is no register letter it accepts (reporting it).  INC, MOV_REG_IMM,
MOV_REG_MEM, MOV_REG_MEM2, MOV_MEM_REG, LOAD and STORE with such a byte change
no register, flag, stack entry or memory cell, advance the program counter
past the instruction and keep the running flag; MOV_REG_REG keeps the running
flag and advances by three whatever its operand bytes are. -/
theorem unknown_register_only_stops_print (base r : Nat) (op : Opcode) (s : Machine)
    (hfetch : s.memory.cell s.cpu.pc = op.toByte)
    (hreg : s.memory.cell ((s.cpu.pc + registerOperandAt op) % 65536) = r)
    (hbad : acceptsRegister op r = false) :
    (op = .PRINT_R →
      (step base s).cpu_running = false ∧
      (step base s).cerr = s.cerr ++ [Diag.unknownRegister r]) ∧
    (op ∈ silentOnRegister →
      (step base s).cpu_running = s.cpu_running ∧
      (step base s).cpu =
        { s.cpu with pc := (s.cpu.pc + (1 + operandFetches op)) % 65536 } ∧
      (step base s).memory.cell = s.memory.cell ∧
      (step base s).cerr = s.cerr) ∧
    (op = .MOV_REG_REG →
      (step base s).cpu_running = s.cpu_running ∧
      (step base s).cpu.pc = (s.cpu.pc + 3) % 65536) := by
  have e2 : ((s.cpu.pc + 1) % 65536 + 1) % 65536 = (s.cpu.pc + 2) % 65536 := by omega
  have e3 : ((s.cpu.pc + 2) % 65536 + 1) % 65536 = (s.cpu.pc + 3) % 65536 := by omega
  have e4 : ((s.cpu.pc + 3) % 65536 + 1) % 65536 = (s.cpu.pc + 4) % 65536 := by omega
  have e5 : ((s.cpu.pc + 4) % 65536 + 1) % 65536 = (s.cpu.pc + 5) % 65536 := by omega
  have e6 : ((s.cpu.pc + 5) % 65536 + 1) % 65536 = (s.cpu.pc + 6) % 65536 := by omega
  rw [step_eq_exec base op s hfetch]
  refine ⟨?_, ?_, ?_⟩
  · rintro rfl
    simp only [acceptsRegister, Bool.or_eq_false_iff, beq_eq_false_iff_ne] at hbad
    simp only [registerOperandAt] at hreg
    simp [exec, Machine.fetch, hreg, hbad.1.1, hbad.1.2, hbad.2, Machine.report,
      Machine.stop]
  · intro hop
    simp only [silentOnRegister, List.mem_cons, List.mem_singleton, List.not_mem_nil,
      or_false] at hop
    rcases hop with rfl | rfl | rfl | rfl | rfl | rfl | rfl
    · simp only [acceptsRegister, Bool.or_eq_false_iff, beq_eq_false_iff_ne] at hbad
      simp only [registerOperandAt] at hreg
      simp [exec, Machine.fetch, hreg, hbad.1.1, hbad.1.2, hbad.2, operandFetches, e2]
    all_goals
      simp only [acceptsRegister, Bool.or_eq_false_iff, beq_eq_false_iff_ne] at hbad
      simp only [registerOperandAt] at hreg
      simp [exec, Machine.fetch, Machine.fetchAddr, hreg, hbad.1, hbad.2, operandFetches,
        e2, e3, e4, e5, e6]
  · rintro rfl
    constructor
    · simp only [exec, Machine.fetch, Machine.setA, Machine.setB]
      split <;> rfl
    · simp only [exec, Machine.fetch, Machine.setA, Machine.setB]
      split <;> simp [e2, e3]

/-- C15 (counterexample): the assembled line `inc z` carries the operand byte
`z`, which INC does not accept; executing it leaves the engine running, with
all registers unchanged. -/
theorem inc_with_unknown_register_keeps_running :
    (List.range 2).map (fun i => incZMachine.memory.cell (0x9000 + i)) = [0x44, 122] ∧
    acceptsRegister .INC 122 = false ∧
    incZMachine.cpu_running = true ∧
    (step 0x9000 incZMachine).cpu_running = true ∧
    (step 0x9000 incZMachine).cpu.pc = 0x9002 ∧
    (step 0x9000 incZMachine).cerr = [] := by
  decide

theorem unknown_register_only_stops_print_witness :
    (step 0x9000 incZMachine).cpu_running = true ∧
    (step 0x9000 incZMachine).cpu.pc = 0x9002 :=
  have h := (unknown_register_only_stops_print 0x9000 122 .INC incZMachine
    (by decide) (by decide) (by decide)).2.1 (by decide)
  ⟨h.1, congrArg CPU.pc h.2.1⟩

/-- C16: SYSCALL keeps the engine running iff `A` is 0, 1, 2 or 3; `A = 0xFF`
stops it without a diagnostic (normal exit) and every other value stops it
with the diagnostic `Unknown syscall`.  In every case the registers, flags,
stack and memory cells are unchanged and the program counter advances by one:
no operand byte is consumed. -/
theorem syscall_dispatch (base : Nat) (s : Machine)
    (hfetch : s.memory.cell s.cpu.pc = Opcode.SYSCALL.toByte)
    (hrun : s.cpu_running = true) :
    ((step base s).cpu_running = true ↔
      (s.cpu.a = 0 ∨ s.cpu.a = 1 ∨ s.cpu.a = 2 ∨ s.cpu.a = 3)) ∧
    (s.cpu.a = 0xFF → (step base s).cpu_running = false ∧ (step base s).cerr = s.cerr) ∧
    (¬ (s.cpu.a = 0 ∨ s.cpu.a = 1 ∨ s.cpu.a = 2 ∨ s.cpu.a = 3 ∨ s.cpu.a = 0xFF) →
      (step base s).cpu_running = false ∧
      (step base s).cerr = s.cerr ++ [Diag.unknownSyscall s.cpu.a]) ∧
    (step base s).cpu = { s.cpu with pc := (s.cpu.pc + 1) % 65536 } ∧
    (step base s).memory.cell = s.memory.cell ∧
    (step base s).fetched = s.fetched + 1 := by
  rw [step_eq_exec base .SYSCALL s hfetch]
  by_cases h0 : s.cpu.a = 0
  · simp [exec, Machine.fetch, h0, hrun]
  by_cases h1 : s.cpu.a = 1
  · simp [exec, Machine.fetch, h1, hrun, Machine.wait_cycles]
  by_cases h2 : s.cpu.a = 2
  · simp [exec, Machine.fetch, h2, hrun, Machine.printNum, Machine.printEndl]
  by_cases h3 : s.cpu.a = 3
  · simp [exec, Machine.fetch, h3, hrun, Machine.printChar]
  by_cases hF : s.cpu.a = 255
  · simp [exec, Machine.fetch, hF, Machine.stop]
  · simp [exec, Machine.fetch, h0, h1, h2, h3, hF, Machine.stop, Machine.report]

theorem syscall_dispatch_witness :
    (step 0x9000 syscallMachine).cpu_running = true ∧
    (step 0x9000 syscallMachine).cpu.pc = 0x9001 ∧
    (step 0x9000 syscallMachine).fetched = 1 :=
  have h := syscall_dispatch 0x9000 syscallMachine (by decide) (by decide)
  ⟨h.1.mpr (Or.inr (Or.inr (Or.inl rfl))), congrArg CPU.pc h.2.2.2.1, h.2.2.2.2.2⟩

/-- C17: INT consumes exactly one operand byte, the interrupt number.  The
engine stays running iff the number is 0x10, 0x11, 0x12 or 0x13; number 0x13
performs `CPU::reset`; numbers 0x10 to 0x12 change no register, flag, stack
entry or memory cell (the program counter goes past the two bytes); every
other number stops the engine with the diagnostic `Unhandled INT`. -/
theorem int_dispatch (base n : Nat) (s : Machine)
    (hfetch : s.memory.cell s.cpu.pc = Opcode.INT.toByte)
    (hnum : s.memory.cell ((s.cpu.pc + 1) % 65536) = n)
    (hrun : s.cpu_running = true) :
    (step base s).fetched = s.fetched + 2 ∧
    ((step base s).cpu_running = true ↔ (n = 0x10 ∨ n = 0x11 ∨ n = 0x12 ∨ n = 0x13)) ∧
    (n = 0x13 → (step base s).cpu = s.cpu.reset base) ∧
    (n = 0x10 ∨ n = 0x11 ∨ n = 0x12 →
      (step base s).cpu = { s.cpu with pc := (s.cpu.pc + 2) % 65536 }) ∧
    (step base s).memory.cell = s.memory.cell ∧
    (¬ (n = 0x10 ∨ n = 0x11 ∨ n = 0x12 ∨ n = 0x13) →
      (step base s).cpu_running = false ∧
      (step base s).cerr = s.cerr ++ [Diag.unhandledInt n]) := by
  have e2 : ((s.cpu.pc + 1) % 65536 + 1) % 65536 = (s.cpu.pc + 2) % 65536 := by omega
  rw [step_eq_exec base .INT s hfetch]
  by_cases h0 : n = 16
  · subst h0
    simp [exec, Machine.fetch, hnum, hrun, Machine.printChar, e2]
  by_cases h1 : n = 17
  · subst h1
    simp [exec, Machine.fetch, hnum, hrun, Machine.printNum, Machine.printEndl, e2]
  by_cases h2 : n = 18
  · subst h2
    simp [exec, Machine.fetch, hnum, hrun, Machine.wait_cycles, e2]
  by_cases h3 : n = 19
  · subst h3
    simp [exec, Machine.fetch, hnum, hrun, CPU.reset]
  · simp [exec, Machine.fetch, hnum, h0, h1, h2, h3, Machine.stop, Machine.report]

theorem int_dispatch_witness :
    (step 0x9000 intMachine).fetched = 2 ∧
    (step 0x9000 intMachine).cpu_running = true ∧
    (step 0x9000 intMachine).cpu.pc = 0x9002 :=
  have h := int_dispatch 0x9000 0x10 intMachine (by decide) (by decide) (by decide)
  ⟨h.1, h.2.1.mpr (Or.inl rfl), congrArg CPU.pc (h.2.2.2.1 (Or.inl rfl))⟩

/-- C11 (counterexample): the array `memory` has `MEMORY_MAX = 0xffff = 65535`
bytes, so index `0xFFFF` is outside it: the fetch at program counter `0xFFFF`
and the write of the assembler at cursor `0xFFFF` (`.org 0xffff` / `halt`) both
use an index outside the array. -/
theorem address_ffff_is_outside_memory :
    MEMORY_MAX = 65535 ∧ ¬ Memory.InBounds 0xFFFF ∧
    topMachine.memory.oob = false ∧
    (step 0x9000 topMachine).memory.oob = true ∧
    (doSecondPass 0 [".org 0xffff".toList]
      (firstPass 0 topProgram (TextAssembler.init Memory.zero))).currentAddress = 0xFFFF ∧
    (assemble 0 0 topProgram (TextAssembler.init Memory.zero)).memory.cell 0xFFFF = 0xFF ∧
    (assemble 0 0 topProgram (TextAssembler.init Memory.zero)).memory.oob = true := by
  decide

/-- C11 (amended): the array `memory` holds `MEMORY_MAX = 65535` bytes, so the
valid indices are exactly `0x0000` through `0xFFFE`; a fetch by the engine at a
program counter in that range and a write by the assembler at a cursor in that
range are in bounds. -/
theorem memory_holds_memory_max_bytes (i v : Nat) (s : Machine) (st : TextAssembler)
    (hpc : s.cpu.pc ≤ 0xFFFE) (hcur : st.currentAddress ≤ 0xFFFE) :
    MEMORY_MAX = 65535 ∧ (Memory.InBounds i ↔ i ≤ 0xFFFE) ∧
    Memory.InBounds s.cpu.pc ∧ s.fetch.2.memory.oob = s.memory.oob ∧
    Memory.InBounds st.currentAddress ∧ (emit st v).memory.oob = st.memory.oob := by
  have hM : MEMORY_MAX = 65535 := rfl
  have h1 : ¬ (MEMORY_MAX ≤ s.cpu.pc) := by omega
  have h2 : ¬ (MEMORY_MAX ≤ st.currentAddress) := by omega
  refine ⟨hM, ?_, ?_, ?_, ?_, ?_⟩
  · unfold Memory.InBounds; omega
  · unfold Memory.InBounds; omega
  · simp [Machine.fetch, Memory.touch, h1]
  · unfold Memory.InBounds; omega
  · simp [emit, Memory.write, h2]

theorem memory_holds_memory_max_bytes_witness :
    Memory.InBounds 0xFFFE ∧
    (Machine.boot 0xFFFE Memory.zero []).fetch.2.memory.oob = false ∧
    (emit { TextAssembler.init Memory.zero with currentAddress := 0xFFFE } 0xFF).memory.oob =
      false :=
  have h := memory_holds_memory_max_bytes 0xFFFE 0xFF (Machine.boot 0xFFFE Memory.zero [])
    { TextAssembler.init Memory.zero with currentAddress := 0xFFFE } (by decide) (by decide)
  ⟨h.2.1.mpr (Nat.le_refl _), h.2.2.2.1, h.2.2.2.2.2⟩

/-- C18 (evaluation at the failing input): the operand of `int` is extracted
into a `uint8_t`, which reads one character.  Assembling `int 0x10` emits the
INT opcode `0xF1` followed by `0x30`, the character `0`, not by `0x10`;
executing the two bytes runs the unhandled interrupt `0x30` and stops the
engine. -/
theorem int_operand_is_first_character :
    (List.range 3).map (fun i => intLineMachine.memory.cell (0x9000 + i)) =
      [0xF1, 0x30, 0] ∧
    (assemble 0 0 ["int 0x10".toList] (TextAssembler.init Memory.zero)).currentAddress =
      0x9002 ∧
    (step 0x9000 intLineMachine).cpu_running = false ∧
    (step 0x9000 intLineMachine).cerr = [Diag.unhandledInt 0x30] := by
  decide

/-! ## Label resolution in pass 2 (C19 and C20) -/

/-- The cells a resolved jump/call line leaves behind: the opcode byte at the
cursor, then the high and the low byte of the address. -/
theorem parseLine_jump_cells (u : Nat) (rawLine mn label : Str) (iss : IStream)
    (op : Opcode) (addr : Nat) (st : TextAssembler)
    (hstmt : statement rawLine = some (mn, iss)) (hmn : mn ∈ jumpMnemonics)
    (hop : opcodeMap.lookup mn = some op)
    (htok : iss.getString.1 = label) (hlen : 2 ≤ label.length)
    (h0x : label.take 2 ≠ "0x".toList)
    (hsym : st.symbolTable.lookup label = some addr)
    (haddr : addr < 65536) :
    (parseLine u rawLine st).memory.cell st.currentAddress = op.toByte ∧
    (parseLine u rawLine st).memory.cell ((st.currentAddress + 1) % 65536) = addr / 256 ∧
    (parseLine u rawLine st).memory.cell ((st.currentAddress + 2) % 65536) = addr % 256 := by
  have hne : mn ≠ ".org".toList := by
    intro h
    rw [h, org_is_no_mnemonic] at hop
    exact Option.noConfusion hop
  rw [parseLine_of_statement u rawLine st mn iss hstmt, if_neg hne, hop]
  simp only
  rw [parseOperands_jump u mn iss _ hmn,
    parseJumpOperand_label u iss (emit st op.toByte) label addr htok hlen h0x hsym]
  have hb := toByte_lt op
  have hhi := high_byte addr (by omega)
  have hlo := low_byte addr
  have e1 : (st.currentAddress + 1) % 65536 ≠ st.currentAddress := by omega
  have e2 : (st.currentAddress + 2) % 65536 ≠ st.currentAddress := by omega
  have e3 : (st.currentAddress + 2) % 65536 ≠ (st.currentAddress + 1) % 65536 := by
    omega
  have e4 : ((st.currentAddress + 1) % 65536 + 1) % 65536 =
      (st.currentAddress + 2) % 65536 := by omega
  refine ⟨?_, ?_, ?_⟩
  · simp [emit16, emit, e4, Ne.symm e1, Ne.symm e2, Nat.mod_eq_of_lt hb]
  · simp [emit16, emit, e4, e3, Ne.symm e3, hhi]
  · simp [emit16, emit, e4, hlo]

/-- The address pass 1 records for a label that is defined on `lline` and not
again further down: the cursor of pass 1 at the start of that line. -/
theorem firstPass_label_address (u : Nat) (front : List Str) (lline : Str)
    (post : List Str) (label : Str) (st : TextAssembler)
    (hdef : isLabelDefinition (preprocessLine lline) = some label)
    (honce : ∀ other ∈ post, isLabelDefinition (preprocessLine other) ≠ some label) :
    (firstPass u (front ++ lline :: post) st).symbolTable.lookup label =
      some (firstPass u front st).currentAddress ∧
    (firstPass u front st).currentAddress < 65536 := by
  constructor
  · rw [firstPass_append, foldl_firstPassLine_lookup_other u label post _ honce,
      firstPassLine_lookup_self u lline label _ hdef]
  · exact (firstPass_wide u front st).1

/-- C19: forward references resolve.  For a label of at least two characters
that does not begin with `0x`, defined on a line `lline` and not again further
down, a jump/call line `jline` standing before the definition whose operand
token is the label gets as operand bytes the high byte, then the low byte of
the address pass 1 recorded for the label (the pass-1 cursor at the start of
`lline`); a jump/call line standing after the definition gets the same two
bytes. -/
theorem forward_reference_resolves (u1 u2 : Nat) (pre mid post : List Str)
    (jline lline mn label : Str) (iss : IStream) (op : Opcode) (st : TextAssembler)
    (hstmt : statement jline = some (mn, iss)) (hmn : mn ∈ jumpMnemonics)
    (hop : opcodeMap.lookup mn = some op)
    (htok : iss.getString.1 = label) (hlen : 2 ≤ label.length)
    (h0x : label.take 2 ≠ "0x".toList)
    (hdef : isLabelDefinition (preprocessLine lline) = some label)
    (honce : ∀ other ∈ post, isLabelDefinition (preprocessLine other) ≠ some label) :
    (firstPass u1 (pre ++ jline :: mid ++ lline :: post) st).symbolTable.lookup label =
      some (firstPass u1 (pre ++ jline :: mid) st).currentAddress ∧
    (parseLine u2 jline
      (doSecondPass u2 pre
        (firstPass u1 (pre ++ jline :: mid ++ lline :: post) st))).memory.cell
      (((doSecondPass u2 pre
        (firstPass u1 (pre ++ jline :: mid ++ lline :: post) st)).currentAddress + 1)
        % 65536) = (firstPass u1 (pre ++ jline :: mid) st).currentAddress / 256 ∧
    (parseLine u2 jline
      (doSecondPass u2 pre
        (firstPass u1 (pre ++ jline :: mid ++ lline :: post) st))).memory.cell
      (((doSecondPass u2 pre
        (firstPass u1 (pre ++ jline :: mid ++ lline :: post) st)).currentAddress + 2)
        % 65536) = (firstPass u1 (pre ++ jline :: mid) st).currentAddress % 256 ∧
    ∀ (post1 post2 : List Str) (j2 mn2 : Str) (iss2 : IStream) (op2 : Opcode),
      post = post1 ++ j2 :: post2 →
      statement j2 = some (mn2, iss2) → mn2 ∈ jumpMnemonics →
      opcodeMap.lookup mn2 = some op2 → iss2.getString.1 = label →
      (parseLine u2 j2
        (doSecondPass u2 (pre ++ jline :: mid ++ lline :: post1)
          (firstPass u1 (pre ++ jline :: mid ++ lline :: post) st))).memory.cell
        (((doSecondPass u2 (pre ++ jline :: mid ++ lline :: post1)
          (firstPass u1 (pre ++ jline :: mid ++ lline :: post) st)).currentAddress + 1)
          % 65536) = (firstPass u1 (pre ++ jline :: mid) st).currentAddress / 256 ∧
      (parseLine u2 j2
        (doSecondPass u2 (pre ++ jline :: mid ++ lline :: post1)
          (firstPass u1 (pre ++ jline :: mid ++ lline :: post) st))).memory.cell
        (((doSecondPass u2 (pre ++ jline :: mid ++ lline :: post1)
          (firstPass u1 (pre ++ jline :: mid ++ lline :: post) st)).currentAddress + 2)
          % 65536) = (firstPass u1 (pre ++ jline :: mid) st).currentAddress % 256 := by
  have hcode : pre ++ jline :: mid ++ lline :: post = (pre ++ jline :: mid) ++ lline :: post := by
    simp
  obtain ⟨hsym, hA⟩ := firstPass_label_address u1 (pre ++ jline :: mid) lline post label st
    hdef honce
  rw [← hcode] at hsym
  refine ⟨hsym, ?_, ?_, ?_⟩
  · obtain ⟨htab, _⟩ := doSecondPass_frame u2 pre
      (firstPass u1 (pre ++ jline :: mid ++ lline :: post) st)
    exact (parseLine_jump_cells u2 jline mn label iss op _ _ hstmt hmn hop htok hlen h0x
      (by rw [htab]; exact hsym) hA).2.1
  · obtain ⟨htab, _⟩ := doSecondPass_frame u2 pre
      (firstPass u1 (pre ++ jline :: mid ++ lline :: post) st)
    exact (parseLine_jump_cells u2 jline mn label iss op _ _ hstmt hmn hop htok hlen h0x
      (by rw [htab]; exact hsym) hA).2.2
  · intro post1 post2 j2 mn2 iss2 op2 _ hstmt2 hmn2 hop2 htok2
    obtain ⟨htab, _⟩ := doSecondPass_frame u2 (pre ++ jline :: mid ++ lline :: post1)
      (firstPass u1 (pre ++ jline :: mid ++ lline :: post) st)
    have h := parseLine_jump_cells u2 j2 mn2 label iss2 op2 _ _ hstmt2 hmn2 hop2 htok2 hlen
      h0x (by rw [htab]; exact hsym) hA
    exact ⟨h.2.1, h.2.2⟩

theorem forward_reference_resolves_witness :
    (firstPass 0 forwardProgram (TextAssembler.init Memory.zero)).symbolTable.lookup
      "done".toList = some 0x9004 ∧
    (parseLine 0 "jmp done".toList
      (doSecondPass 0 []
        (firstPass 0 forwardProgram (TextAssembler.init Memory.zero)))).memory.cell 0x9001 =
      0x90 ∧
    (parseLine 0 "jmp done".toList
      (doSecondPass 0 []
        (firstPass 0 forwardProgram (TextAssembler.init Memory.zero)))).memory.cell 0x9002 =
      0x04 :=
  have h := forward_reference_resolves 0 0 [] ["nop".toList] [] "jmp done".toList
    "done: halt".toList "jmp".toList "done".toList
    { buf := " done".toList, eofbit := false, failbit := false, hex := false } .JMP
    (TextAssembler.init Memory.zero) (by decide) (by decide) (by decide) (by decide)
    (by decide) (by decide) (by decide) (by intro other h; cases h)
  ⟨h.1, h.2.1, h.2.2.1⟩

theorem sameOutput_emit (a b : TextAssembler) (v : Nat) (h : SameOutput a b) :
    SameOutput (emit a v) (emit b v) := by
  obtain ⟨hm, hc, hs⟩ := h
  refine ⟨?_, ?_, hs⟩
  · simp only [emit, hm, hc]
  · simp only [emit, hc]

theorem sameOutput_emit16 (a b : TextAssembler) (v : Nat) (h : SameOutput a b) :
    SameOutput (emit16 a v) (emit16 b v) :=
  sameOutput_emit _ _ _ (sameOutput_emit _ _ _ h)

theorem parseJumpOperand_getD (u : Nat) (iss : IStream) (st : TextAssembler) :
    parseJumpOperand u iss st =
      emit16 st
        (if (iss.getString.1).length ≥ 2 ∧ (iss.getString.1).take 2 ≠ "0x".toList then
          (st.symbolTable.lookup iss.getString.1).getD 0
        else if (iss.getString.1).take 2 = "0x".toList then
          ((IStream.ofStr ((iss.getString.1).drop 2)).setHex.getU16 u).1
        else ((IStream.ofStr iss.getString.1).getU16 u).1) := by
  unfold parseJumpOperand
  by_cases h : (iss.getString.1).length ≥ 2 ∧ (iss.getString.1).take 2 ≠ "0x".toList
  · simp only [if_pos h]
    cases st.symbolTable.lookup iss.getString.1 <;> rfl
  · simp only [if_neg h]

theorem sameOutput_parseJumpOperand (u : Nat) (iss : IStream) (a b : TextAssembler)
    (h : SameOutput a b) :
    SameOutput (parseJumpOperand u iss a) (parseJumpOperand u iss b) := by
  rw [parseJumpOperand_getD, parseJumpOperand_getD, h.2.2 iss.getString.1]
  exact sameOutput_emit16 _ _ _ h

theorem sameOutput_parseOperands (u : Nat) (opcode : Str) (iss : IStream)
    (a b : TextAssembler) (h : SameOutput a b) :
    SameOutput (parseOperands u opcode iss a) (parseOperands u opcode iss b) := by
  unfold parseOperands
  by_cases h0 : opcode ∈ noOperand
  · simp only [if_pos h0]
    exact h
  simp only [if_neg h0]
  by_cases h1 : opcode = "lda".toList ∨ opcode = "ldb".toList ∨ opcode = "ldc".toList
  · simp only [if_pos h1]
    exact sameOutput_emit16 _ _ _ h
  simp only [if_neg h1]
  by_cases h2 : opcode = "inc".toList
  · simp only [if_pos h2]
    exact sameOutput_emit _ _ _ h
  simp only [if_neg h2]
  by_cases h3 : opcode ∈ jumpMnemonics
  · simp only [if_pos h3]
    exact sameOutput_parseJumpOperand u iss a b h
  simp only [if_neg h3]
  by_cases h4 : opcode = "load_a".toList ∨ opcode = "store_a".toList ∨
      opcode = "load8_a".toList ∨ opcode = "store8_a".toList ∨
      opcode = "load".toList ∨ opcode = "store".toList
  · simp only [if_pos h4]
    by_cases hr : opcode = "load".toList ∨ opcode = "store".toList
    · simp only [if_pos hr]
      exact sameOutput_emit _ _ _ (sameOutput_emit16 _ _ _ h)
    · simp only [if_neg hr]
      exact sameOutput_emit16 _ _ _ h
  simp only [if_neg h4]
  by_cases h5 : opcode = "mov_mem_imm".toList
  · simp only [if_pos h5]
    exact sameOutput_emit16 _ _ _ (sameOutput_emit16 _ _ _ h)
  simp only [if_neg h5]
  by_cases h6 : opcode = "mov8_mem_imm".toList
  · simp only [if_pos h6]
    exact sameOutput_emit _ _ _ (sameOutput_emit16 _ _ _ h)
  simp only [if_neg h6]
  by_cases h7 : opcode = "mov_reg_imm".toList
  · simp only [if_pos h7]
    exact sameOutput_emit16 _ _ _ (sameOutput_emit16 _ _ _ (sameOutput_emit _ _ _ h))
  simp only [if_neg h7]
  by_cases h8 : opcode = "mov_reg_reg".toList
  · simp only [if_pos h8]
    exact sameOutput_emit _ _ _ (sameOutput_emit _ _ _ h)
  simp only [if_neg h8]
  by_cases h9 : opcode = "mov_reg_mem".toList ∨ opcode = "mov_reg_mem2".toList
  · simp only [if_pos h9]
    exact sameOutput_emit16 _ _ _ (sameOutput_emit _ _ _ h)
  simp only [if_neg h9]
  by_cases h10 : opcode = "mov_mem_reg".toList
  · simp only [if_pos h10]
    exact sameOutput_emit _ _ _ (sameOutput_emit16 _ _ _ h)
  simp only [if_neg h10]
  by_cases h11 : opcode = "wait".toList
  · simp only [if_pos h11]
    exact sameOutput_emit _ _ _ h
  simp only [if_neg h11]
  by_cases h12 : opcode = "syscall".toList
  · simp only [if_pos h12]
    exact h
  simp only [if_neg h12]
  by_cases h13 : opcode = "int".toList
  · simp only [if_pos h13]
    exact sameOutput_emit _ _ _ h
  simp only [if_neg h13]
  exact h

theorem sameOutput_parseLine (u : Nat) (rawLine : Str) (a b : TextAssembler)
    (h : SameOutput a b) :
    SameOutput (parseLine u rawLine a) (parseLine u rawLine b) := by
  cases hs : statement rawLine with
  | none =>
    rw [parseLine_of_statement_none u rawLine a hs, parseLine_of_statement_none u rawLine b hs]
    exact h
  | some p =>
    obtain ⟨d, iss⟩ := p
    rw [parseLine_of_statement u rawLine a d iss hs, parseLine_of_statement u rawLine b d iss hs]
    by_cases hd : d = ".org".toList
    · rw [if_pos hd, if_pos hd]
      exact ⟨h.1, rfl, h.2.2⟩
    · rw [if_neg hd, if_neg hd]
      cases opcodeMap.lookup d with
      | none => exact h
      | some op => exact sameOutput_parseOperands u d iss _ _ (sameOutput_emit _ _ _ h)

theorem sameOutput_foldl (u : Nat) : ∀ (code : List Str) (a b : TextAssembler),
    SameOutput a b →
    SameOutput (code.foldl (fun acc rawLine => parseLine u rawLine acc) a)
      (code.foldl (fun acc rawLine => parseLine u rawLine acc) b)
  | [], _, _, h => h
  | l :: rest, a, b, h => by
    simp only [List.foldl_cons]
    exact sameOutput_foldl u rest _ _ (sameOutput_parseLine u l a b h)

theorem sameOutput_setSymbol (st : TextAssembler) (label : Str)
    (hnone : st.symbolTable.lookup label = none) :
    SameOutput st { st with symbolTable := setSymbol st.symbolTable label 0 } := by
  refine ⟨rfl, rfl, ?_⟩
  intro tok
  by_cases h : tok = label
  · subst h
    simp only [lookup_setSymbol_self, hnone, Option.getD]
  · simp only [lookup_setSymbol_other st.symbolTable tok label 0 (Ne.symm h)]

/-- C21: a line whose first token (after comment and label removal) is neither
`.org` nor a key of the opcode table contributes no bytes in pass 2:
`parseLine` returns the assembler state it was given, so memory and the
address cursor are both unchanged. -/
theorem unknown_token_contributes_nothing (u : Nat) (line d : Str) (iss : IStream)
    (st : TextAssembler)
    (hstmt : statement line = some (d, iss))
    (horg : d ≠ ".org".toList) (hunknown : opcodeMap.lookup d = none) :
    parseLine u line st = st ∧
    (parseLine u line st).memory = st.memory ∧
    (parseLine u line st).currentAddress = st.currentAddress := by
  have h : parseLine u line st = st := by
    rw [parseLine_of_statement u line st d iss hstmt, if_neg horg, hunknown]
  rw [h]
  exact ⟨rfl, rfl, rfl⟩

theorem unknown_token_contributes_nothing_witness :
    parseLine 0 "lp: frob 1, 2 ; no such mnemonic".toList (TextAssembler.init Memory.zero) =
      TextAssembler.init Memory.zero :=
  (unknown_token_contributes_nothing 0 "lp: frob 1, 2 ; no such mnemonic".toList
    "frob".toList { buf := " 1, 2".toList, eofbit := false, failbit := false, hex := false }
    (TextAssembler.init Memory.zero) (by decide) (by decide) (by decide)).1

/-- C22 (counterexample): `frob` is no directive, no key of the opcode table
and has no declared size; pass 1 leaves the cursor at `0x9000` on that line, so
the label `lp` of the next line is recorded at `0x9000`, the cursor before the
unknown line, and not one address higher. -/
theorem unknown_mnemonic_does_not_advance_pass1 :
    (statement "frob".toList).map (fun p => p.1) = some "frob".toList ∧
    opcodeMap.lookup "frob".toList = none ∧
    instructionSize.lookup "frob".toList = none ∧
    (firstPass 0 [] (TextAssembler.init Memory.zero)).currentAddress = 0x9000 ∧
    (firstPass 0 ["frob".toList] (TextAssembler.init Memory.zero)).currentAddress = 0x9000 ∧
    (firstPass 0 unknownMnemonicProgram (TextAssembler.init Memory.zero)).symbolTable.lookup
      "lp".toList = some 0x9000 := by
  decide

/-- C22 (amended): in pass 1 a line whose first token is not `.org`, not `.db`
and not a key of the opcode table leaves the address cursor unchanged, so a
label defined on the next line is recorded at the cursor before the unknown
line.  The default advance by 1 is reserved for a key of the opcode table
without an entry in the size table, and every key of the opcode table has
one. -/
theorem unknown_mnemonic_keeps_pass1_cursor (u : Nat) (line d : Str) (iss : IStream)
    (st : TextAssembler)
    (hstmt : statement line = some (d, iss))
    (horg : d ≠ ".org".toList) (hdb : d ≠ ".db".toList)
    (hunknown : opcodeMap.lookup d = none) :
    (firstPassLine u line st).currentAddress = st.currentAddress ∧
    (∀ next label : Str, isLabelDefinition (preprocessLine next) = some label →
      (firstPassLine u next (firstPassLine u line st)).symbolTable.lookup label =
        some st.currentAddress) ∧
    (∀ e ∈ opcodeMap, (instructionSize.lookup e.1).isSome = true) := by
  have hcur : (firstPassLine u line st).currentAddress = st.currentAddress := by
    rw [firstPassLine_of_statement u line st d iss hstmt]
    unfold advance
    rw [if_neg horg, if_neg hdb, hunknown]
    simp only [Option.isSome_none, Bool.false_eq_true, if_false]
    exact (recordLabel_frame _ st).2.1
  refine ⟨hcur, ?_, by decide⟩
  intro next label hdef
  rw [firstPassLine_lookup_self u next label _ hdef, hcur]

theorem unknown_mnemonic_keeps_pass1_cursor_witness :
    (firstPassLine 0 "frob".toList (TextAssembler.init Memory.zero)).currentAddress =
      0x9000 ∧
    (firstPassLine 0 "lp: nop".toList
      (firstPassLine 0 "frob".toList (TextAssembler.init Memory.zero))).symbolTable.lookup
      "lp".toList = some 0x9000 :=
  have h := unknown_mnemonic_keeps_pass1_cursor 0 "frob".toList "frob".toList
    { buf := [], eofbit := true, failbit := false, hex := false }
    (TextAssembler.init Memory.zero) (by decide) (by decide) (by decide) (by decide)
  ⟨h.1, h.2.1 "lp: nop".toList "lp".toList (by decide)⟩

/-- C23 (evaluation at the failing input): the `.db` loop of pass 1 extracts
into a `uint8_t` and a `char`, which read one character each, so it counts
pairs of characters and not values.  `.db 10,20` lists two values but advances
the cursor by 3; `.db 0x10` and `.db 255` list one value but advance it by 2;
only for one-digit values such as `.db 1,2` does the advance equal the number
of values.  A label behind `.db 10,20` is recorded at `0x9003`. -/
theorem db_counts_characters_not_values :
    cursorAfter ".db 10,20".toList = 0x9003 ∧
    cursorAfter ".db 0x10".toList = 0x9002 ∧
    cursorAfter ".db 255".toList = 0x9002 ∧
    cursorAfter ".db 1,2".toList = 0x9002 ∧
    (firstPass 0 [".db 10,20".toList, "lp: nop".toList]
      (TextAssembler.init Memory.zero)).symbolTable.lookup "lp".toList = some 0x9003 := by
  decide

theorem hexDigit_clean (ch : Char) (h : (digitOf true ch).isSome = true) :
    isspace ch = false ∧ ch ≠ ';' ∧ ch ≠ '/' ∧ ch ≠ ':' := by
  refine ⟨?_, ?_, ?_, ?_⟩
  · simp only [digitOf, hexDigit, if_true] at h
    simp only [isspace, Bool.or_eq_false_iff, beq_eq_false_iff_ne, ne_eq,
      Bool.and_eq_false_imp, decide_eq_true_eq, decide_eq_false_iff_not, not_le]
    split_ifs at h with h1 h2 h3
    · omega
    · omega
    · omega
    · simp at h
  · rintro rfl
    exact absurd h (by decide)
  · rintro rfl
    exact absurd h (by decide)
  · rintro rfl
    exact absurd h (by decide)

theorem takeWhile_until (p : Char → Bool) (c : Char) (r : Str) (hc : p c = false) :
    ∀ l : Str, (∀ x ∈ l, p x = true) →
      (l ++ c :: r).takeWhile p = l ∧ (l ++ c :: r).dropWhile p = c :: r
  | [], _ => by simp [List.takeWhile, List.dropWhile, hc]
  | x :: xs, h => by
    have hx : p x = true := h x (by simp)
    have ih := takeWhile_until p c r hc xs (fun y hy => h y (List.mem_cons_of_mem _ hy))
    simp only [List.cons_append]
    rw [List.takeWhile_cons_of_pos hx, List.dropWhile_cons_of_pos hx, ih.1, ih.2]
    exact ⟨rfl, rfl⟩

/-- A line that starts and ends with a character that is no white space and
holds no `;` and no `/` is left alone by preprocessing. -/
theorem preprocessLine_clean (first last : Char) (mid : Str)
    (hfirst : isspace first = false) (hlast : isspace last = false)
    (hsemi : ';' ∉ first :: (mid ++ [last])) (hslash : '/' ∉ first :: (mid ++ [last])) :
    preprocessLine (first :: (mid ++ [last])) = first :: (mid ++ [last]) := by
  unfold preprocessLine
  rw [cutSemicolon_eq_self _ hsemi, cutSlashes_eq_self _ hslash,
    trimLeft_eq_self _ _ hfirst]
  have := trimRight_eq_self (first :: mid) last hlast
  simpa using this

/-- The statement read from `<label>: <body>`: the label is found and the
statement is that of the body. -/
theorem statement_labelled (label : Str) (first last : Char) (mid : Str)
    (hne : label ≠ [])
    (hlc : ∀ ch ∈ label, isspace ch = false ∧ ch ≠ ';' ∧ ch ≠ '/' ∧ ch ≠ ':')
    (hfirst : isspace first = false) (hlast : isspace last = false)
    (hsemi : ';' ∉ first :: (mid ++ [last])) (hslash : '/' ∉ first :: (mid ++ [last])) :
    isLabelDefinition (preprocessLine (label ++ ':' :: ' ' :: first :: (mid ++ [last]))) =
      some label ∧
    statement (label ++ ':' :: ' ' :: first :: (mid ++ [last])) =
      some (IStream.ofStr (first :: (mid ++ [last]))).getString := by
  obtain ⟨c, cs, rfl⟩ := List.exists_cons_of_ne_nil hne
  have hc := hlc c (by simp)
  have hline : (c :: cs) ++ ':' :: ' ' :: first :: (mid ++ [last]) =
      c :: ((cs ++ ':' :: ' ' :: first :: mid) ++ [last]) := by simp
  have hsemi2 : ';' ∉ c :: ((cs ++ ':' :: ' ' :: first :: mid) ++ [last]) := by
    rw [← hline]
    intro hmem
    rcases List.mem_append.mp hmem with h | h
    · exact (hlc _ h).2.1 rfl
    · rcases List.mem_cons.mp h with h | h
      · exact absurd h (by decide)
      · rcases List.mem_cons.mp h with h | h
        · exact absurd h (by decide)
        · exact hsemi h
  have hslash2 : '/' ∉ c :: ((cs ++ ':' :: ' ' :: first :: mid) ++ [last]) := by
    rw [← hline]
    intro hmem
    rcases List.mem_append.mp hmem with h | h
    · exact (hlc _ h).2.2.1 rfl
    · rcases List.mem_cons.mp h with h | h
      · exact absurd h (by decide)
      · rcases List.mem_cons.mp h with h | h
        · exact absurd h (by decide)
        · exact hslash h
  have hpre : preprocessLine ((c :: cs) ++ ':' :: ' ' :: first :: (mid ++ [last])) =
      (c :: cs) ++ ':' :: ' ' :: first :: (mid ++ [last]) := by
    rw [hline]
    exact preprocessLine_clean c last _ hc.1 hlast hsemi2 hslash2
  have hsplit := takeWhile_until (fun ch => ch != ':') ':' (' ' :: first :: (mid ++ [last]))
    (by decide) (c :: cs) (fun x hx => by simpa using (hlc x hx).2.2.2)
  have hcontains :
      ((c :: cs) ++ ':' :: ' ' :: first :: (mid ++ [last])).contains ':' = true := by
    simp
  have hlab : isLabelDefinition ((c :: cs) ++ ':' :: ' ' :: first :: (mid ++ [last])) =
      some (c :: cs) := by
    unfold isLabelDefinition
    rw [hcontains, if_pos rfl, hsplit.1, trimLeft_eq_self c cs hc.1]
  have hafter : afterColon ((c :: cs) ++ ':' :: ' ' :: first :: (mid ++ [last])) =
      ' ' :: first :: (mid ++ [last]) := by
    unfold afterColon
    rw [hsplit.2]
    rfl
  have hbody : preprocessLine (' ' :: first :: (mid ++ [last])) = first :: (mid ++ [last]) := by
    have hs : ';' ∉ ' ' :: first :: (mid ++ [last]) := by
      intro h
      rcases List.mem_cons.mp h with h | h
      · exact absurd h (by decide)
      · exact hsemi h
    have hl : '/' ∉ ' ' :: first :: (mid ++ [last]) := by
      intro h
      rcases List.mem_cons.mp h with h | h
      · exact absurd h (by decide)
      · exact hslash h
    unfold preprocessLine
    rw [cutSemicolon_eq_self _ hs, cutSlashes_eq_self _ hl]
    have h1 : trimLeft (' ' :: first :: (mid ++ [last])) = first :: (mid ++ [last]) := by
      unfold trimLeft
      rw [List.dropWhile_cons_of_pos (by decide), List.dropWhile_cons_of_neg (by simp [hfirst])]
    rw [h1]
    have := trimRight_eq_self (first :: mid) last hlast
    simpa using this
  refine ⟨by rw [hpre, hlab], ?_⟩
  unfold statement
  simp only [hpre, hlab, hafter, hbody]
  simp

/-- The effect of pass 1 on a line that defines `label` and goes on with the
directive `.org`: the label is recorded at the old cursor, then the cursor is
set to the operand. -/
theorem firstPassLine_label_org (u : Nat) (line label : Str) (iss : IStream)
    (st : TextAssembler)
    (hlab : isLabelDefinition (preprocessLine line) = some label)
    (hstmt : statement line = some (".org".toList, iss)) :
    firstPassLine u line st =
      { st with symbolTable := setSymbol st.symbolTable label st.currentAddress,
                currentAddress := (iss.setHex.getU16 u).1 } := by
  rw [firstPassLine_of_statement u line st _ iss hstmt]
  unfold advance recordLabel
  rw [if_pos rfl, hlab]

/-- C24: in pass 1, for a line `<label>: .org 0x<digits>` (the label a
non-empty run of characters other than white space, `;`, `/` and `:`; the
digits hexadecimal with a value of at most 0xFFFF), the symbol table maps the
label to the cursor before the line, not to the operand, and the cursor after
the line is the operand: nothing else moves it and memory is not written. -/
theorem label_on_org_line (u : Nat) (label ds : Str) (st : TextAssembler)
    (hne : label ≠ [])
    (hlc : ∀ ch ∈ label, isspace ch = false ∧ ch ≠ ';' ∧ ch ≠ '/' ∧ ch ≠ ':')
    (hds : ds ≠ []) (hd : ∀ ch ∈ ds, (digitOf true ch).isSome = true)
    (hv : valueOf true ds 0 ≤ 65535) :
    (firstPassLine u (labelledOrgLine label ds) st).symbolTable.lookup label =
      some st.currentAddress ∧
    (firstPassLine u (labelledOrgLine label ds) st).currentAddress = valueOf true ds 0 ∧
    (firstPassLine u (labelledOrgLine label ds) st).memory = st.memory := by
  have hlast := List.dropLast_append_getLast hds
  have hz := hexDigit_clean _ (hd _ (List.getLast_mem hds))
  have hbody : ".org".toList ++ ' ' :: '0' :: 'x' :: ds =
      '.' :: (("org 0x".toList ++ ds.dropLast) ++ [ds.getLast hds]) := by
    conv_lhs => rw [← hlast]
    rfl
  have hmem : ∀ ch ∈ '.' :: (("org 0x".toList ++ ds.dropLast) ++ [ds.getLast hds]),
      ch ≠ ';' ∧ ch ≠ '/' := by
    intro ch hch
    rw [← hbody] at hch
    rcases List.mem_append.mp hch with h | h
    · have hdir : ∀ x ∈ ".org".toList, x ≠ ';' ∧ x ≠ '/' := by decide
      exact hdir ch h
    · rcases List.mem_cons.mp h with h | h
      · subst h; decide
      · rcases List.mem_cons.mp h with h | h
        · subst h; decide
        · rcases List.mem_cons.mp h with h | h
          · subst h; decide
          · exact ⟨(hexDigit_clean ch (hd ch h)).2.1, (hexDigit_clean ch (hd ch h)).2.2.1⟩
  obtain ⟨hlab, hstmt⟩ := statement_labelled label '.' (ds.getLast hds)
    ("org 0x".toList ++ ds.dropLast) hne hlc (by decide) hz.1
    (fun h => (hmem _ h).1 rfl) (fun h => (hmem _ h).2 rfl)
  rw [← hbody] at hstmt hlab
  rw [getString_token ".org".toList ('0' :: 'x' :: ds) (by decide) (by decide)] at hstmt
  have hfp := firstPassLine_label_org u (labelledOrgLine label ds) label _ st hlab hstmt
  have hget := getU16_hex ds u hds hd hv
  rw [hfp]
  exact ⟨lookup_setSymbol_self _ _ _, hget, rfl⟩

theorem label_on_org_line_witness :
    (firstPassLine 0 "lp: .org 0x9100".toList
      (TextAssembler.init Memory.zero)).symbolTable.lookup "lp".toList = some 0x9000 ∧
    (firstPassLine 0 "lp: .org 0x9100".toList
      (TextAssembler.init Memory.zero)).currentAddress = 0x9100 :=
  have h := label_on_org_line 0 "lp".toList "9100".toList (TextAssembler.init Memory.zero)
    (by decide) (by decide) (by decide) (by decide) (by decide)
  ⟨h.1, h.2.1⟩

/-- C25 (evaluation at the failing input): `isLabelDefinition` erases white
space only in front of the text before the colon.  For `name : nop` the key
recorded by pass 1 is `name` followed by a blank, the key `name` is absent, and
the later `jmp name` is emitted with the placeholder `00 00` instead of the
address `0x9000` of the label. -/
theorem label_keeps_trailing_white_space :
    isLabelDefinition (preprocessLine "name : nop".toList) = some "name ".toList ∧
    (firstPass 0 spacedLabelProgram (TextAssembler.init Memory.zero)).symbolTable =
      [("name ".toList, 0x9000)] ∧
    (firstPass 0 spacedLabelProgram (TextAssembler.init Memory.zero)).symbolTable.lookup
      "name".toList = none ∧
    (List.range 4).map (fun i =>
      (assemble 0 0 spacedLabelProgram (TextAssembler.init Memory.zero)).memory.cell
        (0x9000 + i)) = [0x00, 0x10, 0x00, 0x00] := by
  decide

/-! ## Comment removal and trimming (C26) -/

theorem cutSemicolon_cons (ch : Char) (rest : Str) (h : ch ≠ ';') :
    cutSemicolon (ch :: rest) = ch :: cutSemicolon rest := by
  unfold cutSemicolon
  exact List.takeWhile_cons_of_pos (by simpa using h)

theorem cutSemicolon_head (rest : Str) :
    (cutSemicolon rest).head? = some '/' ↔ rest.head? = some '/' := by
  cases rest with
  | nil => simp [cutSemicolon]
  | cons c r =>
    by_cases hc : c = ';'
    · subst hc
      simp [cutSemicolon, List.takeWhile]
    · rw [cutSemicolon_cons c r hc]
      simp

/-- The two cuts of `preprocessLine`, first at `;` and then at `//`, cut at the
earliest of the two markers. -/
theorem cuts_eq_beforeComment : ∀ l : Str, cutSlashes (cutSemicolon l) = beforeComment l
  | [] => rfl
  | ch :: rest => by
    by_cases hs : ch = ';'
    · subst hs
      simp [cutSemicolon, List.takeWhile, cutSlashes, beforeComment, startsComment]
    · rw [cutSemicolon_cons ch rest hs]
      have ih := cuts_eq_beforeComment rest
      by_cases hc : ch = '/' ∧ rest.head? = some '/'
      · have hc2 : ch = '/' ∧ (cutSemicolon rest).head? = some '/' :=
          ⟨hc.1, (cutSemicolon_head rest).mpr hc.2⟩
        simp [cutSlashes, beforeComment, startsComment, hc.1, hc.2, hc2.2]
      · have hc2 : ¬ (ch = '/' ∧ (cutSemicolon rest).head? = some '/') :=
          fun h => hc ⟨h.1, (cutSemicolon_head rest).mp h.2⟩
        have hst : startsComment (ch :: rest) = false := by
          simp only [startsComment, Bool.or_eq_false_iff, beq_eq_false_iff_ne, ne_eq,
            Bool.and_eq_false_imp, beq_iff_eq]
          exact ⟨hs, fun h1 h2 => hc ⟨h1, h2⟩⟩
        simp only [cutSlashes, if_neg hc2, beforeComment, hst, Bool.false_eq_true, if_false,
          ih]

theorem beforeComment_no_semicolon : ∀ l : Str, ';' ∉ beforeComment l
  | [] => by simp [beforeComment]
  | ch :: rest => by
    by_cases hst : startsComment (ch :: rest) = true
    · simp [beforeComment, hst]
    · have hne : ch ≠ ';' := by
        intro h
        apply hst
        simp [startsComment, h]
      simp only [beforeComment, hst, Bool.false_eq_true, if_false, List.mem_cons, not_or]
      exact ⟨fun h => hne h.symm, beforeComment_no_semicolon rest⟩

theorem beforeComment_head (l : Str) (c : Char) (t : Str)
    (h : beforeComment l = c :: t) : l.head? = some c := by
  cases l with
  | nil => simp [beforeComment] at h
  | cons ch rest =>
    by_cases hst : startsComment (ch :: rest) = true
    · simp [beforeComment, hst] at h
    · simp only [beforeComment, hst, Bool.false_eq_true, if_false, List.cons.injEq] at h
      simp [h.1]

theorem beforeComment_no_slashes : ∀ (l pre post : Str),
    beforeComment l ≠ pre ++ '/' :: '/' :: post
  | [], pre, post => by simp [beforeComment]
  | ch :: rest, pre, post => by
    by_cases hst : startsComment (ch :: rest) = true
    · simp [beforeComment, hst]
    · simp only [beforeComment, hst, Bool.false_eq_true, if_false]
      intro h
      cases pre with
      | nil =>
        simp only [List.nil_append, List.cons.injEq] at h
        have hhead := beforeComment_head rest '/' post h.2
        apply hst
        simp [startsComment, h.1, hhead]
      | cons p pre2 =>
        simp only [List.cons_append, List.cons.injEq] at h
        exact beforeComment_no_slashes rest pre2 post h.2

theorem beforeComment_cut : ∀ l : Str,
    ∃ rest : Str, l = beforeComment l ++ rest ∧ (rest = [] ∨ startsComment rest = true)
  | [] => ⟨[], rfl, Or.inl rfl⟩
  | ch :: rest => by
    by_cases hst : startsComment (ch :: rest) = true
    · exact ⟨ch :: rest, by simp [beforeComment, hst], Or.inr hst⟩
    · obtain ⟨r, hr, hr2⟩ := beforeComment_cut rest
      refine ⟨r, ?_, hr2⟩
      simp only [beforeComment, hst, Bool.false_eq_true, if_false, List.cons_append]
      rw [← hr]

theorem beforeComment_earliest : ∀ (l pre post : Str), l = pre ++ post →
    pre.length < (beforeComment l).length → startsComment post = false
  | [], pre, post, _, hlen => by simp [beforeComment] at hlen
  | ch :: rest, pre, post, hl, hlen => by
    by_cases hst : startsComment (ch :: rest) = true
    · simp [beforeComment, hst] at hlen
    · simp only [beforeComment, hst, Bool.false_eq_true, if_false, List.length_cons] at hlen
      cases pre with
      | nil =>
        simp only [List.nil_append] at hl
        rw [← hl]
        simpa using hst
      | cons p pre2 =>
        simp only [List.cons_append, List.cons.injEq] at hl
        exact beforeComment_earliest rest pre2 post hl.2 (by simpa using hlen)

theorem dropWhile_head (p : Char → Bool) : ∀ (l : Str) (c : Char) (t : Str),
    l.dropWhile p = c :: t → p c = false
  | [], _, _, h => by simp at h
  | x :: xs, c, t, h => by
    by_cases hx : p x = true
    · rw [List.dropWhile_cons_of_pos hx] at h
      exact dropWhile_head p xs c t h
    · rw [List.dropWhile_cons_of_neg hx] at h
      simp only [List.cons.injEq] at h
      rw [← h.1]
      simpa using hx

theorem trimLeft_split (z : Str) :
    ∃ ws : Str, (∀ ch ∈ ws, isspace ch = true) ∧ z = ws ++ trimLeft z :=
  ⟨z.takeWhile isspace, fun _ h => List.mem_takeWhile_imp h,
    (List.takeWhile_append_dropWhile isspace z).symm⟩

theorem trimRight_split (w : Str) :
    ∃ ws : Str, (∀ ch ∈ ws, isspace ch = true) ∧ w = trimRight w ++ ws := by
  refine ⟨(w.reverse.takeWhile isspace).reverse, ?_, ?_⟩
  · intro ch h
    exact List.mem_takeWhile_imp (List.mem_reverse.mp h)
  · have h := List.takeWhile_append_dropWhile isspace w.reverse
    have h2 := congrArg List.reverse h
    simp only [List.reverse_append, List.reverse_reverse] at h2
    exact h2.symm

/-- C26: `preprocessLine` returns the prefix of the line that ends just before
the earliest comment marker (`;` or `//`; the whole line when it holds none),
with leading and trailing white space removed.  The prefix is
`beforeComment line`: the line continues behind it with a marker or not at
all, and no marker starts inside it.  The result is that prefix without a
run of white space at either end; it holds no `;` and no `//` and neither
starts nor ends with a white-space character. -/
theorem preprocessLine_spec (line : Str) :
    (∃ rest : Str, line = beforeComment line ++ rest ∧
      (rest = [] ∨ startsComment rest = true)) ∧
    (∀ pre post : Str, line = pre ++ post →
      pre.length < (beforeComment line).length → startsComment post = false) ∧
    (∃ ws1 ws2 : Str, (∀ ch ∈ ws1, isspace ch = true) ∧ (∀ ch ∈ ws2, isspace ch = true) ∧
      beforeComment line = ws1 ++ preprocessLine line ++ ws2) ∧
    ';' ∉ preprocessLine line ∧
    (∀ pre post : Str, preprocessLine line ≠ pre ++ '/' :: '/' :: post) ∧
    (∀ (ch : Char) (rest : Str), preprocessLine line = ch :: rest → isspace ch = false) ∧
    (∀ (init : Str) (ch : Char), preprocessLine line = init ++ [ch] →
      isspace ch = false) := by
  have hpre : preprocessLine line = trimRight (trimLeft (beforeComment line)) := by
    unfold preprocessLine
    rw [cuts_eq_beforeComment]
  obtain ⟨ws1, hws1, h1⟩ := trimLeft_split (beforeComment line)
  obtain ⟨ws2, hws2, h2⟩ := trimRight_split (trimLeft (beforeComment line))
  have hsplit : beforeComment line = ws1 ++ preprocessLine line ++ ws2 := by
    rw [hpre, List.append_assoc, ← h2, ← h1]
  refine ⟨beforeComment_cut line, beforeComment_earliest line,
    ⟨ws1, ws2, hws1, hws2, hsplit⟩, ?_, ?_, ?_, ?_⟩
  · intro hmem
    apply beforeComment_no_semicolon line
    rw [hsplit]
    simp [hmem]
  · intro pre post h
    apply beforeComment_no_slashes line (ws1 ++ pre) (post ++ ws2)
    rw [hsplit, h]
    simp
  · intro ch rest h
    rw [← hpre, h] at h2
    exact dropWhile_head isspace (beforeComment line) ch (rest ++ ws2) h2
  · intro init ch h
    have h3 : (trimLeft (beforeComment line)).reverse.dropWhile isspace =
        ch :: init.reverse := by
      have h4 : trimRight (trimLeft (beforeComment line)) = init ++ [ch] := by
        rw [← hpre]; exact h
      unfold trimRight at h4
      have h5 := congrArg List.reverse h4
      simpa using h5
    exact dropWhile_head isspace _ ch _ h3

theorem preprocessLine_spec_witness :
    beforeComment "  lda 5 // five ; 5".toList = "  lda 5 ".toList ∧
    preprocessLine "  lda 5 // five ; 5".toList = "lda 5".toList ∧
    ';' ∉ preprocessLine "  lda 5 // five ; 5".toList :=
  ⟨by decide, by decide, (preprocessLine_spec "  lda 5 // five ; 5".toList).2.2.2.1⟩

/-! ## Encodings of single instructions (C27 to C30) -/

/-- The two emissions of a 16-bit value write its quotient and its remainder
by 256. -/
theorem emit16_bytes (st : TextAssembler) (v : Nat) (h : v < 65536) :
    emit16 st v = [v / 256, v % 256].foldl emit st := by
  have h0 : (0xFF : Nat) = 2 ^ 8 - 1 := by norm_num
  have h1 : (v >>> 8) &&& 0xFF = v / 256 := by
    rw [h0, Nat.and_pow_two_sub_one_eq_mod, Nat.shiftRight_eq_div_pow]
    omega
  have h2 : v &&& 0xFF = v % 256 := by
    rw [h0, Nat.and_pow_two_sub_one_eq_mod]
  unfold emit16
  rw [h1, h2]
  rfl

theorem getChar_lt (is : IStream) (old : Nat) : (is.getChar old).1 < 256 := by
  unfold IStream.getChar
  simp only []
  by_cases h : is.sentry.1 = true
  · rw [if_pos h]
    cases is.sentry.2.buf with
    | nil => exact Nat.mod_lt _ (by decide)
    | cons ch rest => exact Nat.mod_lt _ (by decide)
  · rw [if_neg h]
    exact Nat.mod_lt _ (by decide)

/-- C27 (counterexample): the well-formed line `mov_reg_imm a 0x1000 5` is
assembled into six bytes, `32 61 10 00 00 05`; the cursor ends at `0x9006` and
the cell at `0x9006` is not written. -/
theorem mov_reg_imm_line_is_six_bytes :
    (List.range 7).map (fun i => movRegImmLine.memory.cell (0x9000 + i)) =
      [0x32, 0x61, 0x10, 0x00, 0x00, 0x05, 0x00] ∧
    movRegImmLine.currentAddress = 0x9006 ∧
    (assemble 0 0 ["mov_reg_imm a 0x1000 5".toList]
      (TextAssembler.init { cell := fun _ => 0xEE, oob := false })).memory.cell 0x9006 =
      0xEE := by
  decide

/-- C27 (amended): for every `mov_reg_imm` line pass 2 emits exactly 6 bytes:
the opcode byte, the register byte (the character extracted first), the high
and low byte of the address (extracted next, in base 16) and the high and low
byte of the immediate (extracted last); the cursor ends 6 further (as a
`uint16_t`). -/
theorem mov_reg_imm_emits_six_bytes (u : Nat) (line : Str) (iss : IStream)
    (st : TextAssembler)
    (hstmt : statement line = some ("mov_reg_imm".toList, iss)) :
    (iss.getChar u).1 < 256 ∧
    ((iss.getChar u).2.setHex.getU16 u).1 < 65536 ∧
    (((iss.getChar u).2.setHex.getU16 u).2.getU16 u).1 < 65536 ∧
    parseLine u line st =
      [Opcode.MOV_REG_IMM.toByte, (iss.getChar u).1,
       ((iss.getChar u).2.setHex.getU16 u).1 / 256,
       ((iss.getChar u).2.setHex.getU16 u).1 % 256,
       (((iss.getChar u).2.setHex.getU16 u).2.getU16 u).1 / 256,
       (((iss.getChar u).2.setHex.getU16 u).2.getU16 u).1 % 256].foldl emit st ∧
    (parseLine u line st).currentAddress = (st.currentAddress + 6) % 65536 := by
  have ha := getU16_lt (iss.getChar u).2.setHex u
  have hv := getU16_lt ((iss.getChar u).2.setHex.getU16 u).2 u
  have hline : parseLine u line st =
      [Opcode.MOV_REG_IMM.toByte, (iss.getChar u).1,
       ((iss.getChar u).2.setHex.getU16 u).1 / 256,
       ((iss.getChar u).2.setHex.getU16 u).1 % 256,
       (((iss.getChar u).2.setHex.getU16 u).2.getU16 u).1 / 256,
       (((iss.getChar u).2.setHex.getU16 u).2.getU16 u).1 % 256].foldl emit st := by
    rw [parseLine_of_statement u line st _ iss hstmt, if_neg (by decide)]
    show parseOperands u "mov_reg_imm".toList iss (emit st Opcode.MOV_REG_IMM.toByte) = _
    show emit16 (emit16 (emit (emit st Opcode.MOV_REG_IMM.toByte) (iss.getChar u).1) _) _ = _
    rw [emit16_bytes _ _ hv, emit16_bytes _ _ ha]
    rfl
  refine ⟨getChar_lt iss u, ha, hv, hline, ?_⟩
  rw [hline, foldl_emit_cursor _ _ (by simp)]
  rfl

theorem mov_reg_imm_emits_six_bytes_witness :
    parseLine 0 "mov_reg_imm a 0x1000 5".toList (TextAssembler.init Memory.zero) =
      [0x32, 0x61, 0x10, 0x00, 0x00, 0x05].foldl emit (TextAssembler.init Memory.zero) ∧
    (parseLine 0 "mov_reg_imm a 0x1000 5".toList
      (TextAssembler.init Memory.zero)).currentAddress = 0x9006 :=
  have h := mov_reg_imm_emits_six_bytes 0 "mov_reg_imm a 0x1000 5".toList
    { buf := " a 0x1000 5".toList, eofbit := false, failbit := false, hex := false }
    (TextAssembler.init Memory.zero) (by decide)
  ⟨h.2.2.2.1, h.2.2.2.2⟩

/-- The address fetch of a three-byte instruction with operand `T`, and the
step that performs it. -/
theorem step_load_immediate (base T : Nat) (op : Opcode) (s : Machine) (hT : T < 65536)
    (hfetch : s.memory.cell s.cpu.pc = op.toByte)
    (hhi : s.memory.cell ((s.cpu.pc + 1) % 65536) = T / 256)
    (hlo : s.memory.cell ((s.cpu.pc + 2) % 65536) = T % 256) :
    s.fetch.2.fetchAddr =
      (T, { s with
            memory := ((s.memory.touch s.cpu.pc).touch ((s.cpu.pc + 1) % 65536)).touch
              ((s.cpu.pc + 2) % 65536),
            cpu := { s.cpu with pc := (s.cpu.pc + 3) % 65536 },
            fetched := s.fetched + 3 }) ∧
    step base s = exec base op s.fetch.2 := by
  have h2 : ((s.cpu.pc + 1) % 65536 + 1) % 65536 = (s.cpu.pc + 2) % 65536 := by omega
  have h3 : ((s.cpu.pc + 2) % 65536 + 1) % 65536 = (s.cpu.pc + 3) % 65536 := by omega
  have hfa := fetchAddr_eq s.fetch.2 T hT (by simpa [Machine.fetch] using hhi)
    (by simpa [Machine.fetch, h2] using hlo)
  refine ⟨?_, step_eq_exec base op s hfetch⟩
  rw [hfa]
  simp [Machine.fetch, h2, h3]

/-- C28: for every `n` in 0..65535 written in decimal and each of lda, ldb,
ldc, the line `<mnemonic> n` is assembled into the opcode byte, the most
significant byte of `n` and the least significant byte of `n`; and executing
these three bytes sets the register of the mnemonic (A, B or C) to `n`, moves
the program counter past them and changes no other register, no flag, no
stack entry and no memory cell. -/
theorem load_immediate_sets_register (base u n : Nat) (mn : Str) (op : Opcode)
    (st : TextAssembler) (hn : n ≤ 65535)
    (hmn : (mn, op) = ("lda".toList, Opcode.LDA_IMM) ∨
      (mn, op) = ("ldb".toList, Opcode.LDB_IMM) ∨
      (mn, op) = ("ldc".toList, Opcode.LDC_IMM)) :
    parseLine u (mn ++ ' ' :: Nat.toDigits 10 n) st =
      [op.toByte, n / 256, n % 256].foldl emit st ∧
    ∀ s : Machine,
      s.memory.cell s.cpu.pc = op.toByte →
      s.memory.cell ((s.cpu.pc + 1) % 65536) = n / 256 →
      s.memory.cell ((s.cpu.pc + 2) % 65536) = n % 256 →
      (op = .LDA_IMM →
        (step base s).cpu = { s.cpu with pc := (s.cpu.pc + 3) % 65536, a := n }) ∧
      (op = .LDB_IMM →
        (step base s).cpu = { s.cpu with pc := (s.cpu.pc + 3) % 65536, b := n }) ∧
      (op = .LDC_IMM →
        (step base s).cpu = { s.cpu with pc := (s.cpu.pc + 3) % 65536, c := n }) ∧
      (step base s).memory.cell = s.memory.cell ∧
      (step base s).cpu_running = s.cpu_running ∧
      (step base s).cout = s.cout ∧ (step base s).cerr = s.cerr := by
  have hlt : n < 65536 := by omega
  have hmod : n % 65536 = n := Nat.mod_eq_of_lt hlt
  constructor
  · rw [parseLine_load_immediate u n mn op st hn hmn, emit16_bytes _ _ hlt]
    rfl
  · intro s hfetch hhi hlo
    obtain ⟨hfa, hstep⟩ := step_load_immediate base n op s hlt hfetch hhi hlo
    rw [hstep]
    rcases hmn with h | h | h <;> cases h
    · simp only [exec, hfa, Machine.setA, hmod]
      simp
    · simp only [exec, hfa, Machine.setB, hmod]
      simp
    · simp only [exec, hfa, Machine.setC, hmod]
      simp

theorem load_immediate_sets_register_witness :
    parseLine 0 "ldb 4660".toList (TextAssembler.init Memory.zero) =
      [0x02, 0x12, 0x34].foldl emit (TextAssembler.init Memory.zero) ∧
    (step 0x9000 ldbMachine).cpu =
      { ldbMachine.cpu with pc := 0x9003, b := 4660 } :=
  have h := load_immediate_sets_register 0x9000 0 4660 "ldb".toList .LDB_IMM
    (TextAssembler.init Memory.zero) (by decide) (Or.inr (Or.inl rfl))
  ⟨h.1, (h.2 ldbMachine (by decide) (by decide) (by decide)).2.1 rfl⟩

/-- C29: for each register letter `r` among a, b, c (character code 0x61, 0x62,
0x63), the line `inc r` is assembled into the INC opcode `0x44` followed by
the character code of `r`; and executing these two bytes adds 1 modulo 2^16 to
exactly that register, moves the program counter past them and changes no
other register, no flag, no stack entry and no memory cell. -/
theorem inc_increments_register (base u : Nat) (r : Char) (code : Nat)
    (st : TextAssembler)
    (hr : (r, code) = ('a', 0x61) ∨ (r, code) = ('b', 0x62) ∨ (r, code) = ('c', 0x63)) :
    r.toNat = code ∧ Opcode.INC.toByte = 0x44 ∧
    parseLine u ("inc".toList ++ [' ', r]) st = [0x44, code].foldl emit st ∧
    ∀ s : Machine,
      s.memory.cell s.cpu.pc = 0x44 →
      s.memory.cell ((s.cpu.pc + 1) % 65536) = code →
      (r = 'a' →
        (step base s).cpu =
          { s.cpu with pc := (s.cpu.pc + 2) % 65536, a := (s.cpu.a + 1) % 65536 }) ∧
      (r = 'b' →
        (step base s).cpu =
          { s.cpu with pc := (s.cpu.pc + 2) % 65536, b := (s.cpu.b + 1) % 65536 }) ∧
      (r = 'c' →
        (step base s).cpu =
          { s.cpu with pc := (s.cpu.pc + 2) % 65536, c := (s.cpu.c + 1) % 65536 }) ∧
      (step base s).memory.cell = s.memory.cell ∧
      (step base s).cpu_running = s.cpu_running ∧
      (step base s).cout = s.cout ∧ (step base s).cerr = s.cerr := by
  have h2 : ∀ s : Machine, ((s.cpu.pc + 1) % 65536 + 1) % 65536 = (s.cpu.pc + 2) % 65536 := by
    intro s; omega
  rcases hr with h | h | h <;> cases h
  · refine ⟨rfl, rfl, rfl, ?_⟩
    intro s hfetch hreg
    rw [step_eq_exec base .INC s hfetch]
    simp [exec, Machine.fetch, hreg, Machine.setA, h2]
  · refine ⟨rfl, rfl, rfl, ?_⟩
    intro s hfetch hreg
    rw [step_eq_exec base .INC s hfetch]
    simp [exec, Machine.fetch, hreg, Machine.setB, h2]
  · refine ⟨rfl, rfl, rfl, ?_⟩
    intro s hfetch hreg
    rw [step_eq_exec base .INC s hfetch]
    simp [exec, Machine.fetch, hreg, Machine.setC, h2]

theorem inc_increments_register_witness :
    parseLine 0 "inc c".toList (TextAssembler.init Memory.zero) =
      [0x44, 0x63].foldl emit (TextAssembler.init Memory.zero) ∧
    (step 0x9000 incCMachine).cpu = { incCMachine.cpu with pc := 0x9002, c := 0 } :=
  have h := inc_increments_register 0x9000 0 'c' 0x63 (TextAssembler.init Memory.zero)
    (Or.inr (Or.inr rfl))
  ⟨h.2.2.1, (h.2.2.2 incCMachine (by decide) (by decide)).2.2.1 rfl⟩

/-- C30 (evaluation at the failing input): the assembler emits `load` as
opcode, address high, address low, register letter, but the engine reads the
register letter first and the address from the two bytes behind it.  For
`load 0x1000 a` with 7 at `0x1000` the engine takes `0x10` for the register,
which it does not know, and leaves `A` at 0.  For `load 0x6100 b` it takes
`0x61` (the letter `a`) for the register and `0x0062` for the address: `A`
becomes the byte at `0x0062` and `B` stays 0. -/
theorem load_reads_register_before_address :
    (List.range 4).map (fun i => loadMachine.memory.cell (0x9000 + i)) =
      [0x38, 0x10, 0x00, 0x61] ∧
    loadMachine.memory.cell 0x1000 = 7 ∧
    (step 0x9000 loadMachine).cpu.a = 0 ∧
    (step 0x9000 loadMachine).cpu.pc = 0x9004 ∧
    (List.range 4).map (fun i => loadOtherMachine.memory.cell (0x9000 + i)) =
      [0x38, 0x61, 0x00, 0x62] ∧
    loadOtherMachine.memory.cell 0x6100 = 7 ∧
    loadOtherMachine.memory.cell 0x0062 = 9 ∧
    (step 0x9000 loadOtherMachine).cpu.a = 9 ∧
    (step 0x9000 loadOtherMachine).cpu.b = 0 := by
  decide

/-! ## Register moves and the stack (C31 to C33) -/

/-- C31 (evaluation at the failing input): the engine reads both operand bytes
of MOV_REG_REG but looks at the first only: `if (reg == 'a') cpu.a = cpu.b;
else cpu.b = cpu.a;`.  With `A = 1`, `B = 2`, `C = 3`: `mov_reg_reg a a` sets
`A` to 2 instead of leaving it; `mov_reg_reg c a` leaves `C` at 3 and sets `B`
to 1; `mov_reg_reg b b` sets `B` to 1; `mov_reg_reg a c` sets `A` to 2, not
to 3. -/
theorem mov_reg_reg_ignores_second_operand :
    (List.range 3).map
      (fun i => (registerMachine "mov_reg_reg a a".toList).memory.cell (0x9000 + i)) =
      [0x33, 0x61, 0x61] ∧
    (step 0x9000 (registerMachine "mov_reg_reg a a".toList)).cpu.a = 2 ∧
    (step 0x9000 (registerMachine "mov_reg_reg a a".toList)).cpu.pc = 0x9003 ∧
    (step 0x9000 (registerMachine "mov_reg_reg c a".toList)).cpu.c = 3 ∧
    (step 0x9000 (registerMachine "mov_reg_reg c a".toList)).cpu.b = 1 ∧
    (step 0x9000 (registerMachine "mov_reg_reg b b".toList)).cpu.b = 1 ∧
    (step 0x9000 (registerMachine "mov_reg_reg a c".toList)).cpu.a = 2 := by
  decide

/-- C32: with an empty stack, RET, POP_A and POP_B do nothing: the stack stays
empty, the registers and flags are unchanged, the program counter is the
address just behind the one-byte instruction, the running flag is kept and
nothing is reported or printed. -/
theorem pop_on_empty_stack_is_noop (base : Nat) (op : Opcode) (s : Machine)
    (hop : op = .RET ∨ op = .POP_A ∨ op = .POP_B)
    (hfetch : s.memory.cell s.cpu.pc = op.toByte)
    (hempty : s.cpu.stack = []) :
    (step base s).cpu = { s.cpu with pc := (s.cpu.pc + 1) % 65536 } ∧
    (step base s).cpu.stack = [] ∧
    (step base s).cpu_running = s.cpu_running ∧
    (step base s).memory.cell = s.memory.cell ∧
    (step base s).cout = s.cout ∧ (step base s).cerr = s.cerr ∧
    (step base s).fetched = s.fetched + 1 := by
  rw [step_eq_exec base op s hfetch]
  rcases hop with rfl | rfl | rfl <;> simp [exec, Machine.fetch, hempty]

theorem pop_on_empty_stack_is_noop_witness :
    (step 0x9000 retMachine).cpu = { retMachine.cpu with pc := 0x9001 } ∧
    (step 0x9000 retMachine).cpu_running = true :=
  have h := pop_on_empty_stack_is_noop 0x9000 .RET retMachine (Or.inl rfl) (by decide) rfl
  ⟨h.1, h.2.2.1⟩

/-- C33: the stack is last-in-first-out and shared by the registers.  With
16-bit values in `A` and `B`, executing PUSH_A, PUSH_B, POP_A, POP_B in a row
leaves the stack as it was and exchanges the two registers; in between the
stack holds `B` on top of `A` on top of its initial content.  Nothing else
changes but the program counter. -/
theorem push_push_pop_pop_exchanges (base : Nat) (s : Machine)
    (ha : s.cpu.a < 65536) (hb : s.cpu.b < 65536)
    (h0 : s.memory.cell s.cpu.pc = Opcode.PUSH_A.toByte)
    (h1 : s.memory.cell ((s.cpu.pc + 1) % 65536) = Opcode.PUSH_B.toByte)
    (h2 : s.memory.cell ((s.cpu.pc + 2) % 65536) = Opcode.POP_A.toByte)
    (h3 : s.memory.cell ((s.cpu.pc + 3) % 65536) = Opcode.POP_B.toByte) :
    (step base (step base s)).cpu.stack = s.cpu.b :: s.cpu.a :: s.cpu.stack ∧
    (step base (step base (step base (step base s)))).cpu =
      { s.cpu with pc := (s.cpu.pc + 4) % 65536, a := s.cpu.b, b := s.cpu.a } ∧
    (step base (step base (step base (step base s)))).cpu.stack = s.cpu.stack ∧
    (step base (step base (step base (step base s)))).memory.cell = s.memory.cell ∧
    (step base (step base (step base (step base s)))).cpu_running = s.cpu_running := by
  have e2 : ((s.cpu.pc + 1) % 65536 + 1) % 65536 = (s.cpu.pc + 2) % 65536 := by omega
  have e3 : ((s.cpu.pc + 2) % 65536 + 1) % 65536 = (s.cpu.pc + 3) % 65536 := by omega
  have e4 : ((s.cpu.pc + 3) % 65536 + 1) % 65536 = (s.cpu.pc + 4) % 65536 := by omega
  have ma : s.cpu.a % 65536 = s.cpu.a := Nat.mod_eq_of_lt ha
  have mb : s.cpu.b % 65536 = s.cpu.b := Nat.mod_eq_of_lt hb
  have s1 : step base s =
      { s with memory := s.memory.touch s.cpu.pc,
               cpu := { s.cpu with pc := (s.cpu.pc + 1) % 65536,
                                   stack := s.cpu.a :: s.cpu.stack },
               fetched := s.fetched + 1 } := by
    rw [step_eq_exec base .PUSH_A s h0]
    simp [exec, Machine.fetch, Machine.push, ma]
  have s2 : step base (step base s) =
      { s with memory := (s.memory.touch s.cpu.pc).touch ((s.cpu.pc + 1) % 65536),
               cpu := { s.cpu with pc := (s.cpu.pc + 2) % 65536,
                                   stack := s.cpu.b :: s.cpu.a :: s.cpu.stack },
               fetched := s.fetched + 1 + 1 } := by
    rw [s1, step_eq_exec base .PUSH_B _ (by simpa using h1)]
    simp [exec, Machine.fetch, Machine.push, mb, e2]
  have s3 : step base (step base (step base s)) =
      { s with memory := ((s.memory.touch s.cpu.pc).touch ((s.cpu.pc + 1) % 65536)).touch
                 ((s.cpu.pc + 2) % 65536),
               cpu := { s.cpu with pc := (s.cpu.pc + 3) % 65536, a := s.cpu.b,
                                   stack := s.cpu.a :: s.cpu.stack },
               fetched := s.fetched + 1 + 1 + 1 } := by
    rw [s2, step_eq_exec base .POP_A _ (by simpa using h2)]
    simp [exec, Machine.fetch, mb, e3]
  have s4 : step base (step base (step base (step base s))) =
      { s with memory := (((s.memory.touch s.cpu.pc).touch ((s.cpu.pc + 1) % 65536)).touch
                 ((s.cpu.pc + 2) % 65536)).touch ((s.cpu.pc + 3) % 65536),
               cpu := { s.cpu with pc := (s.cpu.pc + 4) % 65536, a := s.cpu.b,
                                   b := s.cpu.a },
               fetched := s.fetched + 1 + 1 + 1 + 1 } := by
    rw [s3, step_eq_exec base .POP_B _ (by simpa using h3)]
    simp [exec, Machine.fetch, ma, e4]
  rw [s4, s2]
  exact ⟨rfl, rfl, rfl, rfl, rfl⟩

theorem push_push_pop_pop_exchanges_witness :
    (step 0x9000 (step 0x9000 exchangeMachine)).cpu.stack = [2, 1, 7] ∧
    (step 0x9000 (step 0x9000 (step 0x9000 (step 0x9000 exchangeMachine)))).cpu =
      { exchangeMachine.cpu with pc := 0x9004, a := 2, b := 1 } :=
  have h := push_push_pop_pop_exchanges 0x9000 exchangeMachine (by decide) (by decide)
    (by decide) (by decide) (by decide) (by decide)
  ⟨h.1, h.2.1⟩

/-! ## The size table and the drift of the passes (C34 and C35) -/

theorem known_mnemonic_has_size (d : Str) (h : (opcodeMap.lookup d).isSome = true) :
    ∃ size, instructionSize.lookup d = some size := by
  have hall : ∀ e ∈ opcodeMap, (instructionSize.lookup e.1).isSome = true := by decide
  obtain ⟨op, hop⟩ := Option.isSome_iff_exists.mp h
  have := hall (d, op) (lookup_mem d op opcodeMap hop)
  exact Option.isSome_iff_exists.mp this

/-- C34: every mnemonic of the opcode table has an entry in the instruction
size table.  Hence on a line whose first token is such a mnemonic pass 1 finds
the size and advances the cursor by it: the branch for a missing size (advance
by 1) is never taken. -/
theorem size_default_is_unreachable (u : Nat) (line d : Str) (iss : IStream)
    (st : TextAssembler)
    (hstmt : statement line = some (d, iss))
    (hop : (opcodeMap.lookup d).isSome = true) :
    (∀ e ∈ opcodeMap, (instructionSize.lookup e.1).isSome = true) ∧
    instructionSize.lookup d ≠ none ∧
    ∃ size, instructionSize.lookup d = some size ∧
      (firstPassLine u line st).currentAddress = (st.currentAddress + size) % 65536 := by
  obtain ⟨size, hsize⟩ := known_mnemonic_has_size d hop
  have horg : d ≠ ".org".toList := by
    intro h
    rw [h, org_is_no_mnemonic] at hop
    exact absurd hop (by decide)
  have hdb : d ≠ ".db".toList := by
    intro h
    rw [h] at hop
    exact absurd hop (by decide)
  refine ⟨by decide, by rw [hsize]; exact Option.some_ne_none _, size, hsize, ?_⟩
  rw [firstPassLine_of_statement u line st d iss hstmt]
  unfold advance
  rw [if_neg horg, if_neg hdb, if_pos hop, hsize]
  simp only
  rw [(recordLabel_frame _ st).2.1]

theorem size_default_is_unreachable_witness :
    instructionSize.lookup "mov_reg_imm".toList ≠ none ∧
    ∃ size, instructionSize.lookup "mov_reg_imm".toList = some size ∧
      (firstPassLine 0 "mov_reg_imm a 0x1000 5".toList
        (TextAssembler.init Memory.zero)).currentAddress = (0x9000 + size) % 65536 :=
  have h := size_default_is_unreachable 0 "mov_reg_imm a 0x1000 5".toList
    "mov_reg_imm".toList
    { buf := " a 0x1000 5".toList, eofbit := false, failbit := false, hex := false }
    (TextAssembler.init Memory.zero) (by decide) (by decide)
  ⟨h.2.1, h.2.2⟩

/-- C35: there is a source program with `mov_reg_imm` before a label on which
the passes drift apart.  In `jmp lp` / `mov_reg_imm a 0x1000 5` / `lp: halt`
pass 1 records `lp` at `L = 0x9007`, while pass 2 emits the `mov_reg_imm`
instruction at `M = 0x9003` (six bytes) and the labelled `halt` at
`P = 0x9009`.  So `L < P`, the address `L` lies among the operand bytes of
`mov_reg_imm` (`M < L < M + 6`), the operand of the jump is `L`, and executing
the jump sets the program counter to `L`, not to `P`. -/
theorem mov_reg_imm_makes_passes_drift :
    ∃ (pre : List Str) (mline lline label : Str) (L M P : Nat),
      (statement mline).map (fun p => p.1) = some "mov_reg_imm".toList ∧
      isLabelDefinition (preprocessLine lline) = some label ∧
      (firstPass 0 (pre ++ [mline, lline])
        (TextAssembler.init Memory.zero)).symbolTable.lookup label = some L ∧
      (doSecondPass 0 pre
        (firstPass 0 (pre ++ [mline, lline])
          (TextAssembler.init Memory.zero))).currentAddress = M ∧
      (doSecondPass 0 (pre ++ [mline])
        (firstPass 0 (pre ++ [mline, lline])
          (TextAssembler.init Memory.zero))).currentAddress = P ∧
      (assemble 0 0 (pre ++ [mline, lline]) (TextAssembler.init Memory.zero)).memory.cell M =
        Opcode.MOV_REG_IMM.toByte ∧
      (assemble 0 0 (pre ++ [mline, lline]) (TextAssembler.init Memory.zero)).memory.cell P =
        Opcode.HALT.toByte ∧
      L < P ∧ M < L ∧ L < M + 6 ∧
      (step 0x9000 (Machine.boot 0x9000
        (assemble 0 0 (pre ++ [mline, lline]) (TextAssembler.init Memory.zero)).memory
        [])).cpu.pc = L :=
  ⟨["jmp lp".toList], "mov_reg_imm a 0x1000 5".toList, "lp: halt".toList, "lp".toList,
    0x9007, 0x9003, 0x9009, by decide⟩

/-! ## Arithmetic, memory round trips and the opcode table (C36 to C40) -/

theorem sub_wraps (a b : Nat) (ha : a < 65536) (hb : b < 65536) :
    (a + 65536 - b % 65536) % 65536 = (((a : Int) - (b : Int)) % 65536).toNat := by
  omega

/-- C36: with 16-bit values in `A` and `B`, each of ADD, SUB, MUL, AND, OR,
XOR, NOT, SHL, SHR sets `A` to the stated function of `A` and `B` (sum,
difference and product modulo 2^16, bitwise and, or, xor, complement
`65535 - A`, double modulo 2^16, half), advances the program counter by 1 and
changes nothing else: `B`, `C`, the flags, the stack, the memory cells, the
running flag and the output are as before. -/
theorem register_arithmetic_is_exact (base : Nat) (op : Opcode) (s : Machine)
    (hop : op ∈ registerArithmetic)
    (hfetch : s.memory.cell s.cpu.pc = op.toByte)
    (ha : s.cpu.a < 65536) (hb : s.cpu.b < 65536) :
    (step base s).cpu =
      { s.cpu with pc := (s.cpu.pc + 1) % 65536,
                   a := claimedResult op s.cpu.a s.cpu.b } ∧
    claimedResult op s.cpu.a s.cpu.b < 65536 ∧
    (step base s).memory.cell = s.memory.cell ∧
    (step base s).cpu_running = s.cpu_running ∧
    (step base s).cout = s.cout ∧ (step base s).cerr = s.cerr := by
  have hand : s.cpu.a &&& s.cpu.b < 65536 := lt_of_le_of_lt Nat.and_le_left ha
  have hor : s.cpu.a ||| s.cpu.b < 2 ^ 16 := Nat.or_lt_two_pow (by omega) (by omega)
  have hxor : s.cpu.a ^^^ s.cpu.b < 2 ^ 16 := Nat.xor_lt_two_pow (by omega) (by omega)
  have hshl : s.cpu.a <<< 1 = 2 * s.cpu.a := by
    rw [Nat.shiftLeft_eq]; omega
  have hshr : s.cpu.a >>> 1 = s.cpu.a / 2 := by
    rw [Nat.shiftRight_eq_div_pow, pow_one]
  have hsub := sub_wraps s.cpu.a s.cpu.b ha hb
  rw [step_eq_exec base op s hfetch]
  simp only [registerArithmetic, List.mem_cons, List.mem_singleton, List.not_mem_nil,
    or_false] at hop
  rcases hop with rfl | rfl | rfl | rfl | rfl | rfl | rfl | rfl | rfl
  · simp [exec, Machine.fetch, Machine.setA, claimedResult, Nat.mod_lt]
  · have hlt : (((s.cpu.a : Int) - (s.cpu.b : Int)) % 65536).toNat < 65536 := by omega
    simp only [exec, Machine.fetch, Machine.setA, claimedResult, hsub]
    simp [hlt]
  · simp [exec, Machine.fetch, Machine.setA, claimedResult, Nat.mod_lt]
  · simp [exec, Machine.fetch, Machine.setA, claimedResult, Nat.mod_eq_of_lt hand, hand]
  · have h : s.cpu.a ||| s.cpu.b < 65536 := hor
    simp [exec, Machine.fetch, Machine.setA, claimedResult, Nat.mod_eq_of_lt h, h]
  · have h : s.cpu.a ^^^ s.cpu.b < 65536 := hxor
    simp [exec, Machine.fetch, Machine.setA, claimedResult, Nat.mod_eq_of_lt h, h]
  · have h1 : s.cpu.a % 65536 = s.cpu.a := Nat.mod_eq_of_lt ha
    have h2 : (65535 - s.cpu.a) % 65536 = 65535 - s.cpu.a := by omega
    have h3 : 65535 - s.cpu.a < 65536 := by omega
    simp [exec, Machine.fetch, Machine.setA, claimedResult, h1, h2, h3]
  · simp [exec, Machine.fetch, Machine.setA, claimedResult, hshl, Nat.mod_lt]
  · have h2 : s.cpu.a / 2 % 65536 = s.cpu.a / 2 := by omega
    have h3 : s.cpu.a / 2 < 65536 := by omega
    simp [exec, Machine.fetch, Machine.setA, claimedResult, hshr, h2, h3]

theorem register_arithmetic_is_exact_witness :
    (step 0x9000 subMachine).cpu = { subMachine.cpu with pc := 0x9001, a := 65535 } :=
  (register_arithmetic_is_exact 0x9000 .SUB subMachine (by decide) (by decide) (by decide)
    (by decide)).1

/-- C37 (evaluation at the failing input): STORE_A_MEM writes the low byte of
`A` at the address and the high byte behind it, but LOAD_A_MEM reads the byte
at the address as the high byte and the byte behind it as the low byte.  With
`A = 0x1234` stored at `0x1000`, `A` cleared and loaded back, `A` is `0x3412`. -/
theorem store_a_then_load_a_swaps_bytes :
    (start 0x9000 1 storeLoadMachine).cpu.a = 0x1234 ∧
    (start 0x9000 2 storeLoadMachine).memory.cell 0x1000 = 0x34 ∧
    (start 0x9000 2 storeLoadMachine).memory.cell 0x1001 = 0x12 ∧
    (start 0x9000 2 storeLoadMachine).memory.oob = false ∧
    (start 0x9000 3 storeLoadMachine).cpu.a = 0 ∧
    (start 0x9000 4 storeLoadMachine).cpu.a = 0x3412 ∧
    (start 0x9000 4 storeLoadMachine).cpu.pc = 0x900C ∧
    (start 0x9000 4 storeLoadMachine).cpu_running = true := by
  decide

theorem bytes_join (v : Nat) (hv : v < 65536) :
    (((v &&& 0xFF) % 256 &&& 0xFF) ||| ((((v >>> 8) &&& 0xFF) % 256 &&& 0xFF) <<< 8)) % 65536 =
      v := by
  have h0 : (0xFF : Nat) = 2 ^ 8 - 1 := by norm_num
  have hlo : v &&& 0xFF = v % 256 := by
    rw [h0, Nat.and_pow_two_sub_one_eq_mod]
  have hhi : (v >>> 8) &&& 0xFF = v / 256 := by
    rw [h0, Nat.and_pow_two_sub_one_eq_mod, Nat.shiftRight_eq_div_pow]
    omega
  have hlo2 : (v % 256) % 256 &&& 0xFF = v % 256 := by
    rw [h0, Nat.and_pow_two_sub_one_eq_mod]
    omega
  have hhi2 : (v / 256) % 256 &&& 0xFF = v / 256 := by
    rw [h0, Nat.and_pow_two_sub_one_eq_mod]
    omega
  rw [hlo, hhi, hlo2, hhi2, Nat.shiftLeft_eq, Nat.lor_comm, Nat.mul_comm,
    ← Nat.mul_add_lt_is_or (show v % 256 < 2 ^ 8 by omega)]
  omega

/-- The step of MOV_MEM_REG with address operand `X` and register letter `a`
or `b`: the low byte of the register goes to `X`, the high byte to `X + 1`. -/
theorem step_mov_mem_reg (base X r : Nat) (s : Machine) (hX : X < 65536)
    (hr : r = 97 ∨ r = 98)
    (h0 : s.memory.cell s.cpu.pc = Opcode.MOV_MEM_REG.toByte)
    (h1 : s.memory.cell ((s.cpu.pc + 1) % 65536) = X / 256)
    (h2 : s.memory.cell ((s.cpu.pc + 2) % 65536) = X % 256)
    (h3 : s.memory.cell ((s.cpu.pc + 3) % 65536) = r) :
    (step base s).cpu = { s.cpu with pc := (s.cpu.pc + 4) % 65536 } ∧
    (step base s).memory.cell X = ((if r = 97 then s.cpu.a else s.cpu.b) &&& 0xFF) % 256 ∧
    (step base s).memory.cell (X + 1) =
      (((if r = 97 then s.cpu.a else s.cpu.b) >>> 8) &&& 0xFF) % 256 := by
  have e2 : ((s.cpu.pc + 1) % 65536 + 1) % 65536 = (s.cpu.pc + 2) % 65536 := by omega
  have e3 : ((s.cpu.pc + 2) % 65536 + 1) % 65536 = (s.cpu.pc + 3) % 65536 := by omega
  have e4 : ((s.cpu.pc + 3) % 65536 + 1) % 65536 = (s.cpu.pc + 4) % 65536 := by omega
  have hfa := fetchAddr_eq s.fetch.2 X hX (by simpa [Machine.fetch] using h1)
    (by simpa [Machine.fetch, e2] using h2)
  rw [step_eq_exec base .MOV_MEM_REG s h0]
  simp only [exec, hfa]
  rcases hr with rfl | rfl
  · simp [Machine.fetch, Machine.store, e2, e3, e4, h3]
  · simp [Machine.fetch, Machine.store, e2, e3, e4, h3]

/-- The step of MOV_REG_MEM2 with register letter `a` or `b` and address
operand `X`: the register becomes the byte at `X` as low byte and the byte at
`X + 1` as high byte. -/
theorem step_mov_reg_mem2 (base X d : Nat) (t : Machine) (hX : X < 65536)
    (hd : d = 97 ∨ d = 98)
    (h0 : t.memory.cell t.cpu.pc = Opcode.MOV_REG_MEM2.toByte)
    (h1 : t.memory.cell ((t.cpu.pc + 1) % 65536) = d)
    (h2 : t.memory.cell ((t.cpu.pc + 2) % 65536) = X / 256)
    (h3 : t.memory.cell ((t.cpu.pc + 3) % 65536) = X % 256) :
    (d = 97 → (step base t).cpu =
      { t.cpu with pc := (t.cpu.pc + 4) % 65536,
                   a := ((t.memory.cell X &&& 0xFF) |||
                     ((t.memory.cell (X + 1) &&& 0xFF) <<< 8)) % 65536 }) ∧
    (d = 98 → (step base t).cpu =
      { t.cpu with pc := (t.cpu.pc + 4) % 65536,
                   b := ((t.memory.cell X &&& 0xFF) |||
                     ((t.memory.cell (X + 1) &&& 0xFF) <<< 8)) % 65536 }) ∧
    (step base t).memory.cell = t.memory.cell := by
  have e2 : ((t.cpu.pc + 1) % 65536 + 1) % 65536 = (t.cpu.pc + 2) % 65536 := by omega
  have e3 : ((t.cpu.pc + 2) % 65536 + 1) % 65536 = (t.cpu.pc + 3) % 65536 := by omega
  have e4 : ((t.cpu.pc + 3) % 65536 + 1) % 65536 = (t.cpu.pc + 4) % 65536 := by omega
  have hfa := fetchAddr_eq t.fetch.2.fetch.2 X hX (by simpa [Machine.fetch, e2] using h2)
    (by simpa [Machine.fetch, e2, e3] using h3)
  rw [step_eq_exec base .MOV_REG_MEM2 t h0]
  simp only [exec, hfa]
  rcases hd with rfl | rfl
  · simp [Machine.fetch, Machine.load, Machine.setA, e2, e3, e4, h1]
  · simp [Machine.fetch, Machine.load, Machine.setB, e2, e3, e4, h1]

/-- C38: for an address `X` with `X` and `X + 1` inside memory, a source
register `r` and a destination register `d` among a, b, and a 16-bit value in
the source register: MOV_MEM_REG `X r` stores the low byte of the value at `X`
and the high byte at `X + 1`, and MOV_REG_MEM2 `d X` executed next reads them
back in the same order, so register `d` then holds exactly the value register
`r` held before the store. -/
theorem mov_mem_reg_round_trip (base X r d : Nat) (s : Machine)
    (hin : X + 1 < MEMORY_MAX)
    (hr : r = 97 ∨ r = 98) (hd : d = 97 ∨ d = 98)
    (ha : s.cpu.a < 65536) (hb : s.cpu.b < 65536)
    (h0 : s.memory.cell s.cpu.pc = Opcode.MOV_MEM_REG.toByte)
    (h1 : s.memory.cell ((s.cpu.pc + 1) % 65536) = X / 256)
    (h2 : s.memory.cell ((s.cpu.pc + 2) % 65536) = X % 256)
    (h3 : s.memory.cell ((s.cpu.pc + 3) % 65536) = r)
    (g0 : (step base s).memory.cell ((s.cpu.pc + 4) % 65536) = Opcode.MOV_REG_MEM2.toByte)
    (g1 : (step base s).memory.cell ((s.cpu.pc + 5) % 65536) = d)
    (g2 : (step base s).memory.cell ((s.cpu.pc + 6) % 65536) = X / 256)
    (g3 : (step base s).memory.cell ((s.cpu.pc + 7) % 65536) = X % 256) :
    Memory.InBounds X ∧ Memory.InBounds (X + 1) ∧
    (step base s).memory.cell X = (if r = 97 then s.cpu.a else s.cpu.b) % 256 ∧
    (step base s).memory.cell (X + 1) = (if r = 97 then s.cpu.a else s.cpu.b) / 256 ∧
    (d = 97 → (step base (step base s)).cpu.a = if r = 97 then s.cpu.a else s.cpu.b) ∧
    (d = 98 → (step base (step base s)).cpu.b = if r = 97 then s.cpu.a else s.cpu.b) := by
  have hM : MEMORY_MAX = 65535 := rfl
  have hX : X < 65536 := by omega
  have hv : (if r = 97 then s.cpu.a else s.cpu.b) < 65536 := by
    split <;> assumption
  obtain ⟨hcpu, hlo, hhi⟩ := step_mov_mem_reg base X r s hX hr h0 h1 h2 h3
  have hpc : (step base s).cpu.pc = (s.cpu.pc + 4) % 65536 := by rw [hcpu]
  have e5 : ((s.cpu.pc + 4) % 65536 + 1) % 65536 = (s.cpu.pc + 5) % 65536 := by omega
  have e6 : ((s.cpu.pc + 4) % 65536 + 2) % 65536 = (s.cpu.pc + 6) % 65536 := by omega
  have e7 : ((s.cpu.pc + 4) % 65536 + 3) % 65536 = (s.cpu.pc + 7) % 65536 := by omega
  obtain ⟨hda, hdb, _⟩ := step_mov_reg_mem2 base X d (step base s) hX hd
    (by rw [hpc]; exact g0) (by rw [hpc, e5]; exact g1) (by rw [hpc, e6]; exact g2)
    (by rw [hpc, e7]; exact g3)
  have hjoin := bytes_join _ hv
  have h0F : (0xFF : Nat) = 2 ^ 8 - 1 := by norm_num
  refine ⟨by unfold Memory.InBounds; omega, by unfold Memory.InBounds; omega, ?_, ?_, ?_, ?_⟩
  · rw [hlo, h0F, Nat.and_pow_two_sub_one_eq_mod]
    omega
  · rw [hhi, h0F, Nat.and_pow_two_sub_one_eq_mod, Nat.shiftRight_eq_div_pow]
    omega
  · intro h
    rw [hda h, hlo, hhi]
    exact hjoin
  · intro h
    rw [hdb h, hlo, hhi]
    exact hjoin

theorem mov_mem_reg_round_trip_witness :
    (step 0x9000 roundTripMachine).memory.cell 0x1000 = 0x34 ∧
    (step 0x9000 roundTripMachine).memory.cell 0x1001 = 0x12 ∧
    (step 0x9000 (step 0x9000 roundTripMachine)).cpu.b = 0x1234 :=
  have h := mov_mem_reg_round_trip 0x9000 0x1000 97 98 roundTripMachine (by decide)
    (Or.inl rfl) (Or.inr rfl) (by decide) (by decide) (by decide) (by decide) (by decide)
    (by decide) (by decide) (by decide) (by decide) (by decide)
  ⟨h.2.2.1, h.2.2.2.1, h.2.2.2.2.2 rfl⟩

/-- C39 (evaluation at the failing input): the bound check `addr < MEMORY_MAX`
of STORE_A_MEM and LOAD_A_MEM covers the first byte only.  The operand address
`0xFFFE` passes the check, and the second byte is then accessed at index
`0xFFFF`, which is outside the array of `MEMORY_MAX = 0xFFFF` bytes: the store
writes the high byte of `A` there, the load reads from there. -/
theorem guarded_access_reaches_past_the_array :
    0xFFFE < MEMORY_MAX ∧ Memory.InBounds 0xFFFE ∧ ¬ Memory.InBounds (0xFFFE + 1) ∧
    (List.range 3).map (fun i => edgeStoreMachine.memory.cell (0x9000 + i)) =
      [0x21, 0xFF, 0xFE] ∧
    edgeStoreMachine.memory.oob = false ∧
    (step 0x9000 edgeStoreMachine).memory.oob = true ∧
    (step 0x9000 edgeStoreMachine).memory.cell 0xFFFE = 0x34 ∧
    (step 0x9000 edgeStoreMachine).memory.cell 0xFFFF = 0x12 ∧
    (List.range 3).map (fun i => edgeLoadMachine.memory.cell (0x9000 + i)) =
      [0x20, 0xFF, 0xFE] ∧
    edgeLoadMachine.memory.oob = false ∧
    (step 0x9000 edgeLoadMachine).memory.oob = true := by
  decide

theorem opcodeMap_injective :
    ∀ e1 ∈ opcodeMap, ∀ e2 ∈ opcodeMap, e1.2.toByte = e2.2.toByte → e1 = e2 := by
  decide

/-- The diagnostics an opcode `case` can add never include `Unknown opcode`. -/
theorem exec_cerr (base : Nat) (op : Opcode) (s : Machine) :
    (exec base op s).cerr = s.cerr ∨
    ∃ d : Diag, (exec base op s).cerr = s.cerr ++ [d] ∧
      ∀ (byte : Nat) (at_pc : Int), d ≠ Diag.unknownOpcode byte at_pc := by
  cases op <;>
    simp only [exec, Machine.jumpIf] <;> (try split_ifs) <;> (try split) <;>
    simp [Machine.fetch, Machine.fetchAddr, Machine.setA, Machine.setB, Machine.setC,
      Machine.setPc, Machine.push, Machine.stop, Machine.printNum, Machine.printChar,
      Machine.printEndl, Machine.report, Machine.wait_cycles, Machine.load, Machine.store]

/-- C40: the opcode table is injective and closed under decoding.  No two
entries of the table have the same opcode byte (and no mnemonic occurs twice);
every opcode byte of the table is decoded to its own `case`; so when the
engine fetches the first byte that pass 2 emitted for a line with a known
mnemonic, it runs the `case` of that mnemonic and not the `Unknown opcode`
branch: no such diagnostic is added. -/
theorem emitted_opcode_is_dispatched (base u : Nat) (line mn : Str) (iss : IStream)
    (op : Opcode) (st : TextAssembler) (s : Machine)
    (hstmt : statement line = some (mn, iss))
    (hop : opcodeMap.lookup mn = some op)
    (hmem : s.memory.cell s.cpu.pc = (parseLine u line st).memory.cell st.currentAddress) :
    (∀ e1 ∈ opcodeMap, ∀ e2 ∈ opcodeMap, e1.2.toByte = e2.2.toByte → e1 = e2) ∧
    (opcodeMap.map (fun e => e.1)).Nodup ∧
    (∀ e ∈ opcodeMap, decode e.2.toByte = some e.2) ∧
    decode (s.memory.cell s.cpu.pc) = some op ∧
    step base s = exec base op s.fetch.2 ∧
    ∀ (byte : Nat) (at_pc : Int), Diag.unknownOpcode byte at_pc ∉ s.cerr →
      Diag.unknownOpcode byte at_pc ∉ (step base s).cerr := by
  have hcell : s.memory.cell s.cpu.pc = op.toByte := by
    rw [hmem, parseLine_opcode_cell u line mn iss op st hstmt hop]
  have hstep := step_eq_exec base op s hcell
  refine ⟨opcodeMap_injective, by decide, fun e _ => decode_toByte e.2,
    by rw [hcell]; exact decode_toByte op, hstep, ?_⟩
  intro byte at_pc hnot
  rw [hstep]
  rcases exec_cerr base op s.fetch.2 with h | ⟨d, h, hd⟩
  · rw [h]
    exact hnot
  · rw [h]
    intro hmemb
    rcases List.mem_append.mp hmemb with h1 | h1
    · exact hnot h1
    · exact hd byte at_pc (List.mem_singleton.mp h1).symm

theorem emitted_opcode_is_dispatched_witness :
    decode (intLineMachine.memory.cell intLineMachine.cpu.pc) = some Opcode.INT ∧
    ∀ (byte : Nat) (at_pc : Int),
      Diag.unknownOpcode byte at_pc ∉ (step 0x9000 intLineMachine).cerr :=
  have h := emitted_opcode_is_dispatched 0x9000 0 "int 0x10".toList "int".toList
    { buf := " 0x10".toList, eofbit := false, failbit := false, hex := false } .INT
    (TextAssembler.init Memory.zero) intLineMachine (by decide) (by decide) (by decide)
  ⟨h.2.2.2.1,
    fun byte at_pc => h.2.2.2.2.2 byte at_pc (by simp [intLineMachine, Machine.boot])⟩

end HexaVM
